import Mathlib

/-!
Verification of the weechess chess engine (weechess-core / weechess-engine)
against its natural-language specification.

The Rust sources are shallowly embedded: 64-bit bitboards become `Nat`
(with explicit reduction modulo `2 ^ 64` wherever the `u64` semantics can
overflow), the packed 32-bit move word becomes a `Nat`, fallible Rust code
(functions returning `Result`, and `unwrap()` calls that can panic) becomes
`Option` / `Except`.
-/

set_option maxRecDepth 8000

namespace Weechess

/-- The modulus of 64-bit machine words. -/
def u64Mod : Nat := 2 ^ 64

/-- The all-ones 64-bit word, used for the `u64` bitwise complement `!x`. -/
def u64Ones : Nat := 2 ^ 64 - 1

/-- Bitwise complement inside a 64-bit word (`!x` on `u64`). -/
def bbNot (x : Nat) : Nat := x ^^^ u64Ones

/-- The all-ones 32-bit word, used for the `u32` bitwise complement. -/
def u32Ones : Nat := 2 ^ 32 - 1

/-- `Color`, from `weechess-core/src/color.rs`. -/
inductive Color where
  | white
  | black
deriving DecidableEq, Fintype

/-- `Color::opposing_color`. -/
def Color.opposing : Color → Color
  | .white => .black
  | .black => .white

/-- `Piece`, from `weechess-core` (`piece.rs`): includes the `None` variant. -/
inductive Piece where
  | none
  | pawn
  | knight
  | bishop
  | rook
  | queen
  | king
deriving DecidableEq, Fintype

/-- The `u8` discriminant of a `Piece` (`Piece as u8`). -/
def Piece.toNat : Piece → Nat
  | .none => 0
  | .pawn => 1
  | .knight => 2
  | .bishop => 3
  | .rook => 4
  | .queen => 5
  | .king => 6

/-- `Piece::try_from_primitive`: the partial inverse of the discriminant. -/
def pieceOfNat? : Nat → Option Piece
  | 0 => some .none
  | 1 => some .pawn
  | 2 => some .knight
  | 3 => some .bishop
  | 4 => some .rook
  | 5 => some .queen
  | 6 => some .king
  | _ => none

/-- `Piece::ALL` (the six real pieces, no `None`). -/
def Piece.all : List Piece := [.pawn, .knight, .bishop, .rook, .queen, .king]

/-- `PieceIndex`: a color plus a piece kind.  The Rust code packs the pair
into 4 bits (`color << 3 | piece`); the embedding keeps the pair, which the
packing recovers exactly (spec §3 invariant). -/
structure PieceIdx where
  color : Color
  piece : Piece
deriving DecidableEq, Fintype

/-- `Side` (king / queen side), from `board.rs`. -/
inductive Side where
  | king
  | queen
deriving DecidableEq, Fintype

/-- Squares are integers in `[0, 64)`, `square = rank*8 + file`, `A1 = 0`. -/
abbrev Square := Fin 64

/-- `Square::file` as a raw index in `[0, 8)`. -/
def Square.fileNat (sq : Square) : Nat := (sq : Nat) % 8

/-- `Square::rank` as a raw index in `[0, 8)`. -/
def Square.rankNat (sq : Square) : Nat := (sq : Nat) / 8

/-- A `(file_delta, rank_delta)` offset, from `board.rs`. -/
structure Offset where
  file : Int
  rank : Int
deriving DecidableEq

def Offset.north : Offset := ⟨0, 1⟩

def Offset.south : Offset := ⟨0, -1⟩

def Offset.east : Offset := ⟨1, 0⟩

def Offset.west : Offset := ⟨-1, 0⟩

/-- Componentwise addition of offsets (`impl Add for Offset`). -/
def Offset.add (a b : Offset) : Offset := ⟨a.file + b.file, a.rank + b.rank⟩

/-- `Square::offset`: move by an offset, failing iff the result leaves the
board. -/
def Square.offset (sq : Square) (o : Offset) : Option Square :=
  let f : Int := (sq.fileNat : Int) + o.file
  let r : Int := (sq.rankNat : Int) + o.rank
  if h : 0 ≤ f ∧ f ≤ 7 ∧ 0 ≤ r ∧ r ≤ 7 then
    some ⟨(r * 8 + f).toNat, by omega⟩
  else
    none

/-- `Square::from((Rank, File))`: `rank * 8 + file`. -/
def squareOfRankFile (r f : Fin 8) : Square :=
  ⟨r.val * 8 + f.val, by omega⟩

/-- `Color::forward`: the pawn-push direction. -/
def Color.forward : Color → Offset
  | .white => .north
  | .black => .south

/-- `Color::backward`. -/
def Color.backward : Color → Offset
  | .white => .south
  | .black => .north

/-- `Rank::abs_distance_to` applied to the ranks of two squares. -/
def rankDist (a b : Square) : Nat :=
  ((a.rankNat : Int) - (b.rankNat : Int)).natAbs

/-- `Rank::opposing_rank`: `7 - rank`. -/
def oppRank (r : Fin 8) : Fin 8 := ⟨7 - r.val, by omega⟩

/-! ## Packed 32-bit moves (`weechess-core/src/moves.rs`, `mod compact`) -/

namespace MoveBits

def pieceOffset : Nat := 0

def pieceMask : Nat := 0b1111

def originOffset : Nat := 4

def originMask : Nat := 0b111111 <<< originOffset

def destOffset : Nat := 10

def destMask : Nat := 0b111111 <<< destOffset

def captureOffset : Nat := 16

def captureMask : Nat := 0b1111 <<< captureOffset

def promotionOffset : Nat := 20

def promotionMask : Nat := 0b1111 <<< promotionOffset

def enPassantOffset : Nat := 24

def doublePawnOffset : Nat := 25

def castleQueensideOffset : Nat := 26

def castleKingsideOffset : Nat := 27

def colorOffset : Nat := 28

/-- `compact::store`: `*data |= (value << offset) & mask`. -/
def store (data : Nat) (offset mask value : Nat) : Nat :=
  data ||| ((value <<< offset) &&& mask)

/-- `compact::load`: `(data & mask) >> offset`. -/
def load (data : Nat) (offset mask : Nat) : Nat :=
  (data &&& mask) >>> offset

/-- `compact::bit`: `data & (1 << bit) != 0`. -/
def getBit (data : Nat) (bit : Nat) : Bool :=
  decide (data &&& (1 <<< bit) ≠ 0)

/-- `compact::set_bit` (the complement is the 32-bit `!mask`). -/
def setBit (data : Nat) (bit : Nat) (value : Bool) : Nat :=
  if value then data ||| (1 <<< bit) else data &&& ((1 <<< bit) ^^^ u32Ones)

end MoveBits

/-- A packed move word (`Move(u32)` in the source). -/
abbrev Move := Nat

namespace Move

/-- `BitSetExt::set_piece`. -/
def setPiece (data : Nat) (p : Piece) : Nat :=
  MoveBits.store data MoveBits.pieceOffset MoveBits.pieceMask p.toNat

/-- `BitSetExt::set_origin`. -/
def setOrigin (data : Nat) (sq : Square) : Nat :=
  MoveBits.store data MoveBits.originOffset MoveBits.originMask sq.val

/-- `BitSetExt::set_dest`. -/
def setDest (data : Nat) (sq : Square) : Nat :=
  MoveBits.store data MoveBits.destOffset MoveBits.destMask sq.val

/-- `BitSetExt::set_capture`. -/
def setCapture (data : Nat) (c : Option Piece) : Nat :=
  MoveBits.store data MoveBits.captureOffset MoveBits.captureMask
    ((c.map Piece.toNat).getD 0)

/-- `BitSetExt::set_promotion`. -/
def setPromotion (data : Nat) (p : Option Piece) : Nat :=
  MoveBits.store data MoveBits.promotionOffset MoveBits.promotionMask
    ((p.map Piece.toNat).getD 0)

/-- `BitSetExt::set_en_passant`. -/
def setEnPassant (data : Nat) (b : Bool) : Nat :=
  MoveBits.setBit data MoveBits.enPassantOffset b

/-- `BitSetExt::set_double_pawn`. -/
def setDoublePawn (data : Nat) (b : Bool) : Nat :=
  MoveBits.setBit data MoveBits.doublePawnOffset b

/-- `BitSetExt::set_castle_queenside`. -/
def setCastleQueenside (data : Nat) (b : Bool) : Nat :=
  MoveBits.setBit data MoveBits.castleQueensideOffset b

/-- `BitSetExt::set_castle_kingside`. -/
def setCastleKingside (data : Nat) (b : Bool) : Nat :=
  MoveBits.setBit data MoveBits.castleKingsideOffset b

/-- `BitSetExt::set_color`. -/
def setColor (data : Nat) (b : Bool) : Nat :=
  MoveBits.setBit data MoveBits.colorOffset b

/-- `Move::piece`.  The source decodes the 4-bit field with
`try_from_primitive(..).unwrap()`; the panic on an undecodable field (which
no constructor ever produces) is modelled by falling back to `Piece.none`. -/
def piece (m : Move) : Piece :=
  (pieceOfNat? (MoveBits.load m MoveBits.pieceOffset MoveBits.pieceMask)).getD .none

/-- `Move::origin` (the 6-bit field is `< 64`). -/
def origin (m : Move) : Square :=
  ⟨MoveBits.load m MoveBits.originOffset MoveBits.originMask, by
    unfold MoveBits.load
    have h1 := @Nat.and_le_right m MoveBits.originMask
    have h2 : MoveBits.originMask = 1008 := by decide
    rw [h2] at h1
    rw [h2, MoveBits.originOffset, Nat.shiftRight_eq_div_pow,
      show (2 : Nat) ^ 4 = 16 from by norm_num]
    omega⟩

/-- `Move::destination` (the 6-bit field is `< 64`). -/
def destination (m : Move) : Square :=
  ⟨MoveBits.load m MoveBits.destOffset MoveBits.destMask, by
    unfold MoveBits.load
    have h1 := @Nat.and_le_right m MoveBits.destMask
    have h2 : MoveBits.destMask = 64512 := by decide
    rw [h2] at h1
    rw [h2, MoveBits.destOffset, Nat.shiftRight_eq_div_pow,
      show (2 : Nat) ^ 10 = 1024 from by norm_num]
    omega⟩

/-- `Move::capture` (`None` iff the 4-bit field is zero; an undecodable
nonzero field, impossible for constructor-built moves, maps to `none`
instead of panicking). -/
def capture (m : Move) : Option Piece :=
  let c := MoveBits.load m MoveBits.captureOffset MoveBits.captureMask
  if c = 0 then none else pieceOfNat? c

/-- `Move::promotion`. -/
def promotion (m : Move) : Option Piece :=
  let p := MoveBits.load m MoveBits.promotionOffset MoveBits.promotionMask
  if p = 0 then none else pieceOfNat? p

/-- `Move::is_capture`. -/
def isCapture (m : Move) : Bool := (capture m).isSome

/-- `Move::is_promotion`. -/
def isPromotion (m : Move) : Bool := (promotion m).isSome

/-- `Move::is_en_passant`. -/
def isEnPassant (m : Move) : Bool := MoveBits.getBit m MoveBits.enPassantOffset

/-- `Move::is_double_pawn`. -/
def isDoublePawn (m : Move) : Bool := MoveBits.getBit m MoveBits.doublePawnOffset

/-- `BitSetExt::castle_queenside`. -/
def castleQueenside (m : Move) : Bool := MoveBits.getBit m MoveBits.castleQueensideOffset

/-- `BitSetExt::castle_kingside`. -/
def castleKingside (m : Move) : Bool := MoveBits.getBit m MoveBits.castleKingsideOffset

/-- `Move::castle_side`. -/
def castleSide (m : Move) : Option Side :=
  if castleQueenside m then some .queen
  else if castleKingside m then some .king
  else none

/-- `Move::is_castle`. -/
def isCastle (m : Move) (s : Side) : Bool := castleSide m = some s

/-- `Move::is_any_castle`. -/
def isAnyCastle (m : Move) : Bool := isCastle m .queen || isCastle m .king

/-- `Move::color`. -/
def color (m : Move) : Color :=
  if MoveBits.getBit m MoveBits.colorOffset then .white else .black

/-- `Move::by_moving`. -/
def byMoving (p : PieceIdx) (origin dest : Square) : Move :=
  let bits := 0
  let bits := setPiece bits p.piece
  let bits := setOrigin bits origin
  let bits := setDest bits dest
  let bits := setColor bits (p.color = Color.white)
  if p.piece = Piece.pawn ∧ 1 < rankDist origin dest then
    setDoublePawn bits true
  else
    bits

/-- `Move::by_capturing`. -/
def byCapturing (p : PieceIdx) (origin dest : Square) (capturing : Piece) : Move :=
  setCapture (byMoving p origin dest) (some capturing)

/-- `Move::by_promoting`. -/
def byPromoting (p : PieceIdx) (origin dest : Square) (promo : Piece) : Move :=
  setPromotion (byMoving p origin dest) (some promo)

/-- `Move::by_capture_promoting`. -/
def byCapturePromoting (p : PieceIdx) (origin dest : Square)
    (capturing promo : Piece) : Move :=
  setPromotion (setCapture (byMoving p origin dest) (some capturing)) (some promo)

/-- `Move::by_en_passant`. -/
def byEnPassant (p : PieceIdx) (origin dest : Square) : Move :=
  setCapture (setEnPassant (byMoving p origin dest) true) (some .pawn)

/-- `common::KING_ORIGINS`. -/
def kingOrigin : Color → Square
  | .white => ⟨4, by omega⟩
  | .black => ⟨60, by omega⟩

/-- `common::CASTLE_DESTS`. -/
def castleDest : Color → Side → Square
  | .white, .king => ⟨6, by omega⟩
  | .white, .queen => ⟨2, by omega⟩
  | .black, .king => ⟨62, by omega⟩
  | .black, .queen => ⟨58, by omega⟩

/-- `Move::by_castling`. -/
def byCastling (c : Color) (s : Side) : Move :=
  let origin := kingOrigin c
  let dest := castleDest c s
  let m := byMoving ⟨c, .king⟩ origin dest
  let m := setCastleQueenside m (s = Side.queen)
  setCastleKingside m (s = Side.king)

end Move

/-! ## Move queries (`weechess-core/src/moves.rs`, `MoveQuery`) -/

/-- `MoveQuery`: a partial specification of a move. -/
structure MoveQuery where
  piece : Option Piece
  originRank : Option (Fin 8)
  originFile : Option (Fin 8)
  destRank : Option (Fin 8)
  destFile : Option (Fin 8)
  promotion : Option Piece
  castle : Option Side
  isCapture : Option Bool
deriving DecidableEq

/-- `MoveQuery::new`. -/
def MoveQuery.empty : MoveQuery :=
  ⟨none, none, none, none, none, none, none, none⟩

/-- `MoveQuery::test`: each early-return check of the source becomes one
conjunct, in source order.  Every specified field must match; the queried
promotion is compared against `m.promotion().unwrap_or(m.piece())`. -/
def MoveQuery.test (q : MoveQuery) (m : Move) : Bool :=
  ((q.piece.map (fun p => decide (p = Move.piece m))).getD true) &&
  ((q.originRank.map (fun r => decide (r.val = Square.rankNat (Move.origin m)))).getD true) &&
  ((q.originFile.map (fun f => decide (f.val = Square.fileNat (Move.origin m)))).getD true) &&
  ((q.destRank.map (fun r => decide (r.val = Square.rankNat (Move.destination m)))).getD true) &&
  ((q.destFile.map (fun f => decide (f.val = Square.fileNat (Move.destination m)))).getD true) &&
  ((q.promotion.map
      (fun p => decide (p = (Move.promotion m).getD (Move.piece m)))).getD true) &&
  ((q.castle.map (fun s => Move.isCastle m s)).getD true) &&
  ((q.isCapture.map (fun c => c == Move.isCapture m)).getD true)

/-! ## Transposition table (`weechess-engine/src/searcher.rs`) -/

/-- `EvaluationKind`. -/
inductive EvalKind where
  | exact
  | upperBound
  | lowerBound
deriving DecidableEq

/-- `TranspositionEntry`.  The evaluation is the `i32` centipawn score. -/
structure TTEntry where
  kind : EvalKind
  performedMove : Move
  depth : Nat
  maxDepth : Nat
  evaluation : Int
deriving DecidableEq

/-- Modelled from the spec: `Move::as_raw` is declared in a source file not
included under `src/` (only its caller in `searcher.rs` is); it returns the
packed 32-bit move word, which the embedding already carries as a `Nat`. -/
def Move.asRaw (m : Move) : Nat := m

/-- One slot of a `TranspositionBucket`: an optional `(hash, entry)` pair. -/
abbrev TTSlot := Option (Nat × TTEntry)

/-- The result of `TranspositionBucket::insert_or_replace`. -/
inductive TTRes where
  | inserted
  | replaced
  | swapped
deriving DecidableEq

/-- The in-order scan of `insert_or_replace`: the first slot that is empty
(insert) or holds an equal hash (swap) receives the entry; `none` when the
scan falls through every slot. -/
def ttInsertScan (h : Nat) (e : TTEntry) : List TTSlot → Option (List TTSlot × TTRes)
  | [] => none
  | none :: rest => some ((some (h, e)) :: rest, .inserted)
  | (some (h2, e2)) :: rest =>
      if h2 = h then
        some ((some (h, e)) :: rest, .swapped)
      else
        (ttInsertScan h e rest).map (fun r => ((some (h2, e2)) :: r.1, r.2))

/-- `TranspositionBucket::insert_or_replace`: scan; on fall-through, replace
the slot at `(hash ^ move_bits) % len`. -/
def ttInsertOrReplace (slots : List TTSlot) (h : Nat) (e : TTEntry) :
    List TTSlot × TTRes :=
  match ttInsertScan h e slots with
  | some r => r
  | none =>
      let index := (h ^^^ Move.asRaw e.performedMove) % slots.length
      (slots.set index (some (h, e)), .replaced)

/-- `TranspositionBucket::BUCKET_SIZE` and `TranspositionBucket::empty`. -/
def ttEmptyBucket : List TTSlot := List.replicate 8 none

/-- `TranspositionTable`: buckets plus the used-slot saturation counter. -/
structure TranspositionTable where
  buckets : List (List TTSlot)
  usedSlots : Nat

/-- `TranspositionTable::insert`: route to bucket `hash % num_buckets`,
insert-or-replace there, and bump `used_slots` only on `Inserted`. -/
def TranspositionTable.insert (t : TranspositionTable) (h : Nat) (e : TTEntry) :
    TranspositionTable :=
  let index := h % t.buckets.length
  let r := ttInsertOrReplace (t.buckets.getD index ttEmptyBucket) h e
  { buckets := t.buckets.set index r.1,
    usedSlots := if r.2 = .inserted then t.usedSlots + 1 else t.usedSlots }

/-- A slot accepts the scan of `insert_or_replace` when it is empty or
holds the inserted hash. -/
def ttSlotFree (h : Nat) : TTSlot → Bool
  | none => true
  | some (h2, _) => h2 == h

/-- The insertion algorithm exactly as claim C7 words it: the first EMPTY
slot wins outright (counter increments); only otherwise is the first
equal-hash slot overwritten; only otherwise is the keyed slot replaced.
This definition follows the claim's words, to be compared with
`ttInsertOrReplace`, which follows the source. -/
def ttClaimedInsertOrReplace (slots : List TTSlot) (h : Nat) (e : TTEntry) :
    List TTSlot × TTRes :=
  match slots.findIdx? (fun sl => sl.isNone) with
  | some i => (slots.set i (some (h, e)), .inserted)
  | none =>
      match slots.findIdx? (fun sl => (sl.map (fun p => p.1 == h)).getD false) with
      | some i => (slots.set i (some (h, e)), .swapped)
      | none =>
          (slots.set ((h ^^^ Move.asRaw e.performedMove) % slots.length)
            (some (h, e)), .replaced)

/-- A concrete entry used by the C7 counterexample. -/
def ttE0 : TTEntry := ⟨.exact, 0, 0, 0, 0⟩

/-- A second concrete entry used by the C7 counterexample. -/
def ttE1 : TTEntry := ⟨.exact, 0, 0, 0, 1⟩

/-! ## Boards and game states (`board.rs`, `state.rs`) -/

/-- `BitBoard::set` / `set_raw` (the complement is the 64-bit `!mask`). -/
def bbSet (bb : Nat) (sq : Square) (v : Bool) : Nat :=
  if v then bb ||| (1 <<< sq.val) else bb &&& bbNot (1 <<< sq.val)

/-- `BitBoard::test`: `(self.0 & (1 << bit)) != 0`. -/
def bbTest (bb : Nat) (sq : Square) : Bool :=
  decide (bb &&& (1 <<< sq.val) ≠ 0)

/-- `ArrayMap<PieceIndex, BitBoard>`: one 64-bit occupancy set per piece
index.  The `Board` caches derived occupancies and attack maps; they are
functions of this map, so the embedding stores only the map. -/
abbrev PieceMap := PieceIdx → Nat

/-- Functional update of one entry of the piece map. -/
def updMap (m : PieceMap) (p : PieceIdx) (bb : Nat) : PieceMap :=
  fun q => if q = p then bb else m q

/-- Per-color occupancy (`Board::colored_occupancy`): union of that color's
per-piece boards, as accumulated by `Board::new`. -/
def coloredOccupancyOf (m : PieceMap) (c : Color) : Nat :=
  Piece.all.foldl (fun acc p => acc ||| m ⟨c, p⟩) 0

/-- Overall occupancy (`Board::occupancy`): union over both colors. -/
def occupancyOf (m : PieceMap) : Nat :=
  coloredOccupancyOf m .white ||| coloredOccupancyOf m .black

/-- `Board::vacancy`: the 64-bit complement of the occupancy. -/
def vacancyOf (m : PieceMap) : Nat := bbNot (occupancyOf m)

/-- `Board::piece_at`: scan colors then pieces, in source order, for the
first piece whose board holds the square. -/
def pieceAt (m : PieceMap) (sq : Square) : Option PieceIdx :=
  ([Color.white, Color.black].flatMap (fun c => Piece.all.map (fun p => (⟨c, p⟩ : PieceIdx)))).find?
    (fun pi => bbTest (m pi) sq)

/-- `CastleRights`. -/
structure CastleRights where
  kingside : Bool
  queenside : Bool
deriving DecidableEq

/-- `CastleRights::NONE`. -/
def CastleRights.nothing : CastleRights := ⟨false, false⟩

/-- `CastleRights::BOTH`. -/
def CastleRights.both : CastleRights := ⟨true, true⟩

/-- `CastleRights::for_side`. -/
def CastleRights.forSide (r : CastleRights) : Side → Bool
  | .king => r.kingside
  | .queen => r.queenside

/-- `Clock`. -/
structure Clock where
  halfmoveClock : Nat
  fullmoveNumber : Nat
deriving DecidableEq

/-- `MovePerformError`. -/
inductive MovePerformError where
  | ambiguousMove
  | illegalEnPassant
  | unknownMove
deriving DecidableEq

/-- `State`: board, side to move, per-color castle rights, optional
en-passant target and the clock. -/
structure State where
  board : PieceMap
  turnToMove : Color
  castleRights : Color → CastleRights
  enPassantTarget : Option Square
  clock : Clock

instance : DecidableEq State := fun a b =>
  decidable_of_iff
    (a.board = b.board ∧ a.turnToMove = b.turnToMove ∧
      a.castleRights = b.castleRights ∧ a.enPassantTarget = b.enPassantTarget ∧
      a.clock = b.clock)
    (by cases a; cases b; simp)

/-- `State::is_check` uses `Board::is_check`: the king of `color` lies in
the opposing color's attack map; defined later once attacks are embedded. -/
def cornerSquare : Color → Side → Square
  | .white, .king => ⟨7, by omega⟩
  | .white, .queen => ⟨0, by omega⟩
  | .black, .king => ⟨63, by omega⟩
  | .black, .queen => ⟨56, by omega⟩

/-- The `board` block of `State::by_performing_move` (source lines 165-213):
move the piece, resolve en-passant or normal captures (failing with
`IllegalEnPassant` exactly where the source does), apply promotion and the
castle rook shuffle.  The source's `.unwrap()`-free error path is the `?`
on the en-passant target; the `offset` call on the capture square uses
`ok_or(IllegalEnPassant)` in the source as well. -/
def applyBoard (state : State) (mv : Move) : Except MovePerformError PieceMap :=
  let movingColor := state.turnToMove
  let opposingColor := movingColor.opposing
  let movingPiece : PieceIdx := ⟨movingColor, Move.piece mv⟩
  let map0 := state.board
  let map1 := updMap map0 movingPiece (bbSet (map0 movingPiece) (Move.origin mv) false)
  let map2 := updMap map1 movingPiece (bbSet (map1 movingPiece) (Move.destination mv) true)
  let afterCapture : Except MovePerformError PieceMap :=
    if Move.isEnPassant mv then
      match state.enPassantTarget with
      | none => .error .illegalEnPassant
      | some t =>
          match Square.offset t movingColor.backward with
          | none => .error .illegalEnPassant
          | some capSq =>
              let cap : PieceIdx := ⟨opposingColor, Piece.pawn⟩
              .ok (updMap map2 cap (bbSet (map2 cap) capSq false))
    else
      match Move.capture mv with
      | some c =>
          let cap : PieceIdx := ⟨opposingColor, c⟩
          .ok (updMap map2 cap (bbSet (map2 cap) (Move.destination mv) false))
      | none => .ok map2
  match afterCapture with
  | .error err => .error err
  | .ok map2 =>
      let map3 :=
        match Move.promotion mv with
        | some promo =>
            let promoIdx : PieceIdx := ⟨movingColor, promo⟩
            let m := updMap map2 movingPiece
              (bbSet (map2 movingPiece) (Move.destination mv) false)
            updMap m promoIdx (bbSet (m promoIdx) (Move.destination mv) true)
        | none => map2
      let map4 :=
        if Move.isCastle mv .king then
          let r : Fin 8 := ⟨Square.rankNat (Move.origin mv), (Move.origin mv).val.div_lt_of_lt_mul (by omega)⟩
          let rookStart := squareOfRankFile r ⟨7, by omega⟩
          let rookEnd := squareOfRankFile r ⟨5, by omega⟩
          let rook : PieceIdx := ⟨movingColor, Piece.rook⟩
          let m := updMap map3 rook (bbSet (map3 rook) rookStart false)
          updMap m rook (bbSet (m rook) rookEnd true)
        else if Move.isCastle mv .queen then
          let r : Fin 8 := ⟨Square.rankNat (Move.origin mv), (Move.origin mv).val.div_lt_of_lt_mul (by omega)⟩
          let rookStart := squareOfRankFile r ⟨0, by omega⟩
          let rookEnd := squareOfRankFile r ⟨3, by omega⟩
          let rook : PieceIdx := ⟨movingColor, Piece.rook⟩
          let m := updMap map3 rook (bbSet (map3 rook) rookStart false)
          updMap m rook (bbSet (m rook) rookEnd true)
        else map3
      .ok map4

/-- The `castle_rights` block of `State::by_performing_move` (source lines
215-239): clear both rights of the mover when the king moved, then AND
every right with the occupancy test of that rook's corner square in the
new board. -/
def computeRights (state : State) (mv : Move) (board : PieceMap) :
    Color → CastleRights :=
  let base : Color → CastleRights :=
    if Move.piece mv = Piece.king then
      fun c => if c = state.turnToMove then CastleRights.nothing else state.castleRights c
    else
      state.castleRights
  fun c =>
    ⟨(base c).kingside && bbTest (board ⟨c, Piece.rook⟩) (cornerSquare c .king),
     (base c).queenside && bbTest (board ⟨c, Piece.rook⟩) (cornerSquare c .queen)⟩

/-- `State::by_performing_move`. -/
def byPerformingMove (state : State) (mv : Move) : Except MovePerformError State :=
  match applyBoard state mv with
  | .error err => .error err
  | .ok board =>
      .ok
        { board := board
          turnToMove := state.turnToMove.opposing
          castleRights := computeRights state mv board
          enPassantTarget :=
            if Move.isDoublePawn mv then
              Square.offset (Move.destination mv) state.turnToMove.backward
            else none
          clock :=
            { halfmoveClock :=
                if Move.isCapture mv ∨ Move.piece mv = Piece.pawn then 0
                else state.clock.halfmoveClock + 1
              fullmoveNumber :=
                if state.turnToMove = Color.black then state.clock.fullmoveNumber + 1
                else state.clock.fullmoveNumber } }

instance {ε α : Type} [DecidableEq ε] [DecidableEq α] : DecidableEq (Except ε α) :=
  fun a b =>
    match a, b with
    | .ok x, .ok y => decidable_of_iff (x = y) (by simp)
    | .error x, .error y => decidable_of_iff (x = y) (by simp)
    | .ok _, .error _ => isFalse (by simp)
    | .error _, .ok _ => isFalse (by simp)

/-- A small concrete position for the C5 witness: White Ke1, Rh1, Black
Ke8, White to move with both White rights. -/
def c5S0 : State :=
  { board := fun p =>
      if p = ⟨.white, .king⟩ then 2 ^ 4
      else if p = ⟨.white, .rook⟩ then 2 ^ 7
      else if p = ⟨.black, .king⟩ then 2 ^ 60
      else 0
    turnToMove := .white
    castleRights := fun c =>
      match c with
      | .white => CastleRights.both
      | .black => CastleRights.nothing
    enPassantTarget := none
    clock := ⟨0, 1⟩ }

/-- The king move e1-e2 used by the C5 witness. -/
def c5M0 : Move := Move.byMoving ⟨.white, .king⟩ ⟨4, by omega⟩ ⟨12, by omega⟩

/-- The state resulting from `c5M0` on `c5S0`. -/
def c5S2 : State :=
  { board := fun p =>
      if p = ⟨.white, .king⟩ then 2 ^ 12
      else if p = ⟨.white, .rook⟩ then 2 ^ 7
      else if p = ⟨.black, .king⟩ then 2 ^ 60
      else 0
    turnToMove := .black
    castleRights := fun _ => CastleRights.nothing
    enPassantTarget := none
    clock := ⟨1, 1⟩ }

/-- A concrete position for C6: White to move, en-passant target c6, White
pawn e5, Black pawns c5 and d5. -/
def c6S0 : State :=
  { board := fun p =>
      if p = ⟨.white, .pawn⟩ then 2 ^ 36
      else if p = ⟨.black, .pawn⟩ then 2 ^ 34 ||| 2 ^ 35
      else if p = ⟨.white, .king⟩ then 2 ^ 0
      else if p = ⟨.black, .king⟩ then 2 ^ 63
      else 0
    turnToMove := .white
    castleRights := fun _ => CastleRights.nothing
    enPassantTarget := some ⟨42, by omega⟩
    clock := ⟨0, 18⟩ }

/-- An en-passant-flagged move e5-d6 whose destination (d6) is NOT the
en-passant target square (c6). -/
def c6M0 : Move := Move.byEnPassant ⟨.white, .pawn⟩ ⟨36, by omega⟩ ⟨43, by omega⟩

/-! ## Attack generation (`weechess-core/src/attacks.rs`) -/

/-- The eight ray directions. -/
inductive Direction where
  | north
  | south
  | east
  | west
  | northEast
  | northWest
  | southEast
  | southWest
deriving DecidableEq, Fintype

/-- `impl Into<Offset> for Direction`. -/
def Direction.toOffset : Direction → Offset
  | .north => ⟨0, 1⟩
  | .south => ⟨0, -1⟩
  | .east => ⟨1, 0⟩
  | .west => ⟨-1, 0⟩
  | .northEast => ⟨1, 1⟩
  | .northWest => ⟨-1, 1⟩
  | .southEast => ⟨1, -1⟩
  | .southWest => ⟨-1, -1⟩

/-- The loop of `compute_ray`: walk in the offset direction until the edge
of the board, setting each visited square.  A ray has at most 7 squares, so
fuel 8 never cuts the walk short. -/
def rayWalk (o : Offset) : Nat → Square → Nat
  | 0, _ => 0
  | fuel + 1, cur =>
      match Square.offset cur o with
      | none => 0
      | some nxt => (1 <<< nxt.val) ||| rayWalk o fuel nxt

/-- `RAYS[direction][square]`, with an out-of-range square index giving the
empty board (such indices never arise: they would be garbage `Square`s in
the source). -/
def ray (d : Direction) (s : Nat) : Nat :=
  if h : s < 64 then rayWalk d.toOffset 8 ⟨s, h⟩ else 0

/-- `common::RANK_MASKS` (the literal table). -/
def rankMask (r : Fin 8) : Nat :=
  [0xff, 0xff00, 0xff0000, 0xff000000, 0xff00000000, 0xff0000000000,
    0xff000000000000, 0xff00000000000000].getD r.val 0

/-- `common::FILE_MASKS` (the literal table). -/
def fileMask (f : Fin 8) : Nat :=
  [0x0101010101010101, 0x0202020202020202, 0x0404040404040404,
    0x0808080808080808, 0x1010101010101010, 0x2020202020202020,
    0x4040404040404040, 0x8080808080808080].getD f.val 0

/-- `compute_rook_slide_masks` for one square. -/
def rookSlideMask (sq : Square) : Nat :=
  (ray .west sq.val &&& bbNot (fileMask ⟨0, by omega⟩)) |||
  (ray .east sq.val &&& bbNot (fileMask ⟨7, by omega⟩)) |||
  (ray .north sq.val &&& bbNot (rankMask ⟨7, by omega⟩)) |||
  (ray .south sq.val &&& bbNot (rankMask ⟨0, by omega⟩))

/-- `compute_bishop_slide_masks` for one square. -/
def bishopSlideMask (sq : Square) : Nat :=
  (ray .northWest sq.val &&& bbNot (fileMask ⟨0, by omega⟩ ||| rankMask ⟨7, by omega⟩)) |||
  (ray .southWest sq.val &&& bbNot (fileMask ⟨0, by omega⟩ ||| rankMask ⟨0, by omega⟩)) |||
  (ray .northEast sq.val &&& bbNot (fileMask ⟨7, by omega⟩ ||| rankMask ⟨7, by omega⟩)) |||
  (ray .southEast sq.val &&& bbNot (fileMask ⟨7, by omega⟩ ||| rankMask ⟨0, by omega⟩))

/-- `BitBoard::first_one` (trailing zeros, `None` when empty): scan bits
`start, start+1, …` with fuel. -/
def firstOneGo (x : Nat) : Nat → Nat → Option Nat
  | _, 0 => none
  | start, fuel + 1 =>
      if x.testBit start then some start else firstOneGo x (start + 1) fuel

/-- `BitBoard::first_one`. -/
def firstOne? (x : Nat) : Option Nat := firstOneGo x 0 64

/-- `BitBoard::last_one` (63 minus leading zeros): scan bits downward. -/
def lastOneGo (x : Nat) : Nat → Option Nat
  | 0 => none
  | n + 1 => if x.testBit n then some n else lastOneGo x n

/-- `BitBoard::last_one`. -/
def lastOne? (x : Nat) : Option Nat := lastOneGo x 64

/-- One `attacks |= ray; if let Some(bit) = (ray & blockers).first_one()
{ attacks &= !RAYS[d][bit] }` step of the classical walk, for directions
that locate the nearest blocker with `first_one`. -/
def stepFirst (rayD : Nat → Nat) (blockSet att : Nat) : Nat :=
  match firstOne? blockSet with
  | some b => att &&& bbNot (rayD b)
  | none => att

/-- The same step for directions that use `last_one`. -/
def stepLast (rayD : Nat → Nat) (blockSet att : Nat) : Nat :=
  match lastOne? blockSet with
  | some b => att &&& bbNot (rayD b)
  | none => att

/-- `compute_rook_attacks_unoptimized`: extend the four rook rays and cut
each at the first blocker (north/east via `first_one`, south/west via
`last_one`). -/
def computeRookAttacksUnoptimized (sq : Square) (blockers : Nat) : Nat :=
  let upRay := ray .north sq.val
  let downRay := ray .south sq.val
  let leftRay := ray .west sq.val
  let rightRay := ray .east sq.val
  let attacks : Nat := 0
  let attacks := stepFirst (ray .north) (upRay &&& blockers) (attacks ||| upRay)
  let attacks := stepLast (ray .south) (downRay &&& blockers) (attacks ||| downRay)
  let attacks := stepLast (ray .west) (leftRay &&& blockers) (attacks ||| leftRay)
  let attacks := stepFirst (ray .east) (rightRay &&& blockers) (attacks ||| rightRay)
  attacks

/-- `compute_bishop_attacks_unoptimized`. -/
def computeBishopAttacksUnoptimized (sq : Square) (blockers : Nat) : Nat :=
  let northWestRay := ray .northWest sq.val
  let southWestRay := ray .southWest sq.val
  let northEastRay := ray .northEast sq.val
  let southEastRay := ray .southEast sq.val
  let attacks : Nat := 0
  let attacks := stepFirst (ray .northWest) (northWestRay &&& blockers) (attacks ||| northWestRay)
  let attacks := stepLast (ray .southWest) (southWestRay &&& blockers) (attacks ||| southWestRay)
  let attacks := stepFirst (ray .northEast) (northEastRay &&& blockers) (attacks ||| northEastRay)
  let attacks := stepLast (ray .southEast) (southEastRay &&& blockers) (attacks ||| southEastRay)
  attacks

/-- `BitBoard::iter_ones` materialised as the ascending list of set bit
positions below 64. -/
def bitsListGo (x : Nat) : Nat → Nat → List Nat
  | _, 0 => []
  | start, fuel + 1 =>
      if x.testBit start then start :: bitsListGo x (start + 1) fuel
      else bitsListGo x (start + 1) fuel

/-- The set bit positions of a 64-bit word, ascending. -/
def bitsList (x : Nat) : List Nat := bitsListGo x 0 64

/-- `compute_blockers_from_index`: deposit the low bits of `index` into the
set positions of `mask` (fold over `mask.iter_ones().enumerate()`). -/
def blockersFromIndex (index mask : Nat) : Nat :=
  ((bitsList mask).enum).foldl
    (fun acc ib => if index &&& (1 <<< ib.1) ≠ 0 then acc ||| (1 <<< ib.2) else acc)
    0

/-- `ROOK_MAGICS` (the literal table). -/
def rookMagic (s : Nat) : Nat :=
  [0x0a8002c000108020, 0x06c00049b0002001, 0x0100200010090040, 0x2480041000800801,
   0x0280028004000800, 0x0900410008040022, 0x0280020001001080, 0x2880002041000080,
   0xa000800080400034, 0x0004808020004000, 0x2290802004801000, 0x0411000d00100020,
   0x0402800800040080, 0x000b000401004208, 0x2409000100040200, 0x0001002100004082,
   0x0022878001e24000, 0x1090810021004010, 0x0801030040200012, 0x0500808008001000,
   0x0a08018014000880, 0x8000808004000200, 0x0201008080010200, 0x0801020000441091,
   0x0000800080204005, 0x1040200040100048, 0x0000120200402082, 0x0d14880480100080,
   0x0012040280080080, 0x0100040080020080, 0x9020010080800200, 0x0813241200148449,
   0x0491604001800080, 0x0100401000402001, 0x4820010021001040, 0x0400402202000812,
   0x0209009005000802, 0x0810800601800400, 0x4301083214000150, 0x204026458e001401,
   0x0040204000808000, 0x8001008040010020, 0x8410820820420010, 0x1003001000090020,
   0x0804040008008080, 0x0012000810020004, 0x1000100200040208, 0x430000a044020001,
   0x0280009023410300, 0x00e0100040002240, 0x0000200100401700, 0x2244100408008080,
   0x0008000400801980, 0x0002000810040200, 0x8010100228810400, 0x2000009044210200,
   0x4080008040102101, 0x0040002080411d01, 0x2005524060000901, 0x0502001008400422,
   0x489a000810200402, 0x0001004400080a13, 0x4000011008020084, 0x0026002114058042].getD s 0

/-- `BISHOP_MAGICS` (the literal table). -/
def bishopMagic (s : Nat) : Nat :=
  [0x89a1121896040240, 0x2004844802002010, 0x2068080051921000, 0x62880a0220200808,
   0x0004042004000000, 0x0100822020200011, 0xc00444222012000a, 0x0028808801216001,
   0x0400492088408100, 0x0201c401040c0084, 0x00840800910a0010, 0x0000082080240060,
   0x2000840504006000, 0x30010c4108405004, 0x1008005410080802, 0x8144042209100900,
   0x0208081020014400, 0x004800201208ca00, 0x0f18140408012008, 0x1004002802102001,
   0x0841000820080811, 0x0040200200a42008, 0x0000800054042000, 0x88010400410c9000,
   0x0520040470104290, 0x1004040051500081, 0x2002081833080021, 0x000400c00c010142,
   0x941408200c002000, 0x0658810000806011, 0x0188071040440a00, 0x4800404002011c00,
   0x0104442040404200, 0x0511080202091021, 0x0004022401120400, 0x80c0040400080120,
   0x8040010040820802, 0x0480810700020090, 0x0102008e00040242, 0x0809005202050100,
   0x8002024220104080, 0x0431008804142000, 0x0019001802081400, 0x0200014208040080,
   0x3308082008200100, 0x041010500040c020, 0x4012020c04210308, 0x208220a202004080,
   0x0111040120082000, 0x6803040141280a00, 0x2101004202410000, 0x8200000041108022,
   0x0000021082088000, 0x0002410204010040, 0x0040100400809000, 0x0822088220820214,
   0x0040808090012004, 0x00910224040218c9, 0x0402814422015008, 0x0090014004842410,
   0x0001000042304105, 0x0010008830412a00, 0x2520081090008908, 0x40102000a0a60140].getD s 0

/-- `ROOK_MAGIC_INDEXES` (the literal table). -/
def rookMagicIndex (s : Nat) : Nat :=
  [12, 11, 11, 11, 11, 11, 11, 12,
   11, 10, 10, 10, 10, 10, 10, 11,
   11, 10, 10, 10, 10, 10, 10, 11,
   11, 10, 10, 10, 10, 10, 10, 11,
   11, 10, 10, 10, 10, 10, 10, 11,
   11, 10, 10, 10, 10, 10, 10, 11,
   11, 10, 10, 10, 10, 10, 10, 11,
   12, 11, 11, 11, 11, 11, 11, 12].getD s 0

/-- `BISHOP_MAGIC_INDEXES` (the literal table). -/
def bishopMagicIndex (s : Nat) : Nat :=
  [6, 5, 5, 5, 5, 5, 5, 6,
   5, 5, 5, 5, 5, 5, 5, 5,
   5, 5, 7, 7, 7, 7, 5, 5,
   5, 5, 7, 9, 9, 7, 5, 5,
   5, 5, 7, 9, 9, 7, 5, 5,
   5, 5, 7, 7, 7, 7, 5, 5,
   5, 5, 5, 5, 5, 5, 5, 5,
   6, 5, 5, 5, 5, 5, 5, 6].getD s 0

/-- The magic hash of a masked occupancy: `wrapping_mul` (explicit reduction
modulo `2 ^ 64`) followed by the `64 - k` right shift. -/
def magicKey (magic shiftCount b : Nat) : Nat :=
  ((b * magic) % u64Mod) >>> shiftCount

/-- One square of `compute_rook_magic_table`: start from
`vec![BitBoard::ZERO; 4096]` and write the classical attack set of every
mask subset at its magic key. -/
def rookTableFor (sq : Square) : List Nat :=
  (List.range (2 ^ rookMagicIndex sq.val)).foldl
    (fun table b =>
      let blockers := blockersFromIndex b (rookSlideMask sq)
      table.set (magicKey (rookMagic sq.val) (64 - rookMagicIndex sq.val) blockers)
        (computeRookAttacksUnoptimized sq blockers))
    (List.replicate 4096 0)

/-- One square of `compute_bishop_magic_table`. -/
def bishopTableFor (sq : Square) : List Nat :=
  (List.range (2 ^ bishopMagicIndex sq.val)).foldl
    (fun table b =>
      let blockers := blockersFromIndex b (bishopSlideMask sq)
      table.set (magicKey (bishopMagic sq.val) (64 - bishopMagicIndex sq.val) blockers)
        (computeBishopAttacksUnoptimized sq blockers))
    (List.replicate 4096 0)

/-- `AttackGenerator::compute_rook_attacks`: mask, magic-multiply, shift,
table lookup. -/
def computeRookAttacks (sq : Square) (occupancy : Nat) : Nat :=
  let occ := occupancy &&& rookSlideMask sq
  (rookTableFor sq).getD
    (magicKey (rookMagic sq.val) (64 - rookMagicIndex sq.val) occ) 0

/-- `AttackGenerator::compute_bishop_attacks`. -/
def computeBishopAttacks (sq : Square) (occupancy : Nat) : Nat :=
  let occ := occupancy &&& bishopSlideMask sq
  (bishopTableFor sq).getD
    (magicKey (bishopMagic sq.val) (64 - bishopMagicIndex sq.val) occ) 0

/-- The subset-enumeration scan used to certify that the magic hash is
collision-free on the subsets of a slide mask: visit every subset of the
listed bit positions, recording each magic key in a seen-bitmap; `none`
signals a repeated key. -/
def treeScan (magic shiftCount : Nat) : List Nat → Nat → Nat → Option Nat
  | [], b, seen =>
      let k := magicKey magic shiftCount b
      if seen.testBit k then none else some (seen ||| (1 <<< k))
  | p :: ps, b, seen =>
      match treeScan magic shiftCount ps b seen with
      | none => none
      | some seen2 => treeScan magic shiftCount ps (b ||| (1 <<< p)) seen2

/-- Collision-freedom of the rook magic multiplier of one square. -/
def rookKeysDistinct (sq : Square) : Bool :=
  (treeScan (rookMagic sq.val) (64 - rookMagicIndex sq.val)
    (bitsList (rookSlideMask sq)) 0 0).isSome

/-- Collision-freedom of the bishop magic multiplier of one square. -/
def bishopKeysDistinct (sq : Square) : Bool :=
  (treeScan (bishopMagic sq.val) (64 - bishopMagicIndex sq.val)
    (bitsList (bishopSlideMask sq)) 0 0).isSome

/-- The bit deposited into position `ps[j]` by `blockersFromIndex` is bit
`j` of the index; this helper consumes the index bit by bit. -/
def scatterBits (index : Nat) : List Nat → Nat
  | [] => 0
  | p :: ps => (if index.testBit 0 then 1 <<< p else 0) ||| scatterBits (index >>> 1) ps

/-- The inverse deposit: collect the bits of `b` sitting at the listed
positions into a compact index. -/
def gatherBits (b : Nat) : List Nat → Nat
  | [] => 0
  | p :: ps => (if b.testBit p then 1 else 0) + 2 * gatherBits b ps

/-- All subsets of a list of bit positions, as bitboards, in the
enumeration order of `treeScan`. -/
def subsetsList : List Nat → List Nat
  | [] => [0]
  | p :: ps => subsetsList ps ++ (subsetsList ps).map (· ||| (1 <<< p))

/-- The seen-bitmap fold over an explicit list of keys. -/
def seenFold : List Nat → Nat → Option Nat
  | [], seen => some seen
  | k :: ks, seen =>
      if seen.testBit k then none else seenFold ks (seen ||| (1 <<< k))

/-- Checker: every ray square that lies on the edge set `E` is the maximal
square of the ray (no ray bits above it). -/
def maxEdgeOk (R E : Nat) : Bool :=
  (bitsList (R &&& E)).all (fun q => decide (R &&& bbNot (2 ^ (q + 1) - 1) = 0))

/-- Checker: every ray square on the edge set `E` is the minimal ray
square. -/
def minEdgeOk (R E : Nat) : Bool :=
  (bitsList (R &&& E)).all (fun q => decide (R &&& (2 ^ q - 1) = 0))

/-- Checker: the ray continued from an edge square is empty. -/
def edgeRayOk (d : Direction) (R E : Nat) : Bool :=
  (bitsList (R &&& E)).all (fun q => ray d q == 0)

/-! ## Leaper attack tables and the attack map
(`attacks.rs` `mod data`, `board.rs` `AttackMap`) -/

/-- The knight jump offsets of `compute_knight_attacks`, in source order. -/
def knightOffsets : List Offset :=
  [⟨1, 2⟩, ⟨2, 1⟩, ⟨2, -1⟩, ⟨1, -2⟩, ⟨-1, -2⟩, ⟨-2, -1⟩, ⟨-2, 1⟩, ⟨-1, 2⟩]

/-- The king step offsets of `compute_king_attacks`, in source order. -/
def kingOffsets : List Offset :=
  [⟨1, 1⟩, ⟨1, 0⟩, ⟨1, -1⟩, ⟨0, -1⟩, ⟨-1, -1⟩, ⟨-1, 0⟩, ⟨-1, 1⟩, ⟨0, 1⟩]

/-- Build one square's leaper attack set: set the bit of every offset target
that stays on the board (the `square.offset` loop of the table builders). -/
def attacksFromOffsets (offs : List Offset) (sq : Square) : Nat :=
  offs.foldl
    (fun acc o =>
      match sq.offset o with
      | some t => bbSet acc t true
      | none => acc) 0

/-- `AttackGenerator::compute_knight_attacks` (table entry). -/
def computeKnightAttacks (sq : Square) : Nat := attacksFromOffsets knightOffsets sq

/-- `AttackGenerator::compute_king_attacks` (table entry). -/
def computeKingAttacks (sq : Square) : Nat := attacksFromOffsets kingOffsets sq

/-- `AttackGenerator::compute_pawn_attacks` (table entry): the two forward
diagonals of the color. -/
def computePawnAttacks (sq : Square) (c : Color) : Nat :=
  match c with
  | .white => attacksFromOffsets [⟨-1, 1⟩, ⟨1, 1⟩] sq
  | .black => attacksFromOffsets [⟨-1, -1⟩, ⟨1, -1⟩] sq

/-- `AttackGenerator::compute_queen_attacks`. -/
def computeQueenAttacks (sq : Square) (occ : Nat) : Nat :=
  computeRookAttacks sq occ ||| computeBishopAttacks sq occ

/-- `AttackGenerator::compute`: dispatch on the piece kind. -/
def computeAttacks (pi : PieceIdx) (sq : Square) (occ : Nat) : Nat :=
  match pi.piece with
  | .none => 0
  | .pawn => computePawnAttacks sq pi.color
  | .knight => computeKnightAttacks sq
  | .bishop => computeBishopAttacks sq occ
  | .rook => computeRookAttacks sq occ
  | .queen => computeQueenAttacks sq occ
  | .king => computeKingAttacks sq

/-- `Square::from(bit)` for a raw scanned bit; bits coming from a 64-bit
board are always `< 64` (the fallback mirrors the source's unchecked cast). -/
def squareOfNat (n : Nat) : Square := if h : n < 64 then ⟨n, h⟩ else ⟨0, by omega⟩

/-- `AttackMap::from_occupancy`, `all` component: union the attack sets of
every piece of `color` (each piece board scanned ascending, as
`BitBoard::pop` does), then clear own-occupied squares. -/
def attackMapAll (m : PieceMap) (c : Color) : Nat :=
  (Piece.all.foldl
    (fun acc p =>
      (bitsList (m ⟨c, p⟩)).foldl
        (fun acc2 b => acc2 ||| computeAttacks ⟨c, p⟩ (squareOfNat b) (occupancyOf m)) acc)
    0) &&& bbNot (coloredOccupancyOf m c)

/-- `Board::colored_attacks` (the cached attack map is a pure function of
the piece map). -/
def coloredAttacks (m : PieceMap) (c : Color) : Nat := attackMapAll m c

/-- Modelled from the spec: `is_check(color)` holds iff the king of `color`
lies in `colored_attacks(¬color)` (the `Board::is_check` body is not in the
sources). Instantiated at the side to move, as `State::is_check` does. -/
def isCheck (s : State) : Bool :=
  decide (s.board ⟨s.turnToMove, Piece.king⟩ &&&
    coloredAttacks s.board s.turnToMove.opposing ≠ 0)

/-! ## Pseudo-legal move generation (`movegen.rs`) -/

/-- `BitBoard::shift`: shift the whole board by an offset, rank part first,
then one file step at a time with the edge file masked off; left shifts are
reduced to 64 bits as the `u64` arithmetic does. -/
def bbShift (bb : Nat) (o : Offset) : Nat :=
  let bb1 :=
    if 0 < o.rank then (bb <<< (o.rank.toNat * 8)) % u64Mod
    else if o.rank < 0 then bb >>> ((-o.rank).toNat * 8)
    else bb
  if 0 < o.file then
    (List.range o.file.toNat).foldl
      (fun b _ => ((b &&& bbNot (fileMask ⟨7, by omega⟩)) <<< 1) % u64Mod) bb1
  else if o.file < 0 then
    (List.range (-o.file).toNat).foldl
      (fun b _ => (b &&& bbNot (fileMask ⟨0, by omega⟩)) >>> 1) bb1
  else bb1

/-- `GameStateHelper::own_piece`. -/
def ownPiece (s : State) (p : Piece) : Nat := s.board ⟨s.turnToMove, p⟩

/-- `GameStateHelper::own_pieces`. -/
def ownPieces (s : State) : Nat := coloredOccupancyOf s.board s.turnToMove

/-- `GameStateHelper::opposing_pieces`. -/
def opposingPieces (s : State) : Nat := coloredOccupancyOf s.board s.turnToMove.opposing

/-- `GameStateHelper::opposing_attacks`. -/
def opposingAttacks (s : State) : Nat := coloredAttacks s.board s.turnToMove.opposing

/-- `GameStateHelper::own_backrank_mask`. -/
def ownBackrankMask (s : State) : Nat :=
  match s.turnToMove with
  | .white => rankMask ⟨7, by omega⟩
  | .black => rankMask ⟨0, by omega⟩

/-- `GameStateHelper::own_pawn_home_rank_mask`. -/
def ownPawnHomeRankMask (s : State) : Nat :=
  match s.turnToMove with
  | .white => rankMask ⟨1, by omega⟩
  | .black => rankMask ⟨6, by omega⟩

/-- `GameStateHelper::expand_moves`: one push per destination bit, capture
or quiet according to `piece_at`. -/
def expandMoves (s : State) (origin : Square) (dests : Nat) (p : Piece) : List Move :=
  (bitsList dests).map
    (fun b =>
      let target := squareOfNat b
      match pieceAt s.board target with
      | some cap => Move.byCapturing ⟨s.turnToMove, p⟩ origin target cap.piece
      | none => Move.byMoving ⟨s.turnToMove, p⟩ origin target)

/-- `PROMOTION_TYPES`. -/
def promotionTypes : List Piece := [.queen, .rook, .bishop, .knight]

/-- `MoveGenerator::compute_pawn_moves`. The source `.unwrap()`s the
backwards offsets of scanned targets and the `piece_at` of capture targets
(all on-board by construction); the embedding uses the identity square and
`Piece.none` as the respective unreachable fallbacks. -/
def computePawnMoves (s : State) : List Move :=
  let pawn : PieceIdx := ⟨s.turnToMove, .pawn⟩
  let pawns := ownPiece s .pawn
  let backwards := s.turnToMove.backward
  let positions := bbShift pawns s.turnToMove.forward &&& vacancyOf s.board
  let promotionPositions := positions &&& ownBackrankMask s
  let nonPromotionPositions := positions &&& bbNot (ownBackrankMask s)
  let simple :=
    (bitsList nonPromotionPositions).map
      (fun b =>
        let target := squareOfNat b
        let origin := (Square.offset target backwards).getD target
        Move.byMoving pawn origin target)
  let promos :=
    (bitsList promotionPositions).flatMap
      (fun b =>
        let target := squareOfNat b
        let origin := (Square.offset target backwards).getD target
        promotionTypes.map (fun pc => Move.byPromoting pawn origin target pc))
  let homePawns := pawns &&& ownPawnHomeRankMask s
  let dPositions := (List.range 2).foldl
    (fun bb _ => bbShift bb s.turnToMove.forward &&& vacancyOf s.board) homePawns
  let doubles :=
    (bitsList dPositions).map
      (fun b =>
        let target := squareOfNat b
        let origin := (List.range 2).foldl
          (fun p _ => (Square.offset p backwards).getD p) target
        Move.byMoving pawn origin target)
  let captures :=
    ([(Offset.east, Offset.west), (Offset.west, Offset.east)]).flatMap
      (fun fo =>
        let invertedCaptureOffset := Offset.add s.turnToMove.backward fo.2
        let attacks := bbShift (bbShift pawns s.turnToMove.forward) fo.1
        let attacksWithPromotion := attacks &&& ownBackrankMask s &&& opposingPieces s
        let attacksWithoutPromotion :=
          attacks &&& bbNot (ownBackrankMask s) &&& opposingPieces s
        let attacksWithEnPassant := attacks &&&
          ((s.enPassantTarget.map (fun t => 1 <<< t.val)).getD 0)
        let nonPromo :=
          (bitsList attacksWithoutPromotion).map
            (fun b =>
              let target := squareOfNat b
              let origin := (Square.offset target invertedCaptureOffset).getD target
              let cap := ((pieceAt s.board target).map PieceIdx.piece).getD Piece.none
              Move.byCapturing pawn origin target cap)
        let promo :=
          (bitsList attacksWithPromotion).flatMap
            (fun b =>
              let target := squareOfNat b
              let origin := (Square.offset target invertedCaptureOffset).getD target
              let cap := ((pieceAt s.board target).map PieceIdx.piece).getD Piece.none
              promotionTypes.map
                (fun pc => Move.byCapturePromoting pawn origin target cap pc))
        let ep :=
          match firstOne? attacksWithEnPassant with
          | some bit =>
              let target := squareOfNat bit
              let origin := (Square.offset target invertedCaptureOffset).getD target
              [Move.byEnPassant pawn origin target]
          | none => []
        nonPromo ++ promo ++ ep)
  simple ++ promos ++ doubles ++ captures

/-- `MoveGenerator::compute_knight_moves`. -/
def computeKnightMoves (s : State) : List Move :=
  (bitsList (ownPiece s .knight)).flatMap
    (fun b =>
      let square := squareOfNat b
      let jumps := computeKnightAttacks square &&&
        (opposingPieces s ||| vacancyOf s.board)
      expandMoves s square jumps .knight)

/-- `common::CASTLE_PATH_MASKS`. -/
def castlePathMask : Side → Color → Nat
  | .king, .white => 0x60
  | .king, .black => 0x6000000000000000
  | .queen, .white => 0xe
  | .queen, .black => 0x0e00000000000000

/-- `common::CASTLE_CHECK_MASKS`. -/
def castleCheckMask : Side → Color → Nat
  | .king, .white => 0x70
  | .king, .black => 0x7000000000000000
  | .queen, .white => 0x1c
  | .queen, .black => 0x1c00000000000000

/-- `Side::ALL`. -/
def Side.all : List Side := [.king, .queen]

/-- `MoveGenerator::compute_king_moves`: steps avoiding attacked squares,
then the castle pushes guarded by rights, path blocks and path checks. -/
def computeKingMoves (s : State) : List Move :=
  let color := s.turnToMove
  let kingMoves :=
    (bitsList (ownPiece s .king)).flatMap
      (fun b =>
        let origin := squareOfNat b
        let jumps := computeKingAttacks origin &&&
          (opposingPieces s ||| vacancyOf s.board) &&& bbNot (opposingAttacks s)
        expandMoves s origin jumps .king)
  let castles :=
    Side.all.filterMap
      (fun side =>
        if (s.castleRights color).forSide side then
          let pathBlocks := occupancyOf s.board &&& castlePathMask side color
          let pathChecks := opposingAttacks s &&& castleCheckMask side color
          if pathBlocks = 0 ∧ pathChecks = 0 then
            some (Move.byCastling color side)
          else none
        else none)
  kingMoves ++ castles

/-- `MoveGenerator::compute_bishop_moves`. -/
def computeBishopMoves (s : State) : List Move :=
  (bitsList (ownPiece s .bishop)).flatMap
    (fun b =>
      let origin := squareOfNat b
      let slides := computeBishopAttacks origin (occupancyOf s.board) &&&
        bbNot (ownPieces s)
      expandMoves s origin slides .bishop)

/-- `MoveGenerator::compute_rook_moves`. -/
def computeRookMoves (s : State) : List Move :=
  (bitsList (ownPiece s .rook)).flatMap
    (fun b =>
      let origin := squareOfNat b
      let slides := computeRookAttacks origin (occupancyOf s.board) &&&
        bbNot (ownPieces s)
      expandMoves s origin slides .rook)

/-- `MoveGenerator::compute_queen_moves`. -/
def computeQueenMoves (s : State) : List Move :=
  (bitsList (ownPiece s .queen)).flatMap
    (fun b =>
      let origin := squareOfNat b
      let slides := computeQueenAttacks origin (occupancyOf s.board) &&&
        bbNot (ownPieces s)
      expandMoves s origin slides .queen)

/-- `MoveGenerator::compute_psuedo_legal_moves_into`, in source call order. -/
def computePseudoLegalMoves (s : State) : List Move :=
  computePawnMoves s ++ computeKnightMoves s ++ computeKingMoves s ++
    computeBishopMoves s ++ computeRookMoves s ++ computeQueenMoves s

/-- `PseudoLegalMove::try_as_legal_move`: apply the move, then keep it only
when the mover's king is off the new side-to-move's attack map. The source
`.unwrap()`s the move application (a panic on an ill-formed pseudo-legal
move); the embedding rejects such a move instead. -/
def tryAsLegalMove (s : State) (m : Move) : Option (Move × State) :=
  match byPerformingMove s m with
  | .error _ => none
  | .ok next =>
      if next.board ⟨s.turnToMove, Piece.king⟩ &&&
          coloredAttacks next.board next.turnToMove = 0 then
        some (m, next)
      else none

/-- `MoveGenerator::compute_legal_moves(_into)`: filter the pseudo-legal
moves through `try_as_legal_move`. -/
def computeLegalMoves (s : State) : List (Move × State) :=
  (computePseudoLegalMoves s).filterMap (tryAsLegalMove s)

/-! ## Evaluation clones of the attack lookups
The magic lookups equal the classical ray walks (proved above); these
clones use the walks directly, so that concrete positions evaluate inside
the kernel without building the 4096-entry tables. -/

/-- Clone of `computeQueenAttacks` over the unoptimized walks. -/
def computeQueenAttacksU (sq : Square) (occ : Nat) : Nat :=
  computeRookAttacksUnoptimized sq occ ||| computeBishopAttacksUnoptimized sq occ

/-- Clone of `computeAttacks` over the unoptimized walks. -/
def computeAttacksU (pi : PieceIdx) (sq : Square) (occ : Nat) : Nat :=
  match pi.piece with
  | .none => 0
  | .pawn => computePawnAttacks sq pi.color
  | .knight => computeKnightAttacks sq
  | .bishop => computeBishopAttacksUnoptimized sq occ
  | .rook => computeRookAttacksUnoptimized sq occ
  | .queen => computeQueenAttacksU sq occ
  | .king => computeKingAttacks sq

/-- Clone of `attackMapAll`. -/
def attackMapAllU (m : PieceMap) (c : Color) : Nat :=
  (Piece.all.foldl
    (fun acc p =>
      (bitsList (m ⟨c, p⟩)).foldl
        (fun acc2 b => acc2 ||| computeAttacksU ⟨c, p⟩ (squareOfNat b) (occupancyOf m)) acc)
    0) &&& bbNot (coloredOccupancyOf m c)

/-- Clone of `coloredAttacks`. -/
def coloredAttacksU (m : PieceMap) (c : Color) : Nat := attackMapAllU m c

/-- Clone of `opposingAttacks`. -/
def opposingAttacksU (s : State) : Nat := coloredAttacksU s.board s.turnToMove.opposing

/-- Clone of `isCheck`. -/
def isCheckU (s : State) : Bool :=
  decide (s.board ⟨s.turnToMove, Piece.king⟩ &&&
    coloredAttacksU s.board s.turnToMove.opposing ≠ 0)

/-- Clone of `computeKingMoves`. -/
def computeKingMovesU (s : State) : List Move :=
  let color := s.turnToMove
  let kingMoves :=
    (bitsList (ownPiece s .king)).flatMap
      (fun b =>
        let origin := squareOfNat b
        let jumps := computeKingAttacks origin &&&
          (opposingPieces s ||| vacancyOf s.board) &&& bbNot (opposingAttacksU s)
        expandMoves s origin jumps .king)
  let castles :=
    Side.all.filterMap
      (fun side =>
        if (s.castleRights color).forSide side then
          let pathBlocks := occupancyOf s.board &&& castlePathMask side color
          let pathChecks := opposingAttacksU s &&& castleCheckMask side color
          if pathBlocks = 0 ∧ pathChecks = 0 then
            some (Move.byCastling color side)
          else none
        else none)
  kingMoves ++ castles

/-- Clone of `computeBishopMoves`. -/
def computeBishopMovesU (s : State) : List Move :=
  (bitsList (ownPiece s .bishop)).flatMap
    (fun b =>
      let origin := squareOfNat b
      let slides := computeBishopAttacksUnoptimized origin (occupancyOf s.board) &&&
        bbNot (ownPieces s)
      expandMoves s origin slides .bishop)

/-- Clone of `computeRookMoves`. -/
def computeRookMovesU (s : State) : List Move :=
  (bitsList (ownPiece s .rook)).flatMap
    (fun b =>
      let origin := squareOfNat b
      let slides := computeRookAttacksUnoptimized origin (occupancyOf s.board) &&&
        bbNot (ownPieces s)
      expandMoves s origin slides .rook)

/-- Clone of `computeQueenMoves`. -/
def computeQueenMovesU (s : State) : List Move :=
  (bitsList (ownPiece s .queen)).flatMap
    (fun b =>
      let origin := squareOfNat b
      let slides := computeQueenAttacksU origin (occupancyOf s.board) &&&
        bbNot (ownPieces s)
      expandMoves s origin slides .queen)

/-- Clone of `computePseudoLegalMoves`. -/
def computePseudoLegalMovesU (s : State) : List Move :=
  computePawnMoves s ++ computeKnightMoves s ++ computeKingMovesU s ++
    computeBishopMovesU s ++ computeRookMovesU s ++ computeQueenMovesU s

/-- Clone of `tryAsLegalMove`. -/
def tryAsLegalMoveU (s : State) (m : Move) : Option (Move × State) :=
  match byPerformingMove s m with
  | .error _ => none
  | .ok next =>
      if next.board ⟨s.turnToMove, Piece.king⟩ &&&
          coloredAttacksU next.board next.turnToMove = 0 then
        some (m, next)
      else none

/-- Clone of `computeLegalMoves`. -/
def computeLegalMovesU (s : State) : List (Move × State) :=
  (computePseudoLegalMovesU s).filterMap (tryAsLegalMoveU s)

/-! ## The evaluation short-circuit (`weechess-engine/src/eval/mod.rs`) -/

/-- `Evaluation::NEG_INF` (`-100 * ONE_PAWN`). -/
def evalNegInf : Int := -10000

/-- `Evaluation::POS_INF`. -/
def evalPosInf : Int := 10000

/-- The `king_has_move` pre-test of `Evaluator::evaluate`: king attack
squares minus occupancy minus opponent attacks. The source `.unwrap()`s
`first_square` of the king board (panicking on a kingless position);
square A1 is the modeled fallback. -/
def kingHasMove (s : State) : Bool :=
  let king := s.board ⟨s.turnToMove, Piece.king⟩
  let kingSquare := squareOfNat ((firstOne? king).getD 0)
  let spacesAroundKing := computeKingAttacks kingSquare
  let validKingSquares := spacesAroundKing &&& bbNot (occupancyOf s.board) &&&
    bbNot (coloredAttacks s.board s.turnToMove.opposing)
  decide (validKingSquares ≠ 0)

/-- The checkmate/stalemate short-circuit of `Evaluator::evaluate`: `some`
of the returned evaluation when one of the early `return`s fires, `none`
when control falls through to the weighted term sum (whose `f32`
arithmetic lies outside this embedding). -/
def evaluateShortCircuit (s : State) (perspective : Color) : Option Int :=
  if kingHasMove s then none
  else
    let legalMoves := computeLegalMoves s
    if legalMoves.isEmpty ∧ isCheck s then
      some (if s.turnToMove = perspective then evalNegInf else evalPosInf)
    else if legalMoves.isEmpty then some 0
    else none

/-- Clone of `kingHasMove`. -/
def kingHasMoveU (s : State) : Bool :=
  let king := s.board ⟨s.turnToMove, Piece.king⟩
  let kingSquare := squareOfNat ((firstOne? king).getD 0)
  let spacesAroundKing := computeKingAttacks kingSquare
  let validKingSquares := spacesAroundKing &&& bbNot (occupancyOf s.board) &&&
    bbNot (coloredAttacksU s.board s.turnToMove.opposing)
  decide (validKingSquares ≠ 0)

/-- Clone of `evaluateShortCircuit`. -/
def evaluateShortCircuitU (s : State) (perspective : Color) : Option Int :=
  if kingHasMoveU s then none
  else
    let legalMoves := computeLegalMovesU s
    if legalMoves.isEmpty ∧ isCheckU s then
      some (if s.turnToMove = perspective then evalNegInf else evalPosInf)
    else if legalMoves.isEmpty then some 0
    else none

/-- White Rd1, Re1, Rf1, Kh8; Black Ke4, Black to move: checkmate (the
escape square E5 is only covered by the E1 rook through the king itself). -/
def c4S0 : State :=
  { board := fun pi =>
      if pi = ⟨.white, .king⟩ then 1 <<< 63
      else if pi = ⟨.white, .rook⟩ then (1 <<< 3) ||| (1 <<< 4) ||| (1 <<< 5)
      else if pi = ⟨.black, .king⟩ then 1 <<< 28
      else 0
    turnToMove := .black
    castleRights := fun _ => CastleRights.nothing
    enPassantTarget := none
    clock := ⟨0, 1⟩ }

/-- White Ra8, Kh1; Black Kh8, pawns G7 and H7, Black to move: a back-rank
mate that the quick pre-test does detect. -/
def c4S1 : State :=
  { board := fun pi =>
      if pi = ⟨.white, .king⟩ then 1 <<< 7
      else if pi = ⟨.white, .rook⟩ then 1 <<< 56
      else if pi = ⟨.black, .king⟩ then 1 <<< 63
      else if pi = ⟨.black, .pawn⟩ then (1 <<< 54) ||| (1 <<< 55)
      else 0
    turnToMove := .black
    castleRights := fun _ => CastleRights.nothing
    enPassantTarget := none
    clock := ⟨0, 1⟩ }

/-! ## FEN notation (`weechess-core/src/notation.rs`, `mod fen`) -/

/-- The `\s` class of `FEN_REGEX` (ASCII whitespace). -/
def isWsChar (c : Char) : Bool :=
  c = ' ' || c = '\t' || c = '\n' || c = '\r' || c = '\x0b' || c = '\x0c'

/-- The `[rnbqkpRNBQKP1-8]` row class of `FEN_REGEX`. -/
def isBoardChar (c : Char) : Bool :=
  c = 'r' || c = 'n' || c = 'b' || c = 'q' || c = 'k' || c = 'p' ||
  c = 'R' || c = 'N' || c = 'B' || c = 'Q' || c = 'K' || c = 'P' ||
  ('1' ≤ c && c ≤ '8')

/-- The `[K|Q|k|q]` class of `FEN_REGEX` (the `|` is part of the class). -/
def isCastleChar (c : Char) : Bool :=
  c = 'K' || c = '|' || c = 'Q' || c = 'k' || c = 'q'

def isDigitChar (c : Char) : Bool := '0' ≤ c && c ≤ '9'

def isFileChar (c : Char) : Bool := 'a' ≤ c && c ≤ 'h'

def isRankChar (c : Char) : Bool := '1' ≤ c && c ≤ '8'

/-- A take-while/drop-while split (the maximal run of a class). -/
def spanP (p : Char → Bool) : List Char → List Char × List Char
  | [] => ([], [])
  | c :: cs =>
      if p c then
        let r := spanP p cs
        (c :: r.1, r.2)
      else ([], c :: cs)

/-- One mandatory whitespace character (`\s`). -/
def expectWs : List Char → Option (List Char)
  | c :: r => if isWsChar c then some r else none
  | [] => none

/-- Modelled from the source `FEN_REGEX`: the anchored expression decomposes
an input deterministically (no component class contains a whitespace
character, so each field is the maximal run of its class and the bounded
alternations cannot backtrack).  Returns the six captured fields: board,
turn character, castle, en-passant, halfmove and fullmove. -/
def fenSplit (cs : List Char) :
    Option (List Char × Char × List Char × List Char × List Char × List Char) :=
  match spanP (fun c => isBoardChar c || c = '/') cs with
  | (bf, r1) =>
    if bf.isEmpty then none
    else
      match expectWs r1 with
      | none => none
      | some r2 =>
        match r2 with
        | [] => none
        | ct :: r3 =>
          if ct = 'b' || ct = '|' || ct = 'w' then
            match expectWs r3 with
            | none => none
            | some r4 =>
              match (match r4 with
                | [] => none
                | c0 :: r4' =>
                  if c0 = '-' then some ((['-'] : List Char), r4')
                  else
                    match spanP isCastleChar r4 with
                    | (cf, r5') =>
                      if 1 ≤ cf.length ∧ cf.length ≤ 4 then some (cf, r5') else none) with
              | none => none
              | some (cf, r5) =>
                match expectWs r5 with
                | none => none
                | some r6 =>
                  match (match r6 with
                    | [] => none
                    | c1 :: r6' =>
                      if c1 = '-' then some ((['-'] : List Char), r6')
                      else
                        match r6' with
                        | [] => none
                        | c2 :: r7 =>
                            if isFileChar c1 && isRankChar c2 then some ([c1, c2], r7)
                            else none) with
                  | none => none
                  | some (ef, r7) =>
                    match expectWs r7 with
                    | none => none
                    | some r8 =>
                      match spanP isDigitChar r8 with
                      | (hf, r9) =>
                        if hf.isEmpty then none
                        else
                          match expectWs r9 with
                          | none => none
                          | some r10 =>
                            match spanP isDigitChar r10 with
                            | (ff, r11) =>
                              if ff.isEmpty ∨ ¬ r11.isEmpty then none
                              else some (bf, ct, cf, ef, hf, ff)
          else none

/-- Split on `/` separators (the row separator of the board group). -/
def splitSlash : List Char → List (List Char)
  | [] => [[]]
  | c :: cs =>
      if c = '/' then [] :: splitSlash cs
      else
        match splitSlash cs with
        | r :: rs => (c :: r) :: rs
        | [] => [[c]]

/-- The `(?:row\/){7}row` structure of the board group. -/
def rowsOk (bf : List Char) : Bool :=
  let rows := splitSlash bf
  rows.length = 8 && rows.all (fun r => !r.isEmpty && r.all isBoardChar)

/-- `PieceIndex::try_parse` (FEN piece tokens). -/
def pieceOfFenChar : Char → Option PieceIdx
  | 'P' => some ⟨.white, .pawn⟩
  | 'N' => some ⟨.white, .knight⟩
  | 'B' => some ⟨.white, .bishop⟩
  | 'R' => some ⟨.white, .rook⟩
  | 'Q' => some ⟨.white, .queen⟩
  | 'K' => some ⟨.white, .king⟩
  | 'p' => some ⟨.black, .pawn⟩
  | 'n' => some ⟨.black, .knight⟩
  | 'b' => some ⟨.black, .bishop⟩
  | 'r' => some ⟨.black, .rook⟩
  | 'q' => some ⟨.black, .queen⟩
  | 'k' => some ⟨.black, .king⟩
  | _ => none

/-- The loop of `Board::try_parse`: `location_index` is a `u8` (additions
wrap), rows are read from the 8th rank down so a placement at location `l`
lands on square `(7 - l / 8) * 8 + l % 8`. -/
def boardWalk : List Char → Nat → (Square → Option PieceIdx) →
    Option (Square → Option PieceIdx)
  | [], _, f => some f
  | c :: cs, loc, f =>
      if '1' ≤ c ∧ c ≤ '8' then
        boardWalk cs ((loc + (c.toNat - 48)) % 256) f
      else if c = ' ' then some f
      else if c = '/' then boardWalk cs loc f
      else
        match pieceOfFenChar c with
        | none => none
        | some pi =>
            if h : loc < 64 then
              boardWalk cs ((loc + 1) % 256)
                (fun q => if q = (⟨(7 - loc / 8) * 8 + loc % 8, by omega⟩ : Square)
                  then some pi else f q)
            else none

/-- `Board::from(&ArrayMap<Square, PieceIndex>)`: set each square's bit in
the board of its piece. -/
def boardOfSquares (f : Square → Option PieceIdx) : PieceMap :=
  fun pi =>
    (List.finRange 64).foldl
      (fun acc sq =>
        match f sq with
        | some q => if q = pi then acc ||| (1 <<< sq.val) else acc
        | none => acc) 0

/-- The loop of `ArrayMap::<Color, CastleRights>::try_parse`. -/
def castleFold : List Char → (Color → CastleRights) → Option (Color → CastleRights)
  | [], r => some r
  | c :: cs, r =>
      if c = 'k' then
        castleFold cs (fun col =>
          if col = Color.black then { r col with kingside := true } else r col)
      else if c = 'q' then
        castleFold cs (fun col =>
          if col = Color.black then { r col with queenside := true } else r col)
      else if c = 'K' then
        castleFold cs (fun col =>
          if col = Color.white then { r col with kingside := true } else r col)
      else if c = 'Q' then
        castleFold cs (fun col =>
          if col = Color.white then { r col with queenside := true } else r col)
      else if c = '-' then castleFold cs r
      else none

/-- `File::from_char`: uppercase, then `A`-`H`. -/
def fileFromChar (c : Char) : Option (Fin 8) :=
  let u := c.toUpper
  if h : 65 ≤ u.toNat ∧ u.toNat ≤ 72 then some ⟨u.toNat - 65, by omega⟩ else none

/-- `Rank::from_char`: `1`-`8`. -/
def rankFromChar (c : Char) : Option (Fin 8) :=
  if h : 49 ≤ c.toNat ∧ c.toNat ≤ 56 then some ⟨c.toNat - 49, by omega⟩ else none

/-- `Square::try_from(&str)`: exactly two characters, file then rank. -/
def squareTryFrom (cs : List Char) : Option Square :=
  match cs with
  | [cf, cr] =>
      match fileFromChar cf, rankFromChar cr with
      | some f, some r => some (squareOfRankFile r f)
      | _, _ => none
  | _ => none

/-- `str::parse::<usize>` on a digit run (64-bit, overflow rejected). -/
def parseUsize (cs : List Char) : Option Nat :=
  if cs.isEmpty ∨ ¬ cs.all isDigitChar then none
  else if cs.foldl (fun acc c => acc * 10 + (c.toNat - 48)) 0 < 2 ^ 64
  then some (cs.foldl (fun acc c => acc * 10 + (c.toNat - 48)) 0) else none

/-- `Fen::try_from_notation` over the character list. -/
def fenParseL (cs : List Char) : Option State :=
  match fenSplit cs with
  | none => none
  | some (bf, ct, cfld, efld, hf, ff) =>
    if rowsOk bf then
      match boardWalk bf 0 (fun _ => none) with
      | none => none
      | some f =>
        match (match ct with
          | 'w' => some Color.white
          | 'b' => some Color.black
          | _ => none) with
        | none => none
        | some turn =>
          match (if cfld = ['-'] then some (fun (_ : Color) => CastleRights.nothing)
            else castleFold cfld (fun (_ : Color) => CastleRights.nothing)) with
          | none => none
          | some rights =>
            match (if efld = ['-'] then some (none : Option Square)
              else (squareTryFrom efld).map some) with
            | none => none
            | some ep =>
              match parseUsize hf with
              | none => none
              | some hm =>
                match parseUsize ff with
                | none => none
                | some fm =>
                  some { board := boardOfSquares f
                         turnToMove := turn
                         castleRights := rights
                         enPassantTarget := ep
                         clock := ⟨hm, fm⟩ }
    else none

/-- `Fen::try_from_notation`. -/
def fenParse (t : String) : Option State := fenParseL t.data

/-- `Display for PieceIndex`: FEN piece letter, uppercase for White. -/
def pieceFenChar (pi : PieceIdx) : Char :=
  let c := ([' ', 'P', 'N', 'B', 'R', 'Q', 'K'].getD pi.piece.toNat ' ')
  match pi.color with
  | .white => c.toUpper
  | .black => c.toLower

def digitChar (n : Nat) : Char := Char.ofNat (48 + n)

/-- The empty-run/piece writer of one board rank of `Fen::into_notation`. -/
def rowCharsL : List (Option PieceIdx) → Nat → List Char
  | [], empt => if 0 < empt then [digitChar empt] else []
  | e :: es, empt =>
      match e with
      | some pi =>
          (if 0 < empt then [digitChar empt] else []) ++ pieceFenChar pi :: rowCharsL es 0
      | none => rowCharsL es (empt + 1)

/-- The pieces of one rank in file order (`ArrayMap::from(board)` read back
along `File::ALL`). -/
def rowOf (m : PieceMap) (r : Fin 8) : List (Option PieceIdx) :=
  (List.finRange 8).map (fun fl => pieceAt m (squareOfRankFile r fl))

/-- Join formatted ranks with `/` separators (the source writes a `/` after
every rank except rank one). -/
def rowsJoin : List (List (Option PieceIdx)) → List Char
  | [] => []
  | [r] => rowCharsL r 0
  | r :: rs => rowCharsL r 0 ++ '/' :: rowsJoin rs

/-- The board group of `Fen::into_notation`: ranks 8 down to 1, separated
by `/`. -/
def boardFieldChars (m : PieceMap) : List Char :=
  rowsJoin (((List.finRange 8).reverse).map (fun r => rowOf m r))

/-- Decimal digits of a `usize` (20 characters suffice for 64 bits; the
fuel only bounds the recursion). -/
def natCharsAux : Nat → Nat → List Char
  | _, 0 => []
  | n, fuel + 1 => if n = 0 then [] else natCharsAux (n / 10) fuel ++ [digitChar (n % 10)]

def natChars (n : Nat) : List Char := if n = 0 then ['0'] else natCharsAux n 25

/-- `Display for Square`: file letter then rank digit. -/
def squareChars (sq : Square) : List Char :=
  [Char.ofNat (97 + sq.fileNat), Char.ofNat (49 + sq.rankNat)]

/-- The castle-rights group of `Fen::into_notation`. -/
def castleChars (rights : Color → CastleRights) : List Char :=
  if rights Color.white = CastleRights.nothing ∧ rights Color.black = CastleRights.nothing
  then ['-']
  else
    (if (rights Color.white).kingside then ['K'] else []) ++
    (if (rights Color.white).queenside then ['Q'] else []) ++
    (if (rights Color.black).kingside then ['k'] else []) ++
    (if (rights Color.black).queenside then ['q'] else [])

/-- The en-passant group of `Fen::into_notation`. -/
def epChars : Option Square → List Char
  | none => ['-']
  | some sq => squareChars sq

/-- `Fen::into_notation` over the character list. -/
def fenFormatL (s : State) : List Char :=
  boardFieldChars s.board ++ ' ' ::
    (match s.turnToMove with | .white => 'w' | .black => 'b') :: ' ' ::
    castleChars s.castleRights ++ ' ' :: epChars s.enPassantTarget ++ ' ' ::
    natChars s.clock.halfmoveClock ++ ' ' :: natChars s.clock.fullmoveNumber

/-- `Fen::into_notation`. -/
def fenFormat (s : State) : String := ⟨fenFormatL s⟩

/-- `Fen::DEFAULT`. -/
def fenDefault : String := "rnbqkbnr/pppppppp/8/8/8/8/PPPPPPPP/RNBQKBNR w KQkq - 0 1"

/-- The square written by a placement at location `loc` (ranks are stored
top-down in FEN). -/
def targetSq (loc : Nat) : Square :=
  if h : loc < 64 then ⟨(7 - loc / 8) * 8 + loc % 8, by omega⟩ else ⟨0, by omega⟩

/-- The assignments performed by the walker across one formatted rank. -/
def placeRow : (Square → Option PieceIdx) → Nat → List (Option PieceIdx) →
    (Square → Option PieceIdx)
  | g, _, [] => g
  | g, loc, none :: es => placeRow g (loc + 1) es
  | g, loc, some pi :: es =>
      placeRow (fun q => if q = targetSq loc then some pi else g q) (loc + 1) es

/-- The storage location written to square `q` (inverse of `targetSq`). -/
def invLoc (q : Square) : Nat := (7 - q.val / 8) * 8 + q.val % 8

/-- The assignments performed across a list of formatted ranks. -/
def placeRows : (Square → Option PieceIdx) → Nat → List (List (Option PieceIdx)) →
    (Square → Option PieceIdx)
  | g, _, [] => g
  | g, loc, r :: rs => placeRows (placeRow g loc r) (loc + r.length) rs

/-! ## The UCI `position` command (`weechess-engine/src/uci.rs`, `Client::exec`) -/

/-- `State::default()`: `Fen::DEFAULT` parsed (`try_from_notation(Self::FEN)
.unwrap()`); the unwrap cannot fail, so the fallback value is unreachable. -/
def stateDefault : State :=
  (fenParse fenDefault).getD
    ⟨fun _ => 0, Color.white, fun _ => CastleRights.nothing, none, ⟨0, 0⟩⟩

/-- `Square::rank` as `Fin 8` (`MoveQuery::set_origin` stores the rank). -/
def rankFin (sq : Square) : Fin 8 :=
  ⟨Square.rankNat sq, by
    have h := sq.isLt
    simp only [Square.rankNat]
    omega⟩

/-- `Square::file` as `Fin 8` (`MoveQuery::set_origin` stores the file). -/
def fileFin (sq : Square) : Fin 8 :=
  ⟨Square.fileNat sq, by
    have h := sq.isLt
    simp only [Square.fileNat]
    omega⟩

/-- `State::by_performing_moves`: per query, the legal moves are filtered
by the query; exactly one survivor is applied, none is `UnknownMove`,
several are `AmbiguousMove`. -/
def byPerformingMoves (state : State) :
    List MoveQuery → Except MovePerformError State
  | [] => .ok state
  | q :: qs =>
      match (computeLegalMoves state).filter (fun r => MoveQuery.test q r.1) with
      | [r] =>
          match byPerformingMove state r.1 with
          | .ok s2 => byPerformingMoves s2 qs
          | .error e => .error e
      | [] => .error .unknownMove
      | _ => .error .ambiguousMove

/-- The move-token parser of the `position` handler (the `filter_map`
closure): origin from the first two characters, destination from the next
two, optional promotion letter at index 4.  The tokens are ASCII, so the
source's byte slices coincide with character slices; a token shorter than
four bytes makes the slicing panic, modelled as rejecting the token. -/
def uciParseMoveToken (m : List Char) : Option MoveQuery :=
  if m.length < 4 then none
  else
    match squareTryFrom (m.take 2), squareTryFrom ((m.drop 2).take 2) with
    | some o, some d =>
        match m.drop 4 with
        | [] =>
            some { MoveQuery.empty with
              originRank := some (rankFin o), originFile := some (fileFin o),
              destRank := some (rankFin d), destFile := some (fileFin d) }
        | p :: _ =>
            match (match p with
              | 'q' => some Piece.queen
              | 'r' => some Piece.rook
              | 'b' => some Piece.bishop
              | 'n' => some Piece.knight
              | _ => none) with
            | some pr =>
                some { MoveQuery.empty with
                  originRank := some (rankFin o), originFile := some (fileFin o),
                  destRank := some (rankFin d), destFile := some (fileFin d),
                  promotion := some pr }
            | none => none
    | _, _ => none

/-- `args.split_once(|arg| arg == &"moves").unwrap_or((args, &[]))`. -/
def splitAtMoves : List String → List String × List String
  | [] => ([], [])
  | a :: as =>
      if a = "moves" then ([], as)
      else ((splitAtMoves as).1.cons a, (splitAtMoves as).2)

/-- `[T]::join(" ")` on the FEN words. -/
def joinSpaces : List String → String
  | [] => ""
  | [a] => a
  | a :: b :: as => a ++ " " ++ joinSpaces (b :: as)

/-- The `position` command arm of `Client::exec`: the new
`current_position` and the `info string` lines printed.  As in the source,
the base position (`startpos` or the parsed FEN) is assigned to
`current_position` before the listed moves are applied; the later error
paths print and `continue` with that assignment in place. -/
def uciHandlePosition (cur : State) (args : List String) : State × List String :=
  match splitAtMoves args with
  | (pos, moves) =>
      match (match pos.head? with
        | some a =>
            if a = "startpos" then Except.ok stateDefault
            else if a = "fen" then
              match fenParse (joinSpaces (pos.drop 1)) with
              | some st => Except.ok st
              | none => Except.error "info string invalid fen position"
            else Except.error "info string unknown position command"
        | none => Except.error "info string unknown position command") with
      | .error msg => (cur, [msg])
      | .ok base =>
          match moves.filterMap (fun m => uciParseMoveToken m.data) with
          | details =>
              if details.length ≠ moves.length then
                (base, ["info string invalid move format"])
              else
                match byPerformingMoves base details with
                | .ok st => (st, [])
                | .error _ => (base, ["info string invalid move"])

/-- `by_performing_moves` over the unoptimized move generator. -/
def byPerformingMovesU (state : State) :
    List MoveQuery → Except MovePerformError State
  | [] => .ok state
  | q :: qs =>
      match (computeLegalMovesU state).filter (fun r => MoveQuery.test q r.1) with
      | [r] =>
          match byPerformingMove state r.1 with
          | .ok s2 => byPerformingMovesU s2 qs
          | .error e => .error e
      | [] => .error .unknownMove
      | _ => .error .ambiguousMove

/-- The `position` handler over the unoptimized move generator. -/
def uciHandlePositionU (cur : State) (args : List String) : State × List String :=
  match splitAtMoves args with
  | (pos, moves) =>
      match (match pos.head? with
        | some a =>
            if a = "startpos" then Except.ok stateDefault
            else if a = "fen" then
              match fenParse (joinSpaces (pos.drop 1)) with
              | some st => Except.ok st
              | none => Except.error "info string invalid fen position"
            else Except.error "info string unknown position command"
        | none => Except.error "info string unknown position command") with
      | .error msg => (cur, [msg])
      | .ok base =>
          match moves.filterMap (fun m => uciParseMoveToken m.data) with
          | details =>
              if details.length ≠ moves.length then
                (base, ["info string invalid move format"])
              else
                match byPerformingMovesU base details with
                | .ok st => (st, [])
                | .error _ => (base, ["info string invalid move"])

/-- A held position other than the default start position. -/
def c8Prev : State := { stateDefault with turnToMove := Color.black }

/-! ## Theorems -/

/-! ### Bit-level facts about the packed move word -/

theorem MoveBits.getBit_eq_testBit (m b : Nat) :
    MoveBits.getBit m b = m.testBit b := by
  unfold MoveBits.getBit
  rw [Nat.one_shiftLeft, Nat.and_two_pow]
  cases h : m.testBit b <;> simp [h]

theorem MoveBits.testBit_store_of_mask_false {mask i : Nat} (d off v : Nat)
    (h : mask.testBit i = false) :
    (MoveBits.store d off mask v).testBit i = d.testBit i := by
  unfold MoveBits.store
  simp [Nat.testBit_lor, Nat.testBit_land, h]

theorem MoveBits.testBit_setBit_self_true (d b : Nat) :
    (MoveBits.setBit d b true).testBit b = true := by
  unfold MoveBits.setBit
  simp [Nat.one_shiftLeft, Nat.testBit_lor, Nat.testBit_two_pow_self]

theorem MoveBits.testBit_setBit_ne {i b : Nat} (d : Nat) (v : Bool)
    (hne : i ≠ b) (hlt : i < 32) :
    (MoveBits.setBit d b v).testBit i = d.testBit i := by
  unfold MoveBits.setBit
  cases v with
  | true =>
      simp [Nat.one_shiftLeft, Nat.testBit_lor, Nat.testBit_two_pow_of_ne (Ne.symm hne)]
  | false =>
      have h32 : Nat.testBit u32Ones i = true := by
        rw [u32Ones, Nat.testBit_two_pow_sub_one]
        simp [hlt]
      rw [if_neg (by simp)]
      rw [Nat.testBit_land, Nat.testBit_xor, Nat.one_shiftLeft,
        Nat.testBit_two_pow_of_ne (Ne.symm hne), h32]
      simp

/-- The double-pawn bit of the four field-setters used after `by_moving`. -/
theorem Move.testBit25_setCapture (d : Nat) (c : Option Piece) :
    (Move.setCapture d c).testBit 25 = d.testBit 25 := by
  apply MoveBits.testBit_store_of_mask_false
  decide

theorem Move.testBit25_setPromotion (d : Nat) (p : Option Piece) :
    (Move.setPromotion d p).testBit 25 = d.testBit 25 := by
  apply MoveBits.testBit_store_of_mask_false
  decide

theorem Move.testBit25_setEnPassant (d : Nat) (b : Bool) :
    (Move.setEnPassant d b).testBit 25 = d.testBit 25 :=
  MoveBits.testBit_setBit_ne d b (by decide) (by decide)

theorem Move.testBit25_setCastleQueenside (d : Nat) (b : Bool) :
    (Move.setCastleQueenside d b).testBit 25 = d.testBit 25 :=
  MoveBits.testBit_setBit_ne d b (by decide) (by decide)

theorem Move.testBit25_setCastleKingside (d : Nat) (b : Bool) :
    (Move.setCastleKingside d b).testBit 25 = d.testBit 25 :=
  MoveBits.testBit_setBit_ne d b (by decide) (by decide)

/-- The double-pawn bit of `by_moving` is exactly the pawn-and-big-rank-jump
condition evaluated by the constructor. -/
theorem Move.testBit25_byMoving (p : PieceIdx) (o d : Square) :
    (Move.byMoving p o d).testBit 25 =
      decide (p.piece = Piece.pawn ∧ 1 < rankDist o d) := by
  unfold Move.byMoving
  have hbase :
      (Move.setColor
        (Move.setDest (Move.setOrigin (Move.setPiece 0 p.piece) o) d)
        (p.color = Color.white)).testBit 25 = false := by
    simp only [Move.setColor, MoveBits.colorOffset]
    rw [MoveBits.testBit_setBit_ne _ _ (by decide) (by decide)]
    rw [Move.setDest, MoveBits.testBit_store_of_mask_false _ _ _ (by decide)]
    rw [Move.setOrigin, MoveBits.testBit_store_of_mask_false _ _ _ (by decide)]
    rw [Move.setPiece, MoveBits.testBit_store_of_mask_false _ _ _ (by decide)]
    simp
  by_cases h : p.piece = Piece.pawn ∧ 1 < rankDist o d
  · rw [if_pos h]
    simp only [Move.setDoublePawn, MoveBits.doublePawnOffset]
    rw [MoveBits.testBit_setBit_self_true]
    simp [h]
  · rw [if_neg h]
    rw [hbase]
    simp [h]

/-- C10: for every move built through the `Move` constructors, the packed
double-pawn flag is true exactly when the moving piece is a pawn and the
origin and destination ranks are more than one apart. -/
theorem c10_double_pawn_flag_derived :
    (∀ (p : PieceIdx) (o d : Square),
      Move.isDoublePawn (Move.byMoving p o d) =
        decide (p.piece = Piece.pawn ∧ 1 < rankDist o d)) ∧
    (∀ (p : PieceIdx) (o d : Square) (c : Piece),
      Move.isDoublePawn (Move.byCapturing p o d c) =
        decide (p.piece = Piece.pawn ∧ 1 < rankDist o d)) ∧
    (∀ (p : PieceIdx) (o d : Square) (pr : Piece),
      Move.isDoublePawn (Move.byPromoting p o d pr) =
        decide (p.piece = Piece.pawn ∧ 1 < rankDist o d)) ∧
    (∀ (p : PieceIdx) (o d : Square) (c pr : Piece),
      Move.isDoublePawn (Move.byCapturePromoting p o d c pr) =
        decide (p.piece = Piece.pawn ∧ 1 < rankDist o d)) ∧
    (∀ (p : PieceIdx) (o d : Square),
      Move.isDoublePawn (Move.byEnPassant p o d) =
        decide (p.piece = Piece.pawn ∧ 1 < rankDist o d)) ∧
    (∀ (c : Color) (s : Side),
      Move.isDoublePawn (Move.byCastling c s) =
        decide ((Piece.king = Piece.pawn) ∧
          1 < rankDist (Move.kingOrigin c) (Move.castleDest c s))) := by
  refine ⟨?_, ?_, ?_, ?_, ?_, ?_⟩
  · intro p o d
    rw [Move.isDoublePawn, MoveBits.getBit_eq_testBit]
    simp only [MoveBits.doublePawnOffset]
    rw [Move.testBit25_byMoving]
  · intro p o d c
    rw [Move.isDoublePawn, MoveBits.getBit_eq_testBit]
    simp only [MoveBits.doublePawnOffset]
    rw [Move.byCapturing, Move.testBit25_setCapture, Move.testBit25_byMoving]
  · intro p o d pr
    rw [Move.isDoublePawn, MoveBits.getBit_eq_testBit]
    simp only [MoveBits.doublePawnOffset]
    rw [Move.byPromoting, Move.testBit25_setPromotion, Move.testBit25_byMoving]
  · intro p o d c pr
    rw [Move.isDoublePawn, MoveBits.getBit_eq_testBit]
    simp only [MoveBits.doublePawnOffset]
    rw [Move.byCapturePromoting, Move.testBit25_setPromotion,
      Move.testBit25_setCapture, Move.testBit25_byMoving]
  · intro p o d
    rw [Move.isDoublePawn, MoveBits.getBit_eq_testBit]
    simp only [MoveBits.doublePawnOffset]
    rw [Move.byEnPassant, Move.testBit25_setCapture, Move.testBit25_setEnPassant,
      Move.testBit25_byMoving]
  · intro c s
    rw [Move.isDoublePawn, MoveBits.getBit_eq_testBit]
    simp only [MoveBits.doublePawnOffset]
    rw [Move.byCastling]
    simp only [Move.testBit25_setCastleKingside, Move.testBit25_setCastleQueenside]
    rw [Move.testBit25_byMoving]

/-- C9: for a non-promotion move `m`, a query with promotion field `some p`
matches `m` exactly when `p` is the moving piece kind and the rest of the
query matches: the promotion check compares `p` against
`m.promotion().unwrap_or(m.piece())`, which is `m.piece()` here. -/
theorem c9_query_promotion_fallback (q : MoveQuery) (m : Move) (p : Piece)
    (hq : q.promotion = some p) (hm : Move.promotion m = none) :
    MoveQuery.test q m = true ↔
      (MoveQuery.test { q with promotion := none } m = true ∧ p = Move.piece m) := by
  unfold MoveQuery.test
  rw [hq, hm]
  simp only [Option.map_some', Option.map_none', Option.getD_some, Option.getD_none]
  simp only [Bool.and_eq_true, decide_eq_true_eq, Bool.and_true]
  tauto

/-- Witness for C9: a promotion-`Queen` query matches the ordinary queen
move d1-d4 even though that move promotes nothing. -/
theorem c9_query_promotion_fallback_witness :
    ({ MoveQuery.empty with promotion := some Piece.queen } : MoveQuery).promotion =
        some Piece.queen ∧
      Move.promotion (Move.byMoving ⟨Color.white, Piece.queen⟩ ⟨3, by omega⟩ ⟨27, by omega⟩) =
        none ∧
      (MoveQuery.test { MoveQuery.empty with promotion := some Piece.queen }
          (Move.byMoving ⟨Color.white, Piece.queen⟩ ⟨3, by omega⟩ ⟨27, by omega⟩) = true ↔
        (MoveQuery.test MoveQuery.empty
            (Move.byMoving ⟨Color.white, Piece.queen⟩ ⟨3, by omega⟩ ⟨27, by omega⟩) = true ∧
          Piece.queen =
            Move.piece (Move.byMoving ⟨Color.white, Piece.queen⟩ ⟨3, by omega⟩ ⟨27, by omega⟩))) :=
  ⟨rfl, by decide,
    c9_query_promotion_fallback _ _ _ rfl (by decide)⟩

/-- C7 counterexample: in a bucket whose first slot already holds the hash
and whose remaining seven slots are empty, the code overwrites the first
slot (`Swapped`, counter unchanged), while the claim's algorithm would put
the entry into the first EMPTY slot and count it as new.  The used-slot
counter therefore stays at 1 where the claim demands 2. -/
theorem c7_tt_insert_counterexample :
    ttInsertOrReplace (some (5, ttE0) :: List.replicate 7 none) 5 ttE1 ≠
      ttClaimedInsertOrReplace (some (5, ttE0) :: List.replicate 7 none) 5 ttE1 ∧
    ttInsertOrReplace (some (5, ttE0) :: List.replicate 7 none) 5 ttE1 =
      (some (5, ttE1) :: List.replicate 7 none, .swapped) ∧
    (TranspositionTable.insert ⟨[some (5, ttE0) :: List.replicate 7 none], 1⟩ 5 ttE1).usedSlots
      = 1 := by
  refine ⟨by decide, by decide, by decide⟩

/-- The scan of `insert_or_replace` falls through exactly when no slot is
empty or carries the inserted hash. -/
theorem ttInsertScan_none_iff (h : Nat) (e : TTEntry) (slots : List TTSlot) :
    ttInsertScan h e slots = none ↔ slots.findIdx? (ttSlotFree h) = none := by
  induction slots with
  | nil => simp [ttInsertScan]
  | cons sl rest ih =>
      match sl with
      | none =>
          simp [ttInsertScan, List.findIdx?_cons, ttSlotFree]
      | some (h2, e2) =>
          by_cases hh : h2 = h
          · subst hh
            simp [ttInsertScan, List.findIdx?_cons, ttSlotFree]
          · have hfree : ttSlotFree h (some (h2, e2)) = false := by
              simp [ttSlotFree, hh]
            rw [ttInsertScan, if_neg hh, List.findIdx?_cons, hfree]
            simp only [Bool.false_eq_true, if_false, List.findIdx?_succ]
            simp [ih]

/-- When the scan finds a qualifying slot, it is the first one, and the
result kind records whether that slot was empty. -/
theorem ttInsertScan_of_findIdx_some (h : Nat) (e : TTEntry)
    {slots : List TTSlot} {i : Nat}
    (hidx : slots.findIdx? (ttSlotFree h) = some i) :
    ttInsertScan h e slots =
      some (slots.set i (some (h, e)),
        if (slots.getD i none).isNone then TTRes.inserted else TTRes.swapped) := by
  induction slots generalizing i with
  | nil => simp at hidx
  | cons sl rest ih =>
      match sl with
      | none =>
          rw [List.findIdx?_cons] at hidx
          simp only [ttSlotFree, if_pos] at hidx
          cases hidx
          simp [ttInsertScan]
      | some (h2, e2) =>
          by_cases hh : h2 = h
          · subst hh
            rw [List.findIdx?_cons] at hidx
            have hfree : ttSlotFree h2 (some (h2, e2)) = true := by
              simp [ttSlotFree]
            rw [hfree] at hidx
            simp only [if_pos] at hidx
            cases hidx
            simp [ttInsertScan]
          · have hfree : ttSlotFree h (some (h2, e2)) = false := by
              simp [ttSlotFree, hh]
            rw [List.findIdx?_cons, hfree] at hidx
            simp only [Bool.false_eq_true, if_false, List.findIdx?_succ] at hidx
            match hrest : rest.findIdx? (ttSlotFree h) with
            | none => rw [hrest] at hidx; simp at hidx
            | some j =>
                rw [hrest] at hidx
                simp only [Option.map_some'] at hidx
                cases hidx
                rw [ttInsertScan, if_neg hh, ih hrest]
                simp

/-- C7 (amended): `insert_or_replace` writes the entry into the FIRST slot
of the in-order scan that is empty or holds an equal hash — `Inserted` when
that slot was empty, `Swapped` when it held the hash — and only when no
slot qualifies does it replace the slot at `(hash XOR move_bits) mod len`;
at the table level `used_slots` grows by one exactly in the `Inserted`
case. -/
theorem c7_tt_insert_amended :
    (∀ (slots : List TTSlot) (h : Nat) (e : TTEntry),
      ttInsertOrReplace slots h e =
        match slots.findIdx? (ttSlotFree h) with
        | some i =>
            (slots.set i (some (h, e)),
             if (slots.getD i none).isNone then TTRes.inserted else TTRes.swapped)
        | none =>
            (slots.set ((h ^^^ Move.asRaw e.performedMove) % slots.length)
              (some (h, e)), TTRes.replaced)) ∧
    (∀ (t : TranspositionTable) (h : Nat) (e : TTEntry),
      (t.insert h e).usedSlots =
        if (ttInsertOrReplace (t.buckets.getD (h % t.buckets.length) ttEmptyBucket)
              h e).2 = TTRes.inserted
        then t.usedSlots + 1 else t.usedSlots) := by
  constructor
  · intro slots h e
    match hidx : slots.findIdx? (ttSlotFree h) with
    | some i =>
        rw [ttInsertOrReplace, ttInsertScan_of_findIdx_some h e hidx]
    | none =>
        rw [ttInsertOrReplace, (ttInsertScan_none_iff h e slots).2 hidx]
  · intro t h e
    rfl

theorem updMap_ne {m : PieceMap} {p q : PieceIdx} (bb : Nat) (h : q ≠ p) :
    updMap m p bb q = m q := by
  simp [updMap, h]

theorem updMap_self (m : PieceMap) (p : PieceIdx) (bb : Nat) :
    updMap m p bb p = bb := by
  simp [updMap]

theorem Color.opposing_ne (c : Color) : c.opposing ≠ c := by
  cases c <;> simp [Color.opposing]

/-- C5: after `by_performing_move`, each castle right equals the previous
right — forcibly cleared for both sides of the mover when the king moved —
ANDed with the occupancy test of that rook's corner square in the resulting
board.  In particular rights are never newly granted. -/
theorem c5_castle_rights_recompute (s : State) (m : Move) (s2 : State)
    (h : byPerformingMove s m = .ok s2) (c : Color) (side : Side) :
    (s2.castleRights c).forSide side =
      ((if Move.piece m = Piece.king ∧ c = s.turnToMove then false
        else (s.castleRights c).forSide side) &&
        bbTest (s2.board ⟨c, Piece.rook⟩) (cornerSquare c side)) := by
  unfold byPerformingMove at h
  match happly : applyBoard s m with
  | .error e => rw [happly] at h; exact absurd h (by simp)
  | .ok b =>
      rw [happly] at h
      injection h with h2
      subst h2
      unfold computeRights
      by_cases hk : Move.piece m = Piece.king
      · by_cases hc : c = s.turnToMove
        · cases side <;>
            simp [hk, hc, CastleRights.forSide, CastleRights.nothing]
        · cases side <;>
            simp [hk, hc, CastleRights.forSide, CastleRights.nothing]
      · cases side <;> simp [hk, CastleRights.forSide]

/-- Witness for C5: the castle-right equation holds concretely after the
king move e1-e2 (White's kingside right is cleared although the h1 rook
never moved). -/
theorem c5_castle_rights_recompute_witness :
    byPerformingMove c5S0 c5M0 = .ok c5S2 ∧
      (c5S2.castleRights .white).forSide .king =
        ((if Move.piece c5M0 = Piece.king ∧ Color.white = c5S0.turnToMove then false
          else (c5S0.castleRights .white).forSide .king) &&
          bbTest (c5S2.board ⟨.white, Piece.rook⟩) (cornerSquare .white .king)) :=
  ⟨by decide, c5_castle_rights_recompute c5S0 c5M0 c5S2 (by decide) .white .king⟩

/-- C6 (amended): for a move with the en-passant flag, `by_performing_move`
fails with `IllegalEnPassant` when the en-passant target is absent, or when
the square one rank behind the TARGET (in the mover's backward direction)
leaves the board; otherwise it succeeds and the opponent pawn is removed
from that square behind the target (which coincides with the square behind
the destination only for generator-produced moves, where destination =
target). -/
theorem c6_en_passant (s : State) (m : Move) (hep : Move.isEnPassant m = true) :
    (s.enPassantTarget = none → byPerformingMove s m = .error .illegalEnPassant) ∧
    (∀ t, s.enPassantTarget = some t →
      (Square.offset t s.turnToMove.backward = none →
        byPerformingMove s m = .error .illegalEnPassant) ∧
      (∀ capSq, Square.offset t s.turnToMove.backward = some capSq →
        ∃ s2, byPerformingMove s m = .ok s2 ∧
          s2.board ⟨s.turnToMove.opposing, Piece.pawn⟩ =
            bbSet (s.board ⟨s.turnToMove.opposing, Piece.pawn⟩) capSq false)) := by
  have hcol : (⟨s.turnToMove.opposing, Piece.pawn⟩ : PieceIdx) ≠
      ⟨s.turnToMove, Move.piece m⟩ := by
    intro heq
    have := congrArg PieceIdx.color heq
    exact Color.opposing_ne s.turnToMove this
  refine ⟨?_, ?_⟩
  · intro hnone
    unfold byPerformingMove applyBoard
    rw [hep]
    simp only [if_true, hnone]
  · intro t ht
    refine ⟨?_, ?_⟩
    · intro hoff
      unfold byPerformingMove applyBoard
      rw [hep]
      simp only [if_true, ht, hoff]
    · intro capSq hoff
      unfold byPerformingMove applyBoard
      rw [hep]
      simp only [if_true, ht, hoff]
      refine ⟨_, rfl, ?_⟩
      have hoppPromo : ∀ pr : Piece, (⟨s.turnToMove.opposing, Piece.pawn⟩ : PieceIdx) ≠
          ⟨s.turnToMove, pr⟩ := by
        intro pr heq
        have := congrArg PieceIdx.color heq
        exact Color.opposing_ne s.turnToMove this
      cases hpr : Move.promotion m with
      | none =>
          by_cases hck : Move.isCastle m .king = true
          · simp [hpr, hck, updMap_ne _ hcol, updMap_ne _ (hoppPromo Piece.rook),
              updMap_self]
          · by_cases hcq : Move.isCastle m .queen = true
            · simp [hpr, hck, hcq, updMap_ne _ hcol, updMap_ne _ (hoppPromo Piece.rook),
                updMap_self]
            · simp [hpr, hck, hcq, updMap_ne _ hcol, updMap_self]
      | some pr =>
          by_cases hck : Move.isCastle m .king = true
          · simp [hpr, hck, updMap_ne _ hcol, updMap_ne _ (hoppPromo Piece.rook),
              updMap_ne _ (hoppPromo pr), updMap_self]
          · by_cases hcq : Move.isCastle m .queen = true
            · simp [hpr, hck, hcq, updMap_ne _ hcol, updMap_ne _ (hoppPromo Piece.rook),
                updMap_ne _ (hoppPromo pr), updMap_self]
            · simp [hpr, hck, hcq, updMap_ne _ hcol, updMap_ne _ (hoppPromo pr),
                updMap_self]

/-- C6 counterexample: applying the en-passant-flagged move `c6M0` (with
`en_passant_target = some c6`) succeeds but removes the pawn one rank
behind the TARGET (c5), not the pawn one rank behind the DESTINATION (d5):
d5 is still occupied by a black pawn afterwards, contradicting the claim's
wording. -/
theorem c6_en_passant_counterexample :
    Move.isEnPassant c6M0 = true ∧
    (byPerformingMove c6S0 c6M0).map
        (fun s2 => bbTest (s2.board ⟨.black, .pawn⟩) ⟨35, by omega⟩) = .ok true ∧
    (byPerformingMove c6S0 c6M0).map
        (fun s2 => bbTest (s2.board ⟨.black, .pawn⟩) ⟨34, by omega⟩) = .ok false := by
  refine ⟨by decide, by decide, by decide⟩

/-- Witness for C6: at `c6S0` the hypotheses of the amended theorem hold
concretely, and the captured pawn square is c5 (one rank behind the c6
target). -/
theorem c6_en_passant_witness :
    Move.isEnPassant c6M0 = true ∧
      c6S0.enPassantTarget = some ⟨42, by omega⟩ ∧
      Square.offset ⟨42, by omega⟩ c6S0.turnToMove.backward = some ⟨34, by omega⟩ ∧
      (∃ s2, byPerformingMove c6S0 c6M0 = .ok s2 ∧
        s2.board ⟨c6S0.turnToMove.opposing, Piece.pawn⟩ =
          bbSet (c6S0.board ⟨c6S0.turnToMove.opposing, Piece.pawn⟩) ⟨34, by omega⟩ false) :=
  ⟨by decide, rfl, by decide,
    ((c6_en_passant c6S0 c6M0 (by decide)).2 ⟨42, by omega⟩ rfl).2 ⟨34, by omega⟩ (by decide)⟩

/-! ### Bit-level utilities for 64-bit boards -/

theorem u64Mod_pos : 0 < u64Mod := by
  rw [u64Mod]
  exact Nat.pos_pow_of_pos _ (by omega)

theorem testBit_ge_64 {x : Nat} (hx : x < u64Mod) {i : Nat} (hi : 64 ≤ i) :
    x.testBit i = false := by
  apply Nat.testBit_lt_two_pow
  calc x < 2 ^ 64 := hx
    _ ≤ 2 ^ i := Nat.pow_le_pow_right (by omega) hi

theorem bbNot_testBit_lt {x i : Nat} (hi : i < 64) :
    (bbNot x).testBit i = !x.testBit i := by
  rw [bbNot, u64Ones, Nat.testBit_xor, Nat.testBit_two_pow_sub_one]
  simp [hi]

theorem bbNot_zero : bbNot 0 = u64Ones := by
  rw [bbNot, Nat.zero_xor]

theorem and_u64Ones {x : Nat} (hx : x < u64Mod) : x &&& u64Ones = x := by
  rw [u64Ones]
  exact Nat.and_pow_two_sub_one_of_lt_two_pow hx

theorem lor_lt_u64 {x y : Nat} (hx : x < u64Mod) (hy : y < u64Mod) :
    (x ||| y) < u64Mod := Nat.or_lt_two_pow hx hy

/-! ### Characterisations of `first_one` and `last_one` -/

theorem firstOneGo_eq_some {x : Nat} :
    ∀ (fuel start b : Nat), firstOneGo x start fuel = some b ↔
      (start ≤ b ∧ b < start + fuel ∧ x.testBit b = true ∧
        ∀ j, start ≤ j → j < b → x.testBit j = false) := by
  intro fuel
  induction fuel with
  | zero => intro start b; simp [firstOneGo]; omega
  | succ n ih =>
      intro start b
      rw [firstOneGo]
      by_cases h : x.testBit start
      · rw [if_pos h]
        constructor
        · intro hb
          cases hb
          exact ⟨le_refl _, by omega, h, fun j h1 h2 => absurd h2 (by omega)⟩
        · rintro ⟨h1, h2, h3, h4⟩
          rcases Nat.eq_or_lt_of_le h1 with heq | hlt
          · rw [heq]
          · exact absurd (h4 start (le_refl _) hlt) (by simp [h])
      · rw [if_neg h]
        rw [ih (start + 1) b]
        constructor
        · rintro ⟨h1, h2, h3, h4⟩
          refine ⟨by omega, by omega, h3, fun j hj1 hj2 => ?_⟩
          rcases Nat.eq_or_lt_of_le hj1 with heq | hlt
          · rw [← heq]; simpa using h
          · exact h4 j hlt hj2
        · rintro ⟨h1, h2, h3, h4⟩
          have hne : b ≠ start := by
            intro heq; rw [heq] at h3; simp [h3] at h
          refine ⟨by omega, by omega, h3, fun j hj1 hj2 => h4 j (by omega) hj2⟩

theorem firstOneGo_eq_none {x : Nat} :
    ∀ (fuel start : Nat), firstOneGo x start fuel = none ↔
      ∀ j, start ≤ j → j < start + fuel → x.testBit j = false := by
  intro fuel
  induction fuel with
  | zero => intro start; simp [firstOneGo]; omega
  | succ n ih =>
      intro start
      rw [firstOneGo]
      by_cases h : x.testBit start
      · rw [if_pos h]
        simp only [reduceCtorEq, false_iff, not_forall]
        exact ⟨start, le_refl _, by omega, by simp [h]⟩
      · rw [if_neg h]
        rw [ih (start + 1)]
        constructor
        · intro hall j hj1 hj2
          rcases Nat.eq_or_lt_of_le hj1 with heq | hlt
          · rw [← heq]; simpa using h
          · exact hall j hlt (by omega)
        · intro hall j hj1 hj2
          exact hall j (by omega) (by omega)

theorem firstOne?_eq_some {x b : Nat} :
    firstOne? x = some b ↔
      (b < 64 ∧ x.testBit b = true ∧ ∀ j, j < b → x.testBit j = false) := by
  rw [firstOne?, firstOneGo_eq_some]
  constructor
  · rintro ⟨_, h2, h3, h4⟩
    exact ⟨by omega, h3, fun j hj => h4 j (by omega) hj⟩
  · rintro ⟨h1, h2, h3⟩
    exact ⟨by omega, by omega, h2, fun j _ hj => h3 j hj⟩

theorem firstOne?_eq_none {x : Nat} (hx : x < u64Mod) :
    firstOne? x = none ↔ x = 0 := by
  rw [firstOne?, firstOneGo_eq_none]
  constructor
  · intro hall
    apply Nat.eq_of_testBit_eq
    intro i
    simp only [Nat.zero_testBit]
    by_cases hi : i < 64
    · exact hall i (by omega) (by omega)
    · exact testBit_ge_64 hx (by omega)
  · intro h0
    subst h0
    simp [Nat.zero_testBit]

theorem lastOneGo_eq_some {x : Nat} :
    ∀ (n b : Nat), lastOneGo x n = some b ↔
      (b < n ∧ x.testBit b = true ∧ ∀ j, b < j → j < n → x.testBit j = false) := by
  intro n
  induction n with
  | zero => intro b; simp [lastOneGo]
  | succ n ih =>
      intro b
      rw [lastOneGo]
      by_cases h : x.testBit n
      · rw [if_pos h]
        constructor
        · intro hb
          cases hb
          exact ⟨by omega, h, fun j h1 h2 => by omega⟩
        · rintro ⟨h1, h2, h3⟩
          rcases Nat.lt_or_ge b n with hlt | hge
          · exact absurd (h3 n hlt (by omega)) (by simp [h])
          · have : b = n := by omega
            rw [this]
      · rw [if_neg h]
        rw [ih b]
        constructor
        · rintro ⟨h1, h2, h3⟩
          refine ⟨by omega, h2, fun j hj1 hj2 => ?_⟩
          rcases Nat.lt_or_ge j n with hlt | hge
          · exact h3 j hj1 hlt
          · have : j = n := by omega
            rw [this]; simpa using h
        · rintro ⟨h1, h2, h3⟩
          have hne : b ≠ n := by
            intro heq; rw [heq] at h2; simp [h2] at h
          exact ⟨by omega, h2, fun j hj1 hj2 => h3 j hj1 (by omega)⟩

theorem lastOne?_eq_some {x b : Nat} :
    lastOne? x = some b ↔
      (b < 64 ∧ x.testBit b = true ∧ ∀ j, b < j → j < 64 → x.testBit j = false) :=
  lastOneGo_eq_some 64 b

theorem lastOneGo_eq_none {x : Nat} :
    ∀ n, lastOneGo x n = none ↔ ∀ j, j < n → x.testBit j = false := by
  intro n
  induction n with
  | zero => simp [lastOneGo]
  | succ n ih =>
      rw [lastOneGo]
      by_cases h : x.testBit n
      · rw [if_pos h]
        simp only [reduceCtorEq, false_iff, not_forall]
        exact ⟨n, by omega, by simp [h]⟩
      · rw [if_neg h, ih]
        constructor
        · intro hall j hj
          rcases Nat.lt_or_ge j n with hlt | hge
          · exact hall j hlt
          · have : j = n := by omega
            rw [this]; simpa using h
        · intro hall j hj
          exact hall j (by omega)

theorem lastOne?_eq_none {x : Nat} (hx : x < u64Mod) :
    lastOne? x = none ↔ x = 0 := by
  rw [lastOne?, lastOneGo_eq_none]
  constructor
  · intro hall
    apply Nat.eq_of_testBit_eq
    intro i
    simp only [Nat.zero_testBit]
    by_cases hi : i < 64
    · exact hall i hi
    · exact testBit_ge_64 hx (by omega)
  · intro h0
    subst h0
    simp [Nat.zero_testBit]

/-! ### Removing the edge squares from a ray's blocker set does not change
the classical walk: the edge square is the farthest ray square, so it
either is not the nearest blocker, or it is the only blocker and the ray
beyond it is empty. -/

theorem stepFirst_le (rayD : Nat → Nat) (blockSet att : Nat) :
    stepFirst rayD blockSet att ≤ att := by
  unfold stepFirst
  cases firstOne? blockSet with
  | none => exact le_refl _
  | some b => exact Nat.and_le_left

theorem stepLast_le (rayD : Nat → Nat) (blockSet att : Nat) :
    stepLast rayD blockSet att ≤ att := by
  unfold stepLast
  cases lastOne? blockSet with
  | none => exact le_refl _
  | some b => exact Nat.and_le_left

/-- Congruence of a `first_one` step (edge square = maximal ray square):
`A` is the true blocker set on the ray, and masking may only remove bits of
`E`. -/
theorem stepFirst_congr (rayD : Nat → Nat) (R E A att : Nat)
    (hatt : att < u64Mod) (hR : R < u64Mod)
    (hA : ∀ q, A.testBit q = true → R.testBit q = true)
    (hAle : A ≤ R)
    (hmax : ∀ q, q < 64 → R.testBit q = true → E.testBit q = true →
        R &&& bbNot (2 ^ (q + 1) - 1) = 0)
    (hedgeray : ∀ q, q < 64 → R.testBit q = true → E.testBit q = true → rayD q = 0) :
    stepFirst rayD (A &&& bbNot E) att = stepFirst rayD A att := by
  have hAlt : A < u64Mod := Nat.lt_of_le_of_lt hAle hR
  cases hfa : firstOne? A with
  | none =>
      have hA0 : A = 0 := (firstOne?_eq_none hAlt).1 hfa
      rw [stepFirst, stepFirst, hfa, hA0, Nat.zero_and,
        (firstOne?_eq_none u64Mod_pos).2 rfl]
  | some b =>
      obtain ⟨hblt, hbit, hmin⟩ := firstOne?_eq_some.1 hfa
      by_cases hE : E.testBit b = true
      · have hRb := hA b hbit
        have hhigh := hmax b hblt hRb hE
        have hB0 : A &&& bbNot E = 0 := by
          apply Nat.eq_of_testBit_eq
          intro i
          rw [Nat.testBit_land, Nat.zero_testBit]
          by_cases hi : i < 64
          · by_cases hAi : A.testBit i = true
            · have hRi := hA i hAi
              have hile : i ≤ b := by
                by_contra hgt
                have h1 : (R &&& bbNot (2 ^ (b + 1) - 1)).testBit i = true := by
                  rw [Nat.testBit_land, hRi, bbNot_testBit_lt hi,
                    Nat.testBit_two_pow_sub_one]
                  simp
                  omega
                rw [hhigh, Nat.zero_testBit] at h1
                exact Bool.noConfusion h1
              rcases Nat.eq_or_lt_of_le hile with heq | hlt
              · rw [heq, bbNot_testBit_lt hblt, hE]
                simp
              · rw [hmin i hlt]
                simp
            · simp [Bool.not_eq_true] at hAi
              rw [hAi]
              simp
          · rw [testBit_ge_64 hAlt (by omega)]
            simp
        rw [stepFirst, stepFirst, hfa, hB0, (firstOne?_eq_none u64Mod_pos).2 rfl]
        show att = att &&& bbNot (rayD b)
        rw [hedgeray b hblt hRb hE, bbNot_zero, and_u64Ones hatt]
      · have hfB : firstOne? (A &&& bbNot E) = some b := by
          rw [firstOne?_eq_some]
          refine ⟨hblt, ?_, fun j hj => ?_⟩
          · rw [Nat.testBit_land, hbit, bbNot_testBit_lt hblt]
            simp [Bool.not_eq_true] at hE
            rw [hE]
            simp
          · rw [Nat.testBit_land, hmin j hj]
            simp
        rw [stepFirst, stepFirst, hfa, hfB]

/-- Congruence of a `last_one` step (edge square = minimal ray square). -/
theorem stepLast_congr (rayD : Nat → Nat) (R E A att : Nat)
    (hatt : att < u64Mod) (hR : R < u64Mod)
    (hA : ∀ q, A.testBit q = true → R.testBit q = true)
    (hAle : A ≤ R)
    (hmin : ∀ q, q < 64 → R.testBit q = true → E.testBit q = true →
        R &&& (2 ^ q - 1) = 0)
    (hedgeray : ∀ q, q < 64 → R.testBit q = true → E.testBit q = true → rayD q = 0) :
    stepLast rayD (A &&& bbNot E) att = stepLast rayD A att := by
  have hAlt : A < u64Mod := Nat.lt_of_le_of_lt hAle hR
  cases hfa : lastOne? A with
  | none =>
      have hA0 : A = 0 := (lastOne?_eq_none hAlt).1 hfa
      rw [stepLast, stepLast, hfa, hA0, Nat.zero_and,
        (lastOne?_eq_none u64Mod_pos).2 rfl]
  | some b =>
      obtain ⟨hblt, hbit, hmaxb⟩ := lastOne?_eq_some.1 hfa
      by_cases hE : E.testBit b = true
      · have hRb := hA b hbit
        have hlow := hmin b hblt hRb hE
        have hB0 : A &&& bbNot E = 0 := by
          apply Nat.eq_of_testBit_eq
          intro i
          rw [Nat.testBit_land, Nat.zero_testBit]
          by_cases hi : i < 64
          · by_cases hAi : A.testBit i = true
            · have hRi := hA i hAi
              have hige : b ≤ i := by
                by_contra hgt
                have h1 : (R &&& (2 ^ b - 1)).testBit i = true := by
                  rw [Nat.testBit_land, hRi, Nat.testBit_two_pow_sub_one]
                  simp
                  omega
                rw [hlow, Nat.zero_testBit] at h1
                exact Bool.noConfusion h1
              rcases Nat.eq_or_lt_of_le hige with heq | hlt
              · rw [← heq, bbNot_testBit_lt hblt, hE]
                simp
              · rw [hmaxb i hlt hi]
                simp
            · simp [Bool.not_eq_true] at hAi
              rw [hAi]
              simp
          · rw [testBit_ge_64 hAlt (by omega)]
            simp
        rw [stepLast, stepLast, hfa, hB0, (lastOne?_eq_none u64Mod_pos).2 rfl]
        show att = att &&& bbNot (rayD b)
        rw [hedgeray b hblt hRb hE, bbNot_zero, and_u64Ones hatt]
      · have hfB : lastOne? (A &&& bbNot E) = some b := by
          rw [lastOne?_eq_some]
          refine ⟨hblt, ?_, fun j hj hj64 => ?_⟩
          · rw [Nat.testBit_land, hbit, bbNot_testBit_lt hblt]
            simp [Bool.not_eq_true] at hE
            rw [hE]
            simp
          · rw [Nat.testBit_land, hmaxb j hj hj64]
            simp
        rw [stepLast, stepLast, hfa, hfB]

theorem bitsListGo_mem {x : Nat} :
    ∀ (fuel start q : Nat), q ∈ bitsListGo x start fuel ↔
      (start ≤ q ∧ q < start + fuel ∧ x.testBit q = true) := by
  intro fuel
  induction fuel with
  | zero => intro start q; simp [bitsListGo]; omega
  | succ n ih =>
      intro start q
      rw [bitsListGo]
      by_cases h : x.testBit start
      · rw [if_pos h, List.mem_cons, ih (start + 1) q]
        constructor
        · rintro (heq | ⟨h1, h2, h3⟩)
          · exact ⟨by omega, by omega, by rw [heq]; exact h⟩
          · exact ⟨by omega, by omega, h3⟩
        · rintro ⟨h1, h2, h3⟩
          by_cases heq : q = start
          · exact Or.inl heq
          · exact Or.inr ⟨by omega, by omega, h3⟩
      · rw [if_neg h, ih (start + 1) q]
        constructor
        · rintro ⟨h1, h2, h3⟩
          exact ⟨by omega, by omega, h3⟩
        · rintro ⟨h1, h2, h3⟩
          have hne : q ≠ start := by
            intro heq; rw [heq] at h3; simp [h3] at h
          exact ⟨by omega, by omega, h3⟩

theorem bitsList_mem {x q : Nat} :
    q ∈ bitsList x ↔ (q < 64 ∧ x.testBit q = true) := by
  rw [bitsList, bitsListGo_mem]
  constructor
  · rintro ⟨_, h2, h3⟩
    exact ⟨by omega, h3⟩
  · rintro ⟨h1, h2⟩
    exact ⟨by omega, by omega, h2⟩

theorem and_testBit_left {x y q : Nat} (h : (x &&& y).testBit q = true) :
    x.testBit q = true := by
  rw [Nat.testBit_land, Bool.and_eq_true] at h
  exact h.1

theorem maxEdgeOk_spec {R E : Nat} (h : maxEdgeOk R E = true) :
    ∀ q, q < 64 → R.testBit q = true → E.testBit q = true →
      R &&& bbNot (2 ^ (q + 1) - 1) = 0 := by
  intro q hq hR hE
  rw [maxEdgeOk, List.all_eq_true] at h
  have hmem : q ∈ bitsList (R &&& E) := by
    rw [bitsList_mem, Nat.testBit_land, hR, hE]
    exact ⟨hq, rfl⟩
  exact of_decide_eq_true (h q hmem)

theorem minEdgeOk_spec {R E : Nat} (h : minEdgeOk R E = true) :
    ∀ q, q < 64 → R.testBit q = true → E.testBit q = true →
      R &&& (2 ^ q - 1) = 0 := by
  intro q hq hR hE
  rw [minEdgeOk, List.all_eq_true] at h
  have hmem : q ∈ bitsList (R &&& E) := by
    rw [bitsList_mem, Nat.testBit_land, hR, hE]
    exact ⟨hq, rfl⟩
  exact of_decide_eq_true (h q hmem)

theorem edgeRayOk_spec {d : Direction} {R E : Nat} (h : edgeRayOk d R E = true) :
    ∀ q, q < 64 → R.testBit q = true → E.testBit q = true → ray d q = 0 := by
  intro q hq hR hE
  rw [edgeRayOk, List.all_eq_true] at h
  have hmem : q ∈ bitsList (R &&& E) := by
    rw [bitsList_mem, Nat.testBit_land, hR, hE]
    exact ⟨hq, rfl⟩
  have hq2 := h q hmem
  simpa using hq2

/-- Shuffle the slide mask conjunct onto the ray: if on the ray the slide
mask agrees with the complement of the edge set, the masked blocker set is
the plain blocker set minus the edge. -/
theorem mask_shift (R occ M E : Nat) (h : R &&& M = R &&& bbNot E) :
    R &&& (occ &&& M) = (R &&& occ) &&& bbNot E := by
  rw [Nat.land_comm occ M, ← Nat.land_assoc, h, Nat.land_assoc,
    Nat.land_comm (bbNot E) occ, ← Nat.land_assoc]

/-- Every ray fits in a 64-bit word. -/
theorem ray_lt_u64 : ∀ (d : Direction) (sq : Square), ray d sq.val < u64Mod := by
  decide

/-- On the north ray, the rook slide mask removes exactly the rank-8 edge. -/
theorem rook_mask_north : ∀ sq : Square,
    ray .north sq.val &&& rookSlideMask sq =
      ray .north sq.val &&& bbNot (rankMask ⟨7, by omega⟩) := by decide

theorem rook_mask_south : ∀ sq : Square,
    ray .south sq.val &&& rookSlideMask sq =
      ray .south sq.val &&& bbNot (rankMask ⟨0, by omega⟩) := by decide

theorem rook_mask_west : ∀ sq : Square,
    ray .west sq.val &&& rookSlideMask sq =
      ray .west sq.val &&& bbNot (fileMask ⟨0, by omega⟩) := by decide

theorem rook_mask_east : ∀ sq : Square,
    ray .east sq.val &&& rookSlideMask sq =
      ray .east sq.val &&& bbNot (fileMask ⟨7, by omega⟩) := by decide

theorem rook_edge_north : ∀ sq : Square,
    maxEdgeOk (ray .north sq.val) (rankMask ⟨7, by omega⟩) = true ∧
    edgeRayOk .north (ray .north sq.val) (rankMask ⟨7, by omega⟩) = true := by decide

theorem rook_edge_south : ∀ sq : Square,
    minEdgeOk (ray .south sq.val) (rankMask ⟨0, by omega⟩) = true ∧
    edgeRayOk .south (ray .south sq.val) (rankMask ⟨0, by omega⟩) = true := by decide

theorem rook_edge_west : ∀ sq : Square,
    minEdgeOk (ray .west sq.val) (fileMask ⟨0, by omega⟩) = true ∧
    edgeRayOk .west (ray .west sq.val) (fileMask ⟨0, by omega⟩) = true := by decide

theorem rook_edge_east : ∀ sq : Square,
    maxEdgeOk (ray .east sq.val) (fileMask ⟨7, by omega⟩) = true ∧
    edgeRayOk .east (ray .east sq.val) (fileMask ⟨7, by omega⟩) = true := by decide

theorem bishop_mask_northWest : ∀ sq : Square,
    ray .northWest sq.val &&& bishopSlideMask sq =
      ray .northWest sq.val &&&
        bbNot (fileMask ⟨0, by omega⟩ ||| rankMask ⟨7, by omega⟩) := by decide

theorem bishop_mask_southWest : ∀ sq : Square,
    ray .southWest sq.val &&& bishopSlideMask sq =
      ray .southWest sq.val &&&
        bbNot (fileMask ⟨0, by omega⟩ ||| rankMask ⟨0, by omega⟩) := by decide

theorem bishop_mask_northEast : ∀ sq : Square,
    ray .northEast sq.val &&& bishopSlideMask sq =
      ray .northEast sq.val &&&
        bbNot (fileMask ⟨7, by omega⟩ ||| rankMask ⟨7, by omega⟩) := by decide

theorem bishop_mask_southEast : ∀ sq : Square,
    ray .southEast sq.val &&& bishopSlideMask sq =
      ray .southEast sq.val &&&
        bbNot (fileMask ⟨7, by omega⟩ ||| rankMask ⟨0, by omega⟩) := by decide

theorem bishop_edge_northWest : ∀ sq : Square,
    maxEdgeOk (ray .northWest sq.val) (fileMask ⟨0, by omega⟩ ||| rankMask ⟨7, by omega⟩) = true ∧
    edgeRayOk .northWest (ray .northWest sq.val)
      (fileMask ⟨0, by omega⟩ ||| rankMask ⟨7, by omega⟩) = true := by decide

theorem bishop_edge_southWest : ∀ sq : Square,
    minEdgeOk (ray .southWest sq.val) (fileMask ⟨0, by omega⟩ ||| rankMask ⟨0, by omega⟩) = true ∧
    edgeRayOk .southWest (ray .southWest sq.val)
      (fileMask ⟨0, by omega⟩ ||| rankMask ⟨0, by omega⟩) = true := by decide

theorem bishop_edge_northEast : ∀ sq : Square,
    maxEdgeOk (ray .northEast sq.val) (fileMask ⟨7, by omega⟩ ||| rankMask ⟨7, by omega⟩) = true ∧
    edgeRayOk .northEast (ray .northEast sq.val)
      (fileMask ⟨7, by omega⟩ ||| rankMask ⟨7, by omega⟩) = true := by decide

theorem bishop_edge_southEast : ∀ sq : Square,
    minEdgeOk (ray .southEast sq.val) (fileMask ⟨7, by omega⟩ ||| rankMask ⟨0, by omega⟩) = true ∧
    edgeRayOk .southEast (ray .southEast sq.val)
      (fileMask ⟨7, by omega⟩ ||| rankMask ⟨0, by omega⟩) = true := by decide

/-- Masking the occupancy with the rook slide mask does not change the
classical rook attack walk. -/
theorem computeRookAttacksUnoptimized_mask (sq : Square) (occ : Nat) :
    computeRookAttacksUnoptimized sq (occ &&& rookSlideMask sq) =
      computeRookAttacksUnoptimized sq occ := by
  have hN := ray_lt_u64 .north sq
  have hS := ray_lt_u64 .south sq
  have hW := ray_lt_u64 .west sq
  have hE := ray_lt_u64 .east sq
  unfold computeRookAttacksUnoptimized
  simp only []
  rw [mask_shift _ occ _ _ (rook_mask_north sq),
    mask_shift _ occ _ _ (rook_mask_south sq),
    mask_shift _ occ _ _ (rook_mask_west sq),
    mask_shift _ occ _ _ (rook_mask_east sq)]
  have ha1 : (0 ||| ray .north sq.val) < u64Mod := by
    rw [Nat.zero_or]
    exact hN
  rw [stepFirst_congr (ray .north) (ray .north sq.val) _ _ _ ha1 hN
    (fun q hq => and_testBit_left hq) Nat.and_le_left
    (maxEdgeOk_spec (rook_edge_north sq).1)
    (edgeRayOk_spec (rook_edge_north sq).2)]
  have ha2 : (stepFirst (ray .north) (ray .north sq.val &&& occ) (0 ||| ray .north sq.val) |||
      ray .south sq.val) < u64Mod :=
    lor_lt_u64 (Nat.lt_of_le_of_lt (stepFirst_le _ _ _) ha1) hS
  rw [stepLast_congr (ray .south) (ray .south sq.val) _ _ _ ha2 hS
    (fun q hq => and_testBit_left hq) Nat.and_le_left
    (minEdgeOk_spec (rook_edge_south sq).1)
    (edgeRayOk_spec (rook_edge_south sq).2)]
  have ha3 : (stepLast (ray .south) (ray .south sq.val &&& occ) _ |||
      ray .west sq.val) < u64Mod :=
    lor_lt_u64 (Nat.lt_of_le_of_lt (stepLast_le _ _ _) ha2) hW
  rw [stepLast_congr (ray .west) (ray .west sq.val) _ _ _ ha3 hW
    (fun q hq => and_testBit_left hq) Nat.and_le_left
    (minEdgeOk_spec (rook_edge_west sq).1)
    (edgeRayOk_spec (rook_edge_west sq).2)]
  have ha4 : (stepLast (ray .west) (ray .west sq.val &&& occ) _ |||
      ray .east sq.val) < u64Mod :=
    lor_lt_u64 (Nat.lt_of_le_of_lt (stepLast_le _ _ _) ha3) hE
  rw [stepFirst_congr (ray .east) (ray .east sq.val) _ _ _ ha4 hE
    (fun q hq => and_testBit_left hq) Nat.and_le_left
    (maxEdgeOk_spec (rook_edge_east sq).1)
    (edgeRayOk_spec (rook_edge_east sq).2)]

/-- Masking the occupancy with the bishop slide mask does not change the
classical bishop attack walk. -/
theorem computeBishopAttacksUnoptimized_mask (sq : Square) (occ : Nat) :
    computeBishopAttacksUnoptimized sq (occ &&& bishopSlideMask sq) =
      computeBishopAttacksUnoptimized sq occ := by
  have hNW := ray_lt_u64 .northWest sq
  have hSW := ray_lt_u64 .southWest sq
  have hNE := ray_lt_u64 .northEast sq
  have hSE := ray_lt_u64 .southEast sq
  unfold computeBishopAttacksUnoptimized
  simp only []
  rw [mask_shift _ occ _ _ (bishop_mask_northWest sq),
    mask_shift _ occ _ _ (bishop_mask_southWest sq),
    mask_shift _ occ _ _ (bishop_mask_northEast sq),
    mask_shift _ occ _ _ (bishop_mask_southEast sq)]
  have ha1 : (0 ||| ray .northWest sq.val) < u64Mod := by
    rw [Nat.zero_or]
    exact hNW
  rw [stepFirst_congr (ray .northWest) (ray .northWest sq.val) _ _ _ ha1 hNW
    (fun q hq => and_testBit_left hq) Nat.and_le_left
    (maxEdgeOk_spec (bishop_edge_northWest sq).1)
    (edgeRayOk_spec (bishop_edge_northWest sq).2)]
  have ha2 : (stepFirst (ray .northWest) (ray .northWest sq.val &&& occ)
      (0 ||| ray .northWest sq.val) ||| ray .southWest sq.val) < u64Mod :=
    lor_lt_u64 (Nat.lt_of_le_of_lt (stepFirst_le _ _ _) ha1) hSW
  rw [stepLast_congr (ray .southWest) (ray .southWest sq.val) _ _ _ ha2 hSW
    (fun q hq => and_testBit_left hq) Nat.and_le_left
    (minEdgeOk_spec (bishop_edge_southWest sq).1)
    (edgeRayOk_spec (bishop_edge_southWest sq).2)]
  have ha3 : (stepLast (ray .southWest) (ray .southWest sq.val &&& occ) _ |||
      ray .northEast sq.val) < u64Mod :=
    lor_lt_u64 (Nat.lt_of_le_of_lt (stepLast_le _ _ _) ha2) hNE
  rw [stepFirst_congr (ray .northEast) (ray .northEast sq.val) _ _ _ ha3 hNE
    (fun q hq => and_testBit_left hq) Nat.and_le_left
    (maxEdgeOk_spec (bishop_edge_northEast sq).1)
    (edgeRayOk_spec (bishop_edge_northEast sq).2)]
  have ha4 : (stepFirst (ray .northEast) (ray .northEast sq.val &&& occ) _ |||
      ray .southEast sq.val) < u64Mod :=
    lor_lt_u64 (Nat.lt_of_le_of_lt (stepFirst_le _ _ _) ha3) hSE
  rw [stepLast_congr (ray .southEast) (ray .southEast sq.val) _ _ _ ha4 hSE
    (fun q hq => and_testBit_left hq) Nat.and_le_left
    (minEdgeOk_spec (bishop_edge_southEast sq).1)
    (edgeRayOk_spec (bishop_edge_southEast sq).2)]

/-! ### Every subset of the slide mask is hit by `compute_blockers_from_index` -/

theorem gatherBits_lt (b : Nat) : ∀ ps : List Nat, gatherBits b ps < 2 ^ ps.length := by
  intro ps
  induction ps with
  | nil => simp [gatherBits]
  | cons p ps ih =>
      rw [gatherBits, List.length_cons, pow_succ]
      by_cases h : b.testBit p <;> simp [h] <;> omega

theorem gatherBits_testBit_zero (b p : Nat) (ps : List Nat) :
    (gatherBits b (p :: ps)).testBit 0 = b.testBit p := by
  rw [gatherBits, Nat.testBit_zero]
  by_cases h : b.testBit p <;> simp [h] <;> omega

theorem gatherBits_shiftRight_one (b p : Nat) (ps : List Nat) :
    (gatherBits b (p :: ps)) >>> 1 = gatherBits b ps := by
  rw [gatherBits, Nat.shiftRight_one]
  by_cases h : b.testBit p <;> simp [h] <;> omega

theorem scatter_gather_testBit (b : Nat) :
    ∀ (ps : List Nat) (q : Nat),
      (scatterBits (gatherBits b ps) ps).testBit q =
        (decide (q ∈ ps) && b.testBit q) := by
  intro ps
  induction ps with
  | nil => intro q; simp [scatterBits, gatherBits, Nat.zero_testBit]
  | cons p ps ih =>
      intro q
      rw [scatterBits, gatherBits_shiftRight_one, gatherBits_testBit_zero,
        Nat.testBit_lor, ih q]
      by_cases hqp : q = p
      · subst hqp
        by_cases hb : b.testBit q
        · simp [hb, Nat.one_shiftLeft, Nat.testBit_two_pow_self]
        · simp [hb, Nat.zero_testBit]
      · by_cases hb : b.testBit p
        · simp [hb, Nat.one_shiftLeft, Nat.testBit_two_pow_of_ne (by omega : p ≠ q),
            List.mem_cons, hqp]
        · simp [hb, Nat.zero_testBit, List.mem_cons, hqp]

theorem scatter_gather {mask b : Nat} (hmask : mask < u64Mod) (hb : b &&& mask = b) :
    scatterBits (gatherBits b (bitsList mask)) (bitsList mask) = b := by
  apply Nat.eq_of_testBit_eq
  intro q
  rw [scatter_gather_testBit]
  by_cases hbq : b.testBit q
  · have hmq : mask.testBit q = true := by
      have : (b &&& mask).testBit q = b.testBit q := by rw [hb]
      rw [Nat.testBit_land, hbq] at this
      simpa using this.symm
    have hq64 : q < 64 := by
      by_contra hge
      rw [testBit_ge_64 hmask (by omega)] at hmq
      exact Bool.noConfusion hmq
    have : q ∈ bitsList mask := bitsList_mem.2 ⟨hq64, hmq⟩
    simp [this, hbq]
  · simp [hbq]

/-- The deposit function as written in the source (fold over the
enumerated bit positions) consumes the index bit by bit. -/
theorem blockersFromIndex_eq (index mask : Nat) :
    blockersFromIndex index mask = scatterBits index (bitsList mask) := by
  have haux : ∀ (ps : List Nat) (k acc : Nat),
      (List.enumFrom k ps).foldl
        (fun acc ib => if index &&& (1 <<< ib.1) ≠ 0 then acc ||| (1 <<< ib.2) else acc)
        acc = acc ||| scatterBits (index >>> k) ps := by
    intro ps
    induction ps with
    | nil => intro k acc; simp [scatterBits]
    | cons p ps ih =>
        intro k acc
        rw [List.enumFrom_cons, List.foldl_cons, ih (k + 1), scatterBits]
        have hbit : (index &&& (1 <<< k) ≠ 0) ↔ ((index >>> k).testBit 0 = true) := by
          rw [Nat.one_shiftLeft, Nat.and_two_pow]
          rw [Nat.testBit_shiftRight, Nat.add_zero]
          cases h : index.testBit k <;> simp [h]
        have hshift : index >>> k >>> 1 = index >>> (k + 1) := by
          rw [Nat.shiftRight_add]
        rw [hshift]
        by_cases hb : (index >>> k).testBit 0 = true
        · rw [if_pos (hbit.2 hb), if_pos hb, Nat.lor_assoc]
        · rw [if_neg (fun hcon => hb (hbit.1 hcon)), if_neg hb, Nat.zero_or]
  rw [blockersFromIndex]
  have h0 := haux (bitsList mask) 0 0
  rw [Nat.shiftRight_zero, Nat.zero_or] at h0
  exact h0

/-! ### The subset scan certifies that magic keys are pairwise distinct -/

theorem seenFold_append (xs ys : List Nat) (seen : Nat) :
    seenFold (xs ++ ys) seen =
      match seenFold xs seen with
      | none => none
      | some s => seenFold ys s := by
  induction xs generalizing seen with
  | nil => simp [seenFold]
  | cons k ks ih =>
      rw [List.cons_append, seenFold, seenFold]
      by_cases h : seen.testBit k
      · rw [if_pos h, if_pos h]
      · rw [if_neg h, if_neg h, ih]

theorem treeScan_eq_seenFold (magic shiftCount : Nat) :
    ∀ (ps : List Nat) (b seen : Nat),
      treeScan magic shiftCount ps b seen =
        seenFold ((subsetsList ps).map
          (fun e => magicKey magic shiftCount (b ||| e))) seen := by
  intro ps
  induction ps with
  | nil =>
      intro b seen
      simp [treeScan, seenFold, subsetsList, Nat.or_zero]
  | cons p ps ih =>
      intro b seen
      rw [treeScan, subsetsList, List.map_append, seenFold_append, List.map_map]
      have hcomp :
          ((fun e => magicKey magic shiftCount (b ||| e)) ∘ (· ||| (1 <<< p))) =
            (fun e => magicKey magic shiftCount ((b ||| (1 <<< p)) ||| e)) := by
        funext e
        simp only [Function.comp]
        rw [Nat.lor_comm e (1 <<< p), ← Nat.lor_assoc]
      rw [hcomp, ih b seen]
      cases seenFold ((subsetsList ps).map
          (fun e => magicKey magic shiftCount (b ||| e))) seen with
      | none => rfl
      | some s2 => exact ih (b ||| (1 <<< p)) s2

theorem seenFold_nodup :
    ∀ (ks : List Nat) (seen out : Nat), seenFold ks seen = some out →
      ks.Nodup ∧ ∀ k ∈ ks, seen.testBit k = false := by
  intro ks
  induction ks with
  | nil => intro seen out _; simp
  | cons k ks ih =>
      intro seen out h
      rw [seenFold] at h
      by_cases hk : seen.testBit k
      · rw [if_pos hk] at h; exact absurd h (by simp)
      · rw [if_neg hk] at h
        obtain ⟨hnodup, hfresh⟩ := ih _ _ h
        have hknotin : k ∉ ks := by
          intro hmem
          have := hfresh k hmem
          rw [Nat.testBit_lor, Nat.one_shiftLeft, Nat.testBit_two_pow_self] at this
          simp at this
        refine ⟨List.nodup_cons.2 ⟨hknotin, hnodup⟩, fun j hj => ?_⟩
        rcases List.mem_cons.1 hj with heq | hmem
        · rw [heq]; simpa using hk
        · have := hfresh j hmem
          rw [Nat.testBit_lor] at this
          exact (Bool.or_eq_false_iff.1 this).1

/-- Splitting `range (2 * n)` into even and odd indices is a permutation. -/
theorem range_even_odd_perm :
    ∀ n : Nat, (List.range (2 * n)).Perm
      ((List.range n).map (fun i => 2 * i) ++ (List.range n).map (fun i => 2 * i + 1)) := by
  intro n
  induction n with
  | zero => simp
  | succ n ih =>
      have h1 : 2 * (n + 1) = (2 * n + 1) + 1 := by omega
      rw [h1, List.range_succ, List.range_succ, List.range_succ,
        List.map_append, List.map_append]
      simp only [List.map_cons, List.map_nil, List.append_assoc]
      refine List.Perm.trans (List.Perm.append_right _ ih) ?_
      rw [List.append_assoc]
      refine List.Perm.append_left _ ?_
      rw [← List.append_assoc, ← List.append_assoc]
      exact List.Perm.append_right _ List.perm_append_comm

/-- The subset enumeration visits exactly the deposited bit patterns of the
`2 ^ |ps|` indices. -/
theorem subsetsList_perm :
    ∀ ps : List Nat, (subsetsList ps).Perm
      ((List.range (2 ^ ps.length)).map (fun i => scatterBits i ps)) := by
  intro ps
  induction ps with
  | nil => simp [subsetsList, scatterBits, List.range_succ]
  | cons p ps ih =>
      rw [subsetsList, List.length_cons, pow_succ]
      have h2 : (2 : Nat) ^ ps.length * 2 = 2 * 2 ^ ps.length := by omega
      rw [h2]
      refine List.Perm.trans ?_ (List.Perm.map _ (range_even_odd_perm (2 ^ ps.length)).symm)
      rw [List.map_append, List.map_map, List.map_map]
      have heven : ((fun i => scatterBits i (p :: ps)) ∘ (fun i => 2 * i)) =
          (fun i => scatterBits i ps) := by
        funext i
        simp only [Function.comp]
        rw [scatterBits]
        have ht : (2 * i).testBit 0 = false := by
          rw [Nat.testBit_zero]
          have h20 : 2 * i % 2 = 0 := by omega
          rw [h20]
          decide
        have hs : (2 * i) >>> 1 = i := by
          rw [Nat.shiftRight_one]
          omega
        rw [ht, hs, if_neg (by simp), Nat.zero_or]
      have hodd : ((fun i => scatterBits i (p :: ps)) ∘ (fun i => 2 * i + 1)) =
          (fun i => scatterBits i ps ||| (1 <<< p)) := by
        funext i
        simp only [Function.comp]
        rw [scatterBits]
        have ht : (2 * i + 1).testBit 0 = true := by
          rw [Nat.testBit_zero]
          have h21 : (2 * i + 1) % 2 = 1 := by omega
          rw [h21]
          decide
        have hs : (2 * i + 1) >>> 1 = i := by
          rw [Nat.shiftRight_one]
          omega
        rw [ht, hs, if_pos rfl, Nat.lor_comm]
      rw [heven, hodd]
      refine List.Perm.append ih ?_
      have hmap := List.Perm.map (fun x => x ||| (1 <<< p)) ih
      rw [List.map_map] at hmap
      exact hmap

/-! ### Reading the magic table back -/

theorem treeScan_nodup {magic shiftCount : Nat} {ps : List Nat}
    (h : (treeScan magic shiftCount ps 0 0).isSome = true) :
    ((subsetsList ps).map (fun e => magicKey magic shiftCount e)).Nodup := by
  obtain ⟨out, hout⟩ := Option.isSome_iff_exists.1 h
  rw [treeScan_eq_seenFold] at hout
  simp only [Nat.zero_or] at hout
  exact (seenFold_nodup _ _ _ hout).1

theorem foldl_set_length (f g : Nat → Nat) :
    ∀ (l : List Nat) (init : List Nat),
      (l.foldl (fun t i => t.set (f i) (g i)) init).length = init.length := by
  intro l
  induction l with
  | nil => intro init; rfl
  | cons i l ih =>
      intro init
      rw [List.foldl_cons, ih, List.length_set]

theorem getD_set_ne (a d : Nat) : ∀ (l : List Nat) (i j : Nat), i ≠ j →
    (l.set i a).getD j d = l.getD j d := by
  intro l
  induction l with
  | nil => intro i j _; rfl
  | cons x l ih =>
      intro i j hij
      cases i with
      | zero =>
          cases j with
          | zero => exact absurd rfl hij
          | succ j => simp [List.set_cons_zero, List.getD_cons_succ]
      | succ i =>
          cases j with
          | zero => simp [List.set_cons_succ, List.getD_cons_zero]
          | succ j =>
              simp only [List.set_cons_succ, List.getD_cons_succ]
              exact ih i j (by omega)

theorem getD_set_self (a d : Nat) : ∀ (l : List Nat) (i : Nat), i < l.length →
    (l.set i a).getD i d = a := by
  intro l
  induction l with
  | nil => intro i hi; simp at hi
  | cons x l ih =>
      intro i hi
      cases i with
      | zero => simp [List.set_cons_zero, List.getD_cons_zero]
      | succ i =>
          simp only [List.set_cons_succ, List.getD_cons_succ]
          exact ih i (by simpa using hi)

theorem foldl_set_untouched (f g : Nat → Nat) (p d : Nat) :
    ∀ (l : List Nat) (init : List Nat), (∀ i ∈ l, f i ≠ p) →
      (l.foldl (fun t i => t.set (f i) (g i)) init).getD p d = init.getD p d := by
  intro l
  induction l with
  | nil => intro init _; rfl
  | cons i l ih =>
      intro init hall
      rw [List.foldl_cons, ih _ (fun j hj => hall j (List.mem_cons_of_mem _ hj))]
      exact getD_set_ne (g i) d init (f i) p (hall i (List.mem_cons_self _ _))

theorem foldl_set_write (f g : Nat → Nat) (d : Nat) :
    ∀ (l : List Nat) (init : List Nat) (j : Nat), j ∈ l →
      (∀ i ∈ l, f i = f j → i = j) → f j < init.length →
      (l.foldl (fun t i => t.set (f i) (g i)) init).getD (f j) d = g j := by
  intro l
  induction l with
  | nil => intro init j hj; simp at hj
  | cons i l ih =>
      intro init j hj hinj hlt
      rw [List.foldl_cons]
      by_cases hjl : j ∈ l
      · exact ih _ j hjl (fun x hx he => hinj x (List.mem_cons_of_mem _ hx) he)
          (by rwa [List.length_set])
      · have hij : i = j := by
          rcases List.mem_cons.1 hj with h | h
          · exact h.symm
          · exact absurd h hjl
        subst hij
        rw [foldl_set_untouched _ _ _ _ _ _
          (fun x hx he => hjl ((hinj x (List.mem_cons_of_mem _ hx) he) ▸ hx))]
        exact getD_set_self _ _ _ _ hlt

theorem magicKey_lt (magic shiftCount b : Nat) (h : shiftCount ≤ 64) :
    magicKey magic shiftCount b < 2 ^ (64 - shiftCount) := by
  rw [magicKey, Nat.shiftRight_eq_div_pow]
  apply Nat.div_lt_of_lt_mul
  have hb : (b * magic) % u64Mod < u64Mod := Nat.mod_lt _ u64Mod_pos
  calc (b * magic) % u64Mod < u64Mod := hb
    _ = 2 ^ shiftCount * 2 ^ (64 - shiftCount) := by
        rw [u64Mod, ← pow_add]
        congr 1
        omega

/-- Per-square bookkeeping for the rook magic table: the slide mask has
exactly `ROOK_MAGIC_INDEXES[sq]` bits, that count is at most 12, and the
mask fits in 64 bits. -/
theorem rook_table_facts : ∀ sq : Square,
    (bitsList (rookSlideMask sq)).length = rookMagicIndex sq.val ∧
    rookMagicIndex sq.val ≤ 12 ∧ rookSlideMask sq < u64Mod := by decide

/-- Per-square bookkeeping for the bishop magic table. -/
theorem bishop_table_facts : ∀ sq : Square,
    (bitsList (bishopSlideMask sq)).length = bishopMagicIndex sq.val ∧
    bishopMagicIndex sq.val ≤ 12 ∧ bishopSlideMask sq < u64Mod := by decide

/-- With a collision-free magic, the rook table lookup returns the classical
ray walk: assembly of injectivity, surjectivity of the blocker enumeration,
and the fold-write lemma. -/
theorem computeRookAttacks_eq (sq : Square) (hdist : rookKeysDistinct sq = true)
    (occupancy : Nat) :
    computeRookAttacks sq occupancy = computeRookAttacksUnoptimized sq occupancy := by
  obtain ⟨hlen, hn, hmask⟩ := rook_table_facts sq
  have hb : (occupancy &&& rookSlideMask sq) &&& rookSlideMask sq =
      occupancy &&& rookSlideMask sq := by
    rw [Nat.land_assoc, Nat.and_self]
  have hbfi : blockersFromIndex
      (gatherBits (occupancy &&& rookSlideMask sq) (bitsList (rookSlideMask sq)))
      (rookSlideMask sq) = occupancy &&& rookSlideMask sq := by
    rw [blockersFromIndex_eq]
    exact scatter_gather hmask hb
  have hj : gatherBits (occupancy &&& rookSlideMask sq) (bitsList (rookSlideMask sq)) <
      2 ^ rookMagicIndex sq.val := by
    rw [← hlen]
    exact gatherBits_lt _ _
  have hjmem : gatherBits (occupancy &&& rookSlideMask sq) (bitsList (rookSlideMask sq)) ∈
      List.range (2 ^ rookMagicIndex sq.val) := List.mem_range.2 hj
  have hd2 : (treeScan (rookMagic sq.val) (64 - rookMagicIndex sq.val)
      (bitsList (rookSlideMask sq)) 0 0).isSome = true := hdist
  have h1 := treeScan_nodup hd2
  have hperm := List.Perm.map
    (fun e => magicKey (rookMagic sq.val) (64 - rookMagicIndex sq.val) e)
    (subsetsList_perm (bitsList (rookSlideMask sq)))
  have h2 := (List.Perm.nodup_iff hperm).1 h1
  rw [List.map_map, hlen] at h2
  simp only [Function.comp, ← blockersFromIndex_eq] at h2
  have hinj := List.inj_on_of_nodup_map h2
  have hflt : magicKey (rookMagic sq.val) (64 - rookMagicIndex sq.val)
      (blockersFromIndex
        (gatherBits (occupancy &&& rookSlideMask sq) (bitsList (rookSlideMask sq)))
        (rookSlideMask sq)) < (List.replicate (4096 : Nat) (0 : Nat)).length := by
    rw [List.length_replicate]
    have hk := magicKey_lt (rookMagic sq.val) (64 - rookMagicIndex sq.val)
      (blockersFromIndex
        (gatherBits (occupancy &&& rookSlideMask sq) (bitsList (rookSlideMask sq)))
        (rookSlideMask sq)) (by omega)
    have he : 64 - (64 - rookMagicIndex sq.val) = rookMagicIndex sq.val := by omega
    rw [he] at hk
    calc magicKey (rookMagic sq.val) (64 - rookMagicIndex sq.val) _
        < 2 ^ rookMagicIndex sq.val := hk
      _ ≤ 2 ^ 12 := Nat.pow_le_pow_right (by omega) hn
      _ ≤ 4096 := by omega
  have hwrite := foldl_set_write
    (fun i => magicKey (rookMagic sq.val) (64 - rookMagicIndex sq.val)
      (blockersFromIndex i (rookSlideMask sq)))
    (fun i => computeRookAttacksUnoptimized sq (blockersFromIndex i (rookSlideMask sq)))
    0 (List.range (2 ^ rookMagicIndex sq.val)) (List.replicate 4096 0)
    (gatherBits (occupancy &&& rookSlideMask sq) (bitsList (rookSlideMask sq)))
    hjmem (fun i hi he => hinj hi hjmem he) hflt
  simp only [] at hwrite
  have e1 : computeRookAttacks sq occupancy =
      ((List.range (2 ^ rookMagicIndex sq.val)).foldl
        (fun t i => t.set
          (magicKey (rookMagic sq.val) (64 - rookMagicIndex sq.val)
            (blockersFromIndex i (rookSlideMask sq)))
          (computeRookAttacksUnoptimized sq (blockersFromIndex i (rookSlideMask sq))))
        (List.replicate 4096 0)).getD
        (magicKey (rookMagic sq.val) (64 - rookMagicIndex sq.val)
          (occupancy &&& rookSlideMask sq)) 0 := rfl
  rw [e1, ← hbfi, hwrite, hbfi]
  exact computeRookAttacksUnoptimized_mask sq occupancy

/-- With a collision-free magic, the bishop table lookup returns the classical
ray walk. -/
theorem computeBishopAttacks_eq (sq : Square) (hdist : bishopKeysDistinct sq = true)
    (occupancy : Nat) :
    computeBishopAttacks sq occupancy = computeBishopAttacksUnoptimized sq occupancy := by
  obtain ⟨hlen, hn, hmask⟩ := bishop_table_facts sq
  have hb : (occupancy &&& bishopSlideMask sq) &&& bishopSlideMask sq =
      occupancy &&& bishopSlideMask sq := by
    rw [Nat.land_assoc, Nat.and_self]
  have hbfi : blockersFromIndex
      (gatherBits (occupancy &&& bishopSlideMask sq) (bitsList (bishopSlideMask sq)))
      (bishopSlideMask sq) = occupancy &&& bishopSlideMask sq := by
    rw [blockersFromIndex_eq]
    exact scatter_gather hmask hb
  have hj : gatherBits (occupancy &&& bishopSlideMask sq) (bitsList (bishopSlideMask sq)) <
      2 ^ bishopMagicIndex sq.val := by
    rw [← hlen]
    exact gatherBits_lt _ _
  have hjmem : gatherBits (occupancy &&& bishopSlideMask sq) (bitsList (bishopSlideMask sq)) ∈
      List.range (2 ^ bishopMagicIndex sq.val) := List.mem_range.2 hj
  have hd2 : (treeScan (bishopMagic sq.val) (64 - bishopMagicIndex sq.val)
      (bitsList (bishopSlideMask sq)) 0 0).isSome = true := hdist
  have h1 := treeScan_nodup hd2
  have hperm := List.Perm.map
    (fun e => magicKey (bishopMagic sq.val) (64 - bishopMagicIndex sq.val) e)
    (subsetsList_perm (bitsList (bishopSlideMask sq)))
  have h2 := (List.Perm.nodup_iff hperm).1 h1
  rw [List.map_map, hlen] at h2
  simp only [Function.comp, ← blockersFromIndex_eq] at h2
  have hinj := List.inj_on_of_nodup_map h2
  have hflt : magicKey (bishopMagic sq.val) (64 - bishopMagicIndex sq.val)
      (blockersFromIndex
        (gatherBits (occupancy &&& bishopSlideMask sq) (bitsList (bishopSlideMask sq)))
        (bishopSlideMask sq)) < (List.replicate (4096 : Nat) (0 : Nat)).length := by
    rw [List.length_replicate]
    have hk := magicKey_lt (bishopMagic sq.val) (64 - bishopMagicIndex sq.val)
      (blockersFromIndex
        (gatherBits (occupancy &&& bishopSlideMask sq) (bitsList (bishopSlideMask sq)))
        (bishopSlideMask sq)) (by omega)
    have he : 64 - (64 - bishopMagicIndex sq.val) = bishopMagicIndex sq.val := by omega
    rw [he] at hk
    calc magicKey (bishopMagic sq.val) (64 - bishopMagicIndex sq.val) _
        < 2 ^ bishopMagicIndex sq.val := hk
      _ ≤ 2 ^ 12 := Nat.pow_le_pow_right (by omega) hn
      _ ≤ 4096 := by omega
  have hwrite := foldl_set_write
    (fun i => magicKey (bishopMagic sq.val) (64 - bishopMagicIndex sq.val)
      (blockersFromIndex i (bishopSlideMask sq)))
    (fun i => computeBishopAttacksUnoptimized sq (blockersFromIndex i (bishopSlideMask sq)))
    0 (List.range (2 ^ bishopMagicIndex sq.val)) (List.replicate 4096 0)
    (gatherBits (occupancy &&& bishopSlideMask sq) (bitsList (bishopSlideMask sq)))
    hjmem (fun i hi he => hinj hi hjmem he) hflt
  simp only [] at hwrite
  have e1 : computeBishopAttacks sq occupancy =
      ((List.range (2 ^ bishopMagicIndex sq.val)).foldl
        (fun t i => t.set
          (magicKey (bishopMagic sq.val) (64 - bishopMagicIndex sq.val)
            (blockersFromIndex i (bishopSlideMask sq)))
          (computeBishopAttacksUnoptimized sq (blockersFromIndex i (bishopSlideMask sq))))
        (List.replicate 4096 0)).getD
        (magicKey (bishopMagic sq.val) (64 - bishopMagicIndex sq.val)
          (occupancy &&& bishopSlideMask sq)) 0 := rfl
  rw [e1, ← hbfi, hwrite, hbfi]
  exact computeBishopAttacksUnoptimized_mask sq occupancy

set_option maxRecDepth 100000 in
set_option maxHeartbeats 12000000 in
theorem rkd0 : rookKeysDistinct ⟨0, by omega⟩ = true := by decide

set_option maxRecDepth 100000 in
set_option maxHeartbeats 12000000 in
theorem rkd1 : rookKeysDistinct ⟨1, by omega⟩ = true := by decide

set_option maxRecDepth 100000 in
set_option maxHeartbeats 12000000 in
theorem rkd2 : rookKeysDistinct ⟨2, by omega⟩ = true := by decide

set_option maxRecDepth 100000 in
set_option maxHeartbeats 12000000 in
theorem rkd3 : rookKeysDistinct ⟨3, by omega⟩ = true := by decide

set_option maxRecDepth 100000 in
set_option maxHeartbeats 12000000 in
theorem rkd4 : rookKeysDistinct ⟨4, by omega⟩ = true := by decide

set_option maxRecDepth 100000 in
set_option maxHeartbeats 12000000 in
theorem rkd5 : rookKeysDistinct ⟨5, by omega⟩ = true := by decide

set_option maxRecDepth 100000 in
set_option maxHeartbeats 12000000 in
theorem rkd6 : rookKeysDistinct ⟨6, by omega⟩ = true := by decide

set_option maxRecDepth 100000 in
set_option maxHeartbeats 12000000 in
theorem rkd7 : rookKeysDistinct ⟨7, by omega⟩ = true := by decide

set_option maxRecDepth 100000 in
set_option maxHeartbeats 12000000 in
theorem rkd8 : rookKeysDistinct ⟨8, by omega⟩ = true := by decide

set_option maxRecDepth 100000 in
set_option maxHeartbeats 12000000 in
theorem rkd9 : rookKeysDistinct ⟨9, by omega⟩ = true := by decide

set_option maxRecDepth 100000 in
set_option maxHeartbeats 12000000 in
theorem rkd10 : rookKeysDistinct ⟨10, by omega⟩ = true := by decide

set_option maxRecDepth 100000 in
set_option maxHeartbeats 12000000 in
theorem rkd11 : rookKeysDistinct ⟨11, by omega⟩ = true := by decide

set_option maxRecDepth 100000 in
set_option maxHeartbeats 12000000 in
theorem rkd12 : rookKeysDistinct ⟨12, by omega⟩ = true := by decide

set_option maxRecDepth 100000 in
set_option maxHeartbeats 12000000 in
theorem rkd13 : rookKeysDistinct ⟨13, by omega⟩ = true := by decide

set_option maxRecDepth 100000 in
set_option maxHeartbeats 12000000 in
theorem rkd14 : rookKeysDistinct ⟨14, by omega⟩ = true := by decide

set_option maxRecDepth 100000 in
set_option maxHeartbeats 12000000 in
theorem rkd15 : rookKeysDistinct ⟨15, by omega⟩ = true := by decide

set_option maxRecDepth 100000 in
set_option maxHeartbeats 12000000 in
theorem rkd16 : rookKeysDistinct ⟨16, by omega⟩ = true := by decide

set_option maxRecDepth 100000 in
set_option maxHeartbeats 12000000 in
theorem rkd17 : rookKeysDistinct ⟨17, by omega⟩ = true := by decide

set_option maxRecDepth 100000 in
set_option maxHeartbeats 12000000 in
theorem rkd18 : rookKeysDistinct ⟨18, by omega⟩ = true := by decide

set_option maxRecDepth 100000 in
set_option maxHeartbeats 12000000 in
theorem rkd19 : rookKeysDistinct ⟨19, by omega⟩ = true := by decide

set_option maxRecDepth 100000 in
set_option maxHeartbeats 12000000 in
theorem rkd20 : rookKeysDistinct ⟨20, by omega⟩ = true := by decide

set_option maxRecDepth 100000 in
set_option maxHeartbeats 12000000 in
theorem rkd21 : rookKeysDistinct ⟨21, by omega⟩ = true := by decide

set_option maxRecDepth 100000 in
set_option maxHeartbeats 12000000 in
theorem rkd22 : rookKeysDistinct ⟨22, by omega⟩ = true := by decide

set_option maxRecDepth 100000 in
set_option maxHeartbeats 12000000 in
theorem rkd23 : rookKeysDistinct ⟨23, by omega⟩ = true := by decide

set_option maxRecDepth 100000 in
set_option maxHeartbeats 12000000 in
theorem rkd24 : rookKeysDistinct ⟨24, by omega⟩ = true := by decide

set_option maxRecDepth 100000 in
set_option maxHeartbeats 12000000 in
theorem rkd25 : rookKeysDistinct ⟨25, by omega⟩ = true := by decide

set_option maxRecDepth 100000 in
set_option maxHeartbeats 12000000 in
theorem rkd26 : rookKeysDistinct ⟨26, by omega⟩ = true := by decide

set_option maxRecDepth 100000 in
set_option maxHeartbeats 12000000 in
theorem rkd27 : rookKeysDistinct ⟨27, by omega⟩ = true := by decide

set_option maxRecDepth 100000 in
set_option maxHeartbeats 12000000 in
theorem rkd28 : rookKeysDistinct ⟨28, by omega⟩ = true := by decide

set_option maxRecDepth 100000 in
set_option maxHeartbeats 12000000 in
theorem rkd29 : rookKeysDistinct ⟨29, by omega⟩ = true := by decide

set_option maxRecDepth 100000 in
set_option maxHeartbeats 12000000 in
theorem rkd30 : rookKeysDistinct ⟨30, by omega⟩ = true := by decide

set_option maxRecDepth 100000 in
set_option maxHeartbeats 12000000 in
theorem rkd31 : rookKeysDistinct ⟨31, by omega⟩ = true := by decide

set_option maxRecDepth 100000 in
set_option maxHeartbeats 12000000 in
theorem rkd32 : rookKeysDistinct ⟨32, by omega⟩ = true := by decide

set_option maxRecDepth 100000 in
set_option maxHeartbeats 12000000 in
theorem rkd33 : rookKeysDistinct ⟨33, by omega⟩ = true := by decide

set_option maxRecDepth 100000 in
set_option maxHeartbeats 12000000 in
theorem rkd34 : rookKeysDistinct ⟨34, by omega⟩ = true := by decide

set_option maxRecDepth 100000 in
set_option maxHeartbeats 12000000 in
theorem rkd35 : rookKeysDistinct ⟨35, by omega⟩ = true := by decide

set_option maxRecDepth 100000 in
set_option maxHeartbeats 12000000 in
theorem rkd36 : rookKeysDistinct ⟨36, by omega⟩ = true := by decide

set_option maxRecDepth 100000 in
set_option maxHeartbeats 12000000 in
theorem rkd37 : rookKeysDistinct ⟨37, by omega⟩ = true := by decide

set_option maxRecDepth 100000 in
set_option maxHeartbeats 12000000 in
theorem rkd38 : rookKeysDistinct ⟨38, by omega⟩ = true := by decide

set_option maxRecDepth 100000 in
set_option maxHeartbeats 12000000 in
theorem rkd39 : rookKeysDistinct ⟨39, by omega⟩ = true := by decide

set_option maxRecDepth 100000 in
set_option maxHeartbeats 12000000 in
theorem rkd40 : rookKeysDistinct ⟨40, by omega⟩ = true := by decide

set_option maxRecDepth 100000 in
set_option maxHeartbeats 12000000 in
theorem rkd41 : rookKeysDistinct ⟨41, by omega⟩ = true := by decide

set_option maxRecDepth 100000 in
set_option maxHeartbeats 12000000 in
theorem rkd42 : rookKeysDistinct ⟨42, by omega⟩ = true := by decide

set_option maxRecDepth 100000 in
set_option maxHeartbeats 12000000 in
theorem rkd43 : rookKeysDistinct ⟨43, by omega⟩ = true := by decide

set_option maxRecDepth 100000 in
set_option maxHeartbeats 12000000 in
theorem rkd44 : rookKeysDistinct ⟨44, by omega⟩ = true := by decide

set_option maxRecDepth 100000 in
set_option maxHeartbeats 12000000 in
theorem rkd45 : rookKeysDistinct ⟨45, by omega⟩ = true := by decide

set_option maxRecDepth 100000 in
set_option maxHeartbeats 12000000 in
theorem rkd46 : rookKeysDistinct ⟨46, by omega⟩ = true := by decide

set_option maxRecDepth 100000 in
set_option maxHeartbeats 12000000 in
theorem rkd47 : rookKeysDistinct ⟨47, by omega⟩ = true := by decide

set_option maxRecDepth 100000 in
set_option maxHeartbeats 12000000 in
theorem rkd48 : rookKeysDistinct ⟨48, by omega⟩ = true := by decide

set_option maxRecDepth 100000 in
set_option maxHeartbeats 12000000 in
theorem rkd49 : rookKeysDistinct ⟨49, by omega⟩ = true := by decide

set_option maxRecDepth 100000 in
set_option maxHeartbeats 12000000 in
theorem rkd50 : rookKeysDistinct ⟨50, by omega⟩ = true := by decide

set_option maxRecDepth 100000 in
set_option maxHeartbeats 12000000 in
theorem rkd51 : rookKeysDistinct ⟨51, by omega⟩ = true := by decide

set_option maxRecDepth 100000 in
set_option maxHeartbeats 12000000 in
theorem rkd52 : rookKeysDistinct ⟨52, by omega⟩ = true := by decide

set_option maxRecDepth 100000 in
set_option maxHeartbeats 12000000 in
theorem rkd53 : rookKeysDistinct ⟨53, by omega⟩ = true := by decide

set_option maxRecDepth 100000 in
set_option maxHeartbeats 12000000 in
theorem rkd54 : rookKeysDistinct ⟨54, by omega⟩ = true := by decide

set_option maxRecDepth 100000 in
set_option maxHeartbeats 12000000 in
theorem rkd55 : rookKeysDistinct ⟨55, by omega⟩ = true := by decide

set_option maxRecDepth 100000 in
set_option maxHeartbeats 12000000 in
theorem rkd56 : rookKeysDistinct ⟨56, by omega⟩ = true := by decide

set_option maxRecDepth 100000 in
set_option maxHeartbeats 12000000 in
theorem rkd57 : rookKeysDistinct ⟨57, by omega⟩ = true := by decide

set_option maxRecDepth 100000 in
set_option maxHeartbeats 12000000 in
theorem rkd58 : rookKeysDistinct ⟨58, by omega⟩ = true := by decide

set_option maxRecDepth 100000 in
set_option maxHeartbeats 12000000 in
theorem rkd59 : rookKeysDistinct ⟨59, by omega⟩ = true := by decide

set_option maxRecDepth 100000 in
set_option maxHeartbeats 12000000 in
theorem rkd60 : rookKeysDistinct ⟨60, by omega⟩ = true := by decide

set_option maxRecDepth 100000 in
set_option maxHeartbeats 12000000 in
theorem rkd61 : rookKeysDistinct ⟨61, by omega⟩ = true := by decide

set_option maxRecDepth 100000 in
set_option maxHeartbeats 12000000 in
theorem rkd62 : rookKeysDistinct ⟨62, by omega⟩ = true := by decide

set_option maxRecDepth 100000 in
set_option maxHeartbeats 12000000 in
theorem rkd63 : rookKeysDistinct ⟨63, by omega⟩ = true := by decide

/-- The rook magic multiplier of every square hashes the subsets of its slide
mask without collision (exhaustive kernel computation, one square per lemma). -/
theorem rook_keys_distinct_all : ∀ sq : Square, rookKeysDistinct sq = true := by
  intro sq
  obtain ⟨k, hk⟩ := sq
  interval_cases k
  · exact rkd0
  · exact rkd1
  · exact rkd2
  · exact rkd3
  · exact rkd4
  · exact rkd5
  · exact rkd6
  · exact rkd7
  · exact rkd8
  · exact rkd9
  · exact rkd10
  · exact rkd11
  · exact rkd12
  · exact rkd13
  · exact rkd14
  · exact rkd15
  · exact rkd16
  · exact rkd17
  · exact rkd18
  · exact rkd19
  · exact rkd20
  · exact rkd21
  · exact rkd22
  · exact rkd23
  · exact rkd24
  · exact rkd25
  · exact rkd26
  · exact rkd27
  · exact rkd28
  · exact rkd29
  · exact rkd30
  · exact rkd31
  · exact rkd32
  · exact rkd33
  · exact rkd34
  · exact rkd35
  · exact rkd36
  · exact rkd37
  · exact rkd38
  · exact rkd39
  · exact rkd40
  · exact rkd41
  · exact rkd42
  · exact rkd43
  · exact rkd44
  · exact rkd45
  · exact rkd46
  · exact rkd47
  · exact rkd48
  · exact rkd49
  · exact rkd50
  · exact rkd51
  · exact rkd52
  · exact rkd53
  · exact rkd54
  · exact rkd55
  · exact rkd56
  · exact rkd57
  · exact rkd58
  · exact rkd59
  · exact rkd60
  · exact rkd61
  · exact rkd62
  · exact rkd63

set_option maxRecDepth 100000 in
set_option maxHeartbeats 12000000 in
theorem bkd0 : bishopKeysDistinct ⟨0, by omega⟩ = true := by decide

set_option maxRecDepth 100000 in
set_option maxHeartbeats 12000000 in
theorem bkd1 : bishopKeysDistinct ⟨1, by omega⟩ = true := by decide

set_option maxRecDepth 100000 in
set_option maxHeartbeats 12000000 in
theorem bkd2 : bishopKeysDistinct ⟨2, by omega⟩ = true := by decide

set_option maxRecDepth 100000 in
set_option maxHeartbeats 12000000 in
theorem bkd3 : bishopKeysDistinct ⟨3, by omega⟩ = true := by decide

set_option maxRecDepth 100000 in
set_option maxHeartbeats 12000000 in
theorem bkd4 : bishopKeysDistinct ⟨4, by omega⟩ = true := by decide

set_option maxRecDepth 100000 in
set_option maxHeartbeats 12000000 in
theorem bkd5 : bishopKeysDistinct ⟨5, by omega⟩ = true := by decide

set_option maxRecDepth 100000 in
set_option maxHeartbeats 12000000 in
theorem bkd6 : bishopKeysDistinct ⟨6, by omega⟩ = true := by decide

set_option maxRecDepth 100000 in
set_option maxHeartbeats 12000000 in
theorem bkd7 : bishopKeysDistinct ⟨7, by omega⟩ = true := by decide

set_option maxRecDepth 100000 in
set_option maxHeartbeats 12000000 in
theorem bkd8 : bishopKeysDistinct ⟨8, by omega⟩ = true := by decide

set_option maxRecDepth 100000 in
set_option maxHeartbeats 12000000 in
theorem bkd9 : bishopKeysDistinct ⟨9, by omega⟩ = true := by decide

set_option maxRecDepth 100000 in
set_option maxHeartbeats 12000000 in
theorem bkd10 : bishopKeysDistinct ⟨10, by omega⟩ = true := by decide

set_option maxRecDepth 100000 in
set_option maxHeartbeats 12000000 in
theorem bkd11 : bishopKeysDistinct ⟨11, by omega⟩ = true := by decide

set_option maxRecDepth 100000 in
set_option maxHeartbeats 12000000 in
theorem bkd12 : bishopKeysDistinct ⟨12, by omega⟩ = true := by decide

set_option maxRecDepth 100000 in
set_option maxHeartbeats 12000000 in
theorem bkd13 : bishopKeysDistinct ⟨13, by omega⟩ = true := by decide

set_option maxRecDepth 100000 in
set_option maxHeartbeats 12000000 in
theorem bkd14 : bishopKeysDistinct ⟨14, by omega⟩ = true := by decide

set_option maxRecDepth 100000 in
set_option maxHeartbeats 12000000 in
theorem bkd15 : bishopKeysDistinct ⟨15, by omega⟩ = true := by decide

set_option maxRecDepth 100000 in
set_option maxHeartbeats 12000000 in
theorem bkd16 : bishopKeysDistinct ⟨16, by omega⟩ = true := by decide

set_option maxRecDepth 100000 in
set_option maxHeartbeats 12000000 in
theorem bkd17 : bishopKeysDistinct ⟨17, by omega⟩ = true := by decide

set_option maxRecDepth 100000 in
set_option maxHeartbeats 12000000 in
theorem bkd18 : bishopKeysDistinct ⟨18, by omega⟩ = true := by decide

set_option maxRecDepth 100000 in
set_option maxHeartbeats 12000000 in
theorem bkd19 : bishopKeysDistinct ⟨19, by omega⟩ = true := by decide

set_option maxRecDepth 100000 in
set_option maxHeartbeats 12000000 in
theorem bkd20 : bishopKeysDistinct ⟨20, by omega⟩ = true := by decide

set_option maxRecDepth 100000 in
set_option maxHeartbeats 12000000 in
theorem bkd21 : bishopKeysDistinct ⟨21, by omega⟩ = true := by decide

set_option maxRecDepth 100000 in
set_option maxHeartbeats 12000000 in
theorem bkd22 : bishopKeysDistinct ⟨22, by omega⟩ = true := by decide

set_option maxRecDepth 100000 in
set_option maxHeartbeats 12000000 in
theorem bkd23 : bishopKeysDistinct ⟨23, by omega⟩ = true := by decide

set_option maxRecDepth 100000 in
set_option maxHeartbeats 12000000 in
theorem bkd24 : bishopKeysDistinct ⟨24, by omega⟩ = true := by decide

set_option maxRecDepth 100000 in
set_option maxHeartbeats 12000000 in
theorem bkd25 : bishopKeysDistinct ⟨25, by omega⟩ = true := by decide

set_option maxRecDepth 100000 in
set_option maxHeartbeats 12000000 in
theorem bkd26 : bishopKeysDistinct ⟨26, by omega⟩ = true := by decide

set_option maxRecDepth 100000 in
set_option maxHeartbeats 12000000 in
theorem bkd27 : bishopKeysDistinct ⟨27, by omega⟩ = true := by decide

set_option maxRecDepth 100000 in
set_option maxHeartbeats 12000000 in
theorem bkd28 : bishopKeysDistinct ⟨28, by omega⟩ = true := by decide

set_option maxRecDepth 100000 in
set_option maxHeartbeats 12000000 in
theorem bkd29 : bishopKeysDistinct ⟨29, by omega⟩ = true := by decide

set_option maxRecDepth 100000 in
set_option maxHeartbeats 12000000 in
theorem bkd30 : bishopKeysDistinct ⟨30, by omega⟩ = true := by decide

set_option maxRecDepth 100000 in
set_option maxHeartbeats 12000000 in
theorem bkd31 : bishopKeysDistinct ⟨31, by omega⟩ = true := by decide

set_option maxRecDepth 100000 in
set_option maxHeartbeats 12000000 in
theorem bkd32 : bishopKeysDistinct ⟨32, by omega⟩ = true := by decide

set_option maxRecDepth 100000 in
set_option maxHeartbeats 12000000 in
theorem bkd33 : bishopKeysDistinct ⟨33, by omega⟩ = true := by decide

set_option maxRecDepth 100000 in
set_option maxHeartbeats 12000000 in
theorem bkd34 : bishopKeysDistinct ⟨34, by omega⟩ = true := by decide

set_option maxRecDepth 100000 in
set_option maxHeartbeats 12000000 in
theorem bkd35 : bishopKeysDistinct ⟨35, by omega⟩ = true := by decide

set_option maxRecDepth 100000 in
set_option maxHeartbeats 12000000 in
theorem bkd36 : bishopKeysDistinct ⟨36, by omega⟩ = true := by decide

set_option maxRecDepth 100000 in
set_option maxHeartbeats 12000000 in
theorem bkd37 : bishopKeysDistinct ⟨37, by omega⟩ = true := by decide

set_option maxRecDepth 100000 in
set_option maxHeartbeats 12000000 in
theorem bkd38 : bishopKeysDistinct ⟨38, by omega⟩ = true := by decide

set_option maxRecDepth 100000 in
set_option maxHeartbeats 12000000 in
theorem bkd39 : bishopKeysDistinct ⟨39, by omega⟩ = true := by decide

set_option maxRecDepth 100000 in
set_option maxHeartbeats 12000000 in
theorem bkd40 : bishopKeysDistinct ⟨40, by omega⟩ = true := by decide

set_option maxRecDepth 100000 in
set_option maxHeartbeats 12000000 in
theorem bkd41 : bishopKeysDistinct ⟨41, by omega⟩ = true := by decide

set_option maxRecDepth 100000 in
set_option maxHeartbeats 12000000 in
theorem bkd42 : bishopKeysDistinct ⟨42, by omega⟩ = true := by decide

set_option maxRecDepth 100000 in
set_option maxHeartbeats 12000000 in
theorem bkd43 : bishopKeysDistinct ⟨43, by omega⟩ = true := by decide

set_option maxRecDepth 100000 in
set_option maxHeartbeats 12000000 in
theorem bkd44 : bishopKeysDistinct ⟨44, by omega⟩ = true := by decide

set_option maxRecDepth 100000 in
set_option maxHeartbeats 12000000 in
theorem bkd45 : bishopKeysDistinct ⟨45, by omega⟩ = true := by decide

set_option maxRecDepth 100000 in
set_option maxHeartbeats 12000000 in
theorem bkd46 : bishopKeysDistinct ⟨46, by omega⟩ = true := by decide

set_option maxRecDepth 100000 in
set_option maxHeartbeats 12000000 in
theorem bkd47 : bishopKeysDistinct ⟨47, by omega⟩ = true := by decide

set_option maxRecDepth 100000 in
set_option maxHeartbeats 12000000 in
theorem bkd48 : bishopKeysDistinct ⟨48, by omega⟩ = true := by decide

set_option maxRecDepth 100000 in
set_option maxHeartbeats 12000000 in
theorem bkd49 : bishopKeysDistinct ⟨49, by omega⟩ = true := by decide

set_option maxRecDepth 100000 in
set_option maxHeartbeats 12000000 in
theorem bkd50 : bishopKeysDistinct ⟨50, by omega⟩ = true := by decide

set_option maxRecDepth 100000 in
set_option maxHeartbeats 12000000 in
theorem bkd51 : bishopKeysDistinct ⟨51, by omega⟩ = true := by decide

set_option maxRecDepth 100000 in
set_option maxHeartbeats 12000000 in
theorem bkd52 : bishopKeysDistinct ⟨52, by omega⟩ = true := by decide

set_option maxRecDepth 100000 in
set_option maxHeartbeats 12000000 in
theorem bkd53 : bishopKeysDistinct ⟨53, by omega⟩ = true := by decide

set_option maxRecDepth 100000 in
set_option maxHeartbeats 12000000 in
theorem bkd54 : bishopKeysDistinct ⟨54, by omega⟩ = true := by decide

set_option maxRecDepth 100000 in
set_option maxHeartbeats 12000000 in
theorem bkd55 : bishopKeysDistinct ⟨55, by omega⟩ = true := by decide

set_option maxRecDepth 100000 in
set_option maxHeartbeats 12000000 in
theorem bkd56 : bishopKeysDistinct ⟨56, by omega⟩ = true := by decide

set_option maxRecDepth 100000 in
set_option maxHeartbeats 12000000 in
theorem bkd57 : bishopKeysDistinct ⟨57, by omega⟩ = true := by decide

set_option maxRecDepth 100000 in
set_option maxHeartbeats 12000000 in
theorem bkd58 : bishopKeysDistinct ⟨58, by omega⟩ = true := by decide

set_option maxRecDepth 100000 in
set_option maxHeartbeats 12000000 in
theorem bkd59 : bishopKeysDistinct ⟨59, by omega⟩ = true := by decide

set_option maxRecDepth 100000 in
set_option maxHeartbeats 12000000 in
theorem bkd60 : bishopKeysDistinct ⟨60, by omega⟩ = true := by decide

set_option maxRecDepth 100000 in
set_option maxHeartbeats 12000000 in
theorem bkd61 : bishopKeysDistinct ⟨61, by omega⟩ = true := by decide

set_option maxRecDepth 100000 in
set_option maxHeartbeats 12000000 in
theorem bkd62 : bishopKeysDistinct ⟨62, by omega⟩ = true := by decide

set_option maxRecDepth 100000 in
set_option maxHeartbeats 12000000 in
theorem bkd63 : bishopKeysDistinct ⟨63, by omega⟩ = true := by decide

/-- The bishop magic multiplier of every square hashes the subsets of its
slide mask without collision (exhaustive kernel computation, one square per
lemma). -/
theorem bishop_keys_distinct_all : ∀ sq : Square, bishopKeysDistinct sq = true := by
  intro sq
  obtain ⟨k, hk⟩ := sq
  interval_cases k
  · exact bkd0
  · exact bkd1
  · exact bkd2
  · exact bkd3
  · exact bkd4
  · exact bkd5
  · exact bkd6
  · exact bkd7
  · exact bkd8
  · exact bkd9
  · exact bkd10
  · exact bkd11
  · exact bkd12
  · exact bkd13
  · exact bkd14
  · exact bkd15
  · exact bkd16
  · exact bkd17
  · exact bkd18
  · exact bkd19
  · exact bkd20
  · exact bkd21
  · exact bkd22
  · exact bkd23
  · exact bkd24
  · exact bkd25
  · exact bkd26
  · exact bkd27
  · exact bkd28
  · exact bkd29
  · exact bkd30
  · exact bkd31
  · exact bkd32
  · exact bkd33
  · exact bkd34
  · exact bkd35
  · exact bkd36
  · exact bkd37
  · exact bkd38
  · exact bkd39
  · exact bkd40
  · exact bkd41
  · exact bkd42
  · exact bkd43
  · exact bkd44
  · exact bkd45
  · exact bkd46
  · exact bkd47
  · exact bkd48
  · exact bkd49
  · exact bkd50
  · exact bkd51
  · exact bkd52
  · exact bkd53
  · exact bkd54
  · exact bkd55
  · exact bkd56
  · exact bkd57
  · exact bkd58
  · exact bkd59
  · exact bkd60
  · exact bkd61
  · exact bkd62
  · exact bkd63

/-- C2: for every square and every occupancy bitboard, the magic-bitboard
slider attack lookups agree with the classical ray walk:
`compute_rook_attacks` equals `compute_rook_attacks_unoptimized` and
`compute_bishop_attacks` equals `compute_bishop_attacks_unoptimized`. -/
theorem c2_magic_attacks_agree : ∀ (sq : Square) (occ : Nat),
    computeRookAttacks sq occ = computeRookAttacksUnoptimized sq occ ∧
    computeBishopAttacks sq occ = computeBishopAttacksUnoptimized sq occ := fun sq occ =>
  ⟨computeRookAttacks_eq sq (rook_keys_distinct_all sq) occ,
   computeBishopAttacks_eq sq (bishop_keys_distinct_all sq) occ⟩

/-- C1: for every state, every `(move, resulting state)` pair produced by
`compute_legal_moves` has the mover's king bitboard disjoint from the
resulting state's attack map of the side now to move. -/
theorem c1_legal_moves_king_safe (s : State) :
    (computeLegalMoves s).all
      (fun r =>
        (r.2.board ⟨s.turnToMove, Piece.king⟩ &&&
          coloredAttacks r.2.board r.2.turnToMove) == 0) = true := by
  rw [List.all_eq_true]
  intro r hr
  rw [computeLegalMoves, List.mem_filterMap] at hr
  obtain ⟨m, _, hm⟩ := hr
  rw [tryAsLegalMove] at hm
  cases hby : byPerformingMove s m with
  | error e =>
      rw [hby] at hm
      exact absurd hm (by simp)
  | ok next =>
      rw [hby] at hm
      simp only [] at hm
      by_cases hc : next.board ⟨s.turnToMove, Piece.king⟩ &&&
          coloredAttacks next.board next.turnToMove = 0
      · rw [if_pos hc] at hm
        injection hm with hm2
        rw [← hm2]
        simpa using hc
      · rw [if_neg hc] at hm
        exact absurd hm (by simp)

/-- The magic rook lookup as a function equals the classical walk. -/
theorem computeRookAttacks_funext :
    computeRookAttacks = computeRookAttacksUnoptimized :=
  funext fun sq => funext fun occ =>
    computeRookAttacks_eq sq (rook_keys_distinct_all sq) occ

/-- The magic bishop lookup as a function equals the classical walk. -/
theorem computeBishopAttacks_funext :
    computeBishopAttacks = computeBishopAttacksUnoptimized :=
  funext fun sq => funext fun occ =>
    computeBishopAttacks_eq sq (bishop_keys_distinct_all sq) occ

theorem computeQueenAttacksU_eq : computeQueenAttacks = computeQueenAttacksU := by
  funext sq occ
  rw [computeQueenAttacks, computeQueenAttacksU,
    computeRookAttacks_funext, computeBishopAttacks_funext]

theorem computeAttacksU_eq : computeAttacks = computeAttacksU := by
  funext pi sq occ
  rcases pi with ⟨c, p⟩
  cases p <;>
    simp [computeAttacks, computeAttacksU, computeQueenAttacksU_eq,
      computeRookAttacks_funext, computeBishopAttacks_funext]

theorem attackMapAllU_eq : attackMapAll = attackMapAllU := by
  funext m c
  rw [attackMapAll, attackMapAllU, computeAttacksU_eq]

theorem coloredAttacksU_eq : coloredAttacks = coloredAttacksU := by
  funext m c
  rw [coloredAttacks, coloredAttacksU, attackMapAllU_eq]

theorem opposingAttacksU_eq : opposingAttacks = opposingAttacksU := by
  funext s
  rw [opposingAttacks, opposingAttacksU, coloredAttacksU_eq]

theorem isCheckU_eq : isCheck = isCheckU := by
  funext s
  rw [isCheck, isCheckU, coloredAttacksU_eq]

theorem computeKingMovesU_eq : computeKingMoves = computeKingMovesU := by
  funext s
  rw [computeKingMoves, computeKingMovesU, opposingAttacksU_eq]

theorem computeBishopMovesU_eq : computeBishopMoves = computeBishopMovesU := by
  funext s
  rw [computeBishopMoves, computeBishopMovesU, computeBishopAttacks_funext]

theorem computeRookMovesU_eq : computeRookMoves = computeRookMovesU := by
  funext s
  rw [computeRookMoves, computeRookMovesU, computeRookAttacks_funext]

theorem computeQueenMovesU_eq : computeQueenMoves = computeQueenMovesU := by
  funext s
  rw [computeQueenMoves, computeQueenMovesU, computeQueenAttacksU_eq]

theorem computePseudoLegalMovesU_eq : computePseudoLegalMoves = computePseudoLegalMovesU := by
  funext s
  rw [computePseudoLegalMoves, computePseudoLegalMovesU, computeKingMovesU_eq,
    computeBishopMovesU_eq, computeRookMovesU_eq, computeQueenMovesU_eq]

theorem tryAsLegalMoveU_eq : tryAsLegalMove = tryAsLegalMoveU := by
  funext s m
  rw [tryAsLegalMove, tryAsLegalMoveU, coloredAttacksU_eq]

theorem computeLegalMovesU_eq : computeLegalMoves = computeLegalMovesU := by
  funext s
  rw [computeLegalMoves, computeLegalMovesU, computePseudoLegalMovesU_eq,
    tryAsLegalMoveU_eq]

theorem kingHasMoveU_eq : kingHasMove = kingHasMoveU := by
  funext s
  rw [kingHasMove, kingHasMoveU, coloredAttacksU_eq]

theorem evaluateShortCircuitU_eq : evaluateShortCircuit = evaluateShortCircuitU := by
  funext s p
  rw [evaluateShortCircuit, evaluateShortCircuitU, kingHasMoveU_eq,
    computeLegalMovesU_eq, isCheckU_eq]

/-- C4 counterexample: with White Rd1+Re1+Rf1 versus the Black king on E4,
Black is checkmated (no legal moves, in check), but the quick
king-mobility pre-test reports an escape square (E5 is shadowed from the
E1 rook by the king itself), so `evaluate` skips the checkmate
short-circuit entirely and falls through to the weighted term sum instead
of returning `NEG_INF`/`POS_INF`. -/
theorem c4_short_circuit_counterexample :
    (computeLegalMoves c4S0).isEmpty = true ∧ isCheck c4S0 = true ∧
    evaluateShortCircuit c4S0 Color.black = none ∧
    evaluateShortCircuit c4S0 Color.white = none := by
  rw [computeLegalMovesU_eq, isCheckU_eq, evaluateShortCircuitU_eq]
  exact ⟨by decide, by decide, by decide, by decide⟩

/-- C4 (amended): when the quick king-mobility pre-test reports no safe
adjacent square, the short-circuit behaves exactly as specified: with no
legal moves it returns `NEG_INF`/`POS_INF` in check (according to the
perspective) and `EVEN` otherwise; with legal moves control falls through.
The pre-test can, however, miss mates (see the counterexample). -/
theorem c4_short_circuit_amended (s : State) (p : Color)
    (hk : kingHasMove s = false) :
    evaluateShortCircuit s p =
      (if (computeLegalMoves s).isEmpty then
        some (if isCheck s then (if s.turnToMove = p then evalNegInf else evalPosInf)
          else 0)
      else none) := by
  rw [evaluateShortCircuit, hk]
  by_cases hl : (computeLegalMoves s).isEmpty <;> by_cases hc : isCheck s <;>
    simp [hl, hc]

/-- Witness for `c4_short_circuit_amended` on a back-rank mate (White Ra8
and Kh1, Black Kh8 with pawns G7/H7): the pre-test sees the mate and the
short-circuit returns `NEG_INF` from Black's perspective. -/
theorem c4_short_circuit_amended_witness :
    kingHasMove c4S1 = false ∧
    (computeLegalMoves c4S1).isEmpty = true ∧ isCheck c4S1 = true ∧
    evaluateShortCircuit c4S1 Color.black = some evalNegInf := by
  have hk : kingHasMove c4S1 = false := by rw [kingHasMoveU_eq]; decide
  have hl : (computeLegalMoves c4S1).isEmpty = true := by
    rw [computeLegalMovesU_eq]; decide
  have hc : isCheck c4S1 = true := by rw [isCheckU_eq]; decide
  refine ⟨hk, hl, hc, ?_⟩
  rw [c4_short_circuit_amended c4S1 Color.black hk, hl, hc]
  decide

/-! ### FEN round-trip: basic lemmas -/

theorem spanP_append {p : Char → Bool} :
    ∀ (A : List Char) (b : Char) (rest : List Char),
      (∀ c ∈ A, p c = true) → p b = false →
      spanP p (A ++ b :: rest) = (A, b :: rest) := by
  intro A
  induction A with
  | nil =>
      intro b rest _ hb
      rw [List.nil_append, spanP, if_neg (by simp [hb])]
  | cons a A ih =>
      intro b rest hA hb
      rw [List.cons_append, spanP, if_pos (hA a (List.mem_cons_self _ _)),
        ih b rest (fun c hc => hA c (List.mem_cons_of_mem _ hc)) hb]

theorem spanP_all {p : Char → Bool} :
    ∀ (A : List Char), (∀ c ∈ A, p c = true) → spanP p A = (A, []) := by
  intro A
  induction A with
  | nil => intro _; rfl
  | cons a A ih =>
      intro hA
      rw [spanP, if_pos (hA a (List.mem_cons_self _ _)),
        ih (fun c hc => hA c (List.mem_cons_of_mem _ hc))]

theorem splitSlash_no_sep :
    ∀ (A : List Char), (∀ c ∈ A, ¬ c = '/') → splitSlash A = [A] := by
  intro A
  induction A with
  | nil => intro _; rfl
  | cons a A ih =>
      intro hA
      rw [splitSlash, if_neg (hA a (List.mem_cons_self _ _)),
        ih (fun c hc => hA c (List.mem_cons_of_mem _ hc))]

theorem splitSlash_append :
    ∀ (A rest : List Char), (∀ c ∈ A, ¬ c = '/') →
      splitSlash (A ++ '/' :: rest) = A :: splitSlash rest := by
  intro A
  induction A with
  | nil =>
      intro rest _
      rw [List.nil_append, splitSlash, if_pos rfl]
  | cons a A ih =>
      intro rest hA
      rw [List.cons_append, splitSlash, if_neg (hA a (List.mem_cons_self _ _)),
        ih rest (fun c hc => hA c (List.mem_cons_of_mem _ hc))]

theorem digitChar_toNat {e : Nat} (h : e ≤ 9) : (digitChar e).toNat = 48 + e := by
  interval_cases e <;> decide

theorem digitChar_board {e : Nat} (h1 : 1 ≤ e) (h2 : e ≤ 8) :
    ('1' ≤ digitChar e ∧ digitChar e ≤ '8') ∧ isBoardChar (digitChar e) = true ∧
      isWsChar (digitChar e) = false ∧ ¬ digitChar e = '/' := by
  interval_cases e <;> exact ⟨by decide, by decide, by decide, by decide⟩

theorem digitChar_digit {e : Nat} (h : e ≤ 9) :
    isDigitChar (digitChar e) = true := by
  interval_cases e <;> decide

/-- The walker skips a row separator. -/
theorem boardWalk_slash (cs : List Char) (loc : Nat) (f : Square → Option PieceIdx) :
    boardWalk ('/' :: cs) loc f = boardWalk cs loc f := by
  rw [boardWalk]
  rw [if_neg (by decide), if_neg (by decide), if_pos rfl]

theorem bbTest_eq_testBit (bb : Nat) (sq : Square) :
    bbTest bb sq = bb.testBit sq.val := by
  rw [bbTest, Nat.one_shiftLeft, Nat.and_two_pow]
  have h2 : (0:Nat) < 2 ^ sq.val := Nat.pos_pow_of_pos _ (by omega)
  rcases hb : bb.testBit sq.val with _ | _
  · show decide (Bool.toNat false * 2 ^ sq.val ≠ 0) = false
    simp
  · show decide (Bool.toNat true * 2 ^ sq.val ≠ 0) = true
    simp only [Bool.toNat_true, one_mul, ne_eq, decide_eq_true_eq]
    omega

theorem foldl_fun_congr {α β : Type} (f g : β → α → β) (h : ∀ acc x, f acc x = g acc x) :
    ∀ (l : List α) (b : β), l.foldl f b = l.foldl g b := by
  intro l
  induction l with
  | nil => intro b; rfl
  | cons x l ih => intro b; rw [List.foldl_cons, List.foldl_cons, h, ih]

theorem boardOfSquares_fold_testBit (f : Square → Option PieceIdx) (pi : PieceIdx) (j : Nat) :
    ∀ (l : List Square) (acc : Nat),
      (l.foldl (fun acc sq => if f sq = some pi then acc ||| (1 <<< sq.val) else acc)
          acc).testBit j =
      (acc.testBit j || l.any (fun sq => decide (sq.val = j) && decide (f sq = some pi))) := by
  intro l
  induction l with
  | nil => intro acc; simp
  | cons sq l ih =>
      intro acc
      rw [List.foldl_cons, List.any_cons, ih]
      by_cases hfs : f sq = some pi
      · rw [if_pos hfs, Nat.testBit_lor, Nat.one_shiftLeft, Nat.testBit_two_pow]
        simp [hfs, Bool.or_assoc]
      · rw [if_neg hfs]
        simp [hfs]

theorem boardOfSquares_eq_if (f : Square → Option PieceIdx) (pi : PieceIdx) :
    boardOfSquares f pi =
      (List.finRange 64).foldl
        (fun acc sq => if f sq = some pi then acc ||| (1 <<< sq.val) else acc) 0 := by
  rw [boardOfSquares]
  exact foldl_fun_congr _ _
    (by
      intro acc x
      rcases hf : f x with _ | q
      · simp [hf]
      · by_cases hq : q = pi <;> simp [hf, hq])
    _ _

theorem boardOfSquares_bbTest (f : Square → Option PieceIdx) (pi : PieceIdx) (sq : Square) :
    bbTest (boardOfSquares f pi) sq = decide (f sq = some pi) := by
  rw [bbTest_eq_testBit, boardOfSquares_eq_if, boardOfSquares_fold_testBit]
  rcases hd : decide (f sq = some pi) with _ | _
  · simp only [Nat.zero_testBit, Bool.false_or, List.any_eq_false]
    intro x hx
    simp only [Bool.and_eq_true, decide_eq_true_eq, not_and]
    intro h1 h2
    have hx64 : x = sq := Fin.ext h1
    rw [hx64] at h2
    rw [h2] at hd
    simp at hd
  · simp only [Nat.zero_testBit, Bool.false_or, List.any_eq_true]
    refine ⟨sq, List.mem_finRange sq, ?_⟩
    simp only [Bool.and_eq_true, decide_eq_true_eq]
    exact ⟨trivial, of_decide_eq_true hd⟩

theorem find?_congr {α : Type} (l : List α) (p q : α → Bool)
    (h : ∀ x ∈ l, p x = q x) : l.find? p = l.find? q := by
  induction l with
  | nil => rfl
  | cons a l ih =>
      rw [List.find?_cons, List.find?_cons, h a (List.mem_cons_self _ _)]
      cases q a
      · exact ih (fun x hx => h x (List.mem_cons_of_mem _ hx))
      · rfl

theorem find?_eq_self {α : Type} [DecidableEq α] (a : α) :
    ∀ (l : List α), a ∈ l → l.find? (fun x => decide (x = a)) = some a := by
  intro l
  induction l with
  | nil => intro h; simp at h
  | cons b l ih =>
      intro hmem
      rw [List.find?_cons]
      by_cases hb : b = a
      · rw [hb]
        simp
      · simp only [hb, decide_False]
        rcases List.mem_cons.1 hmem with h | h
        · exact absurd h.symm hb
        · exact ih h

/-- The piece scan list of `Board::piece_at` holds every piece index whose
kind is not `Piece::None`. -/
theorem pieceAt_list_mem (pi : PieceIdx) (hpi : pi.piece ≠ Piece.none) :
    pi ∈ ([Color.white, Color.black].flatMap
      (fun c => Piece.all.map (fun p => (⟨c, p⟩ : PieceIdx)))) := by
  rcases pi with ⟨c, p⟩
  cases c <;> cases p <;> first
    | exact absurd rfl hpi
    | decide

/-- Reading a square of a `Board` built from a square map recovers the map
(the map's pieces are real pieces). -/
theorem pieceAt_boardOfSquares (f : Square → Option PieceIdx)
    (hf : ∀ sq pi, f sq = some pi → pi.piece ≠ Piece.none) (sq : Square) :
    pieceAt (boardOfSquares f) sq = f sq := by
  rw [pieceAt]
  cases hfs : f sq with
  | none =>
      apply List.find?_eq_none.2
      intro pi _
      rw [boardOfSquares_bbTest, hfs]
      simp
  | some pi0 =>
      rw [find?_congr _ _ (fun pi => decide (pi = pi0))
        (by
          intro pi _
          rw [boardOfSquares_bbTest, hfs]
          simp [eq_comm])]
      exact find?_eq_self pi0 _ (pieceAt_list_mem pi0 (hf sq pi0 hfs))

/-- Every member of the piece scan list is a real piece. -/
theorem pieceAt_list_ne_none :
    ∀ pi ∈ ([Color.white, Color.black].flatMap
      (fun c => Piece.all.map (fun p => (⟨c, p⟩ : PieceIdx)))), pi.piece ≠ Piece.none := by
  decide

/-- Every value of `pieceAt` is a real piece. -/
theorem pieceAt_ne_none (m : PieceMap) (sq : Square) (pi : PieceIdx)
    (h : pieceAt m sq = some pi) : pi.piece ≠ Piece.none := by
  rw [pieceAt] at h
  exact pieceAt_list_ne_none pi (List.mem_of_find?_eq_some h)

/-- The FEN letter of a real piece parses back to the piece, is not a
digit, a space, a slash or a whitespace, and lies in the row class. -/
theorem pieceFenChar_facts (pi : PieceIdx) (hpi : pi.piece ≠ Piece.none) :
    pieceOfFenChar (pieceFenChar pi) = some pi ∧
    ¬ ('1' ≤ pieceFenChar pi ∧ pieceFenChar pi ≤ '8') ∧
    ¬ pieceFenChar pi = ' ' ∧ ¬ pieceFenChar pi = '/' ∧
    isBoardChar (pieceFenChar pi) = true ∧ isWsChar (pieceFenChar pi) = false := by
  rcases pi with ⟨c, p⟩
  cases c <;> cases p <;> first
    | exact absurd rfl hpi
    | exact ⟨by decide, by decide, by decide, by decide, by decide, by decide⟩

/-- A successful FEN piece-letter parse yields a real piece. -/
theorem pieceOfFenChar_ne_none (c : Char) (pi : PieceIdx)
    (h : pieceOfFenChar c = some pi) : pi.piece ≠ Piece.none := by
  unfold pieceOfFenChar at h
  split at h <;> first
    | (cases h; decide)
    | exact absurd h (by simp)

/-- The walker preserves the real-piece invariant of its map. -/
theorem boardWalk_wf :
    ∀ (cs : List Char) (loc : Nat) (f : Square → Option PieceIdx),
      (∀ sq pi, f sq = some pi → pi.piece ≠ Piece.none) →
      ∀ f', boardWalk cs loc f = some f' →
        (∀ sq pi, f' sq = some pi → pi.piece ≠ Piece.none) := by
  intro cs
  induction cs with
  | nil =>
      intro loc f hf f' he
      rw [boardWalk] at he
      cases he
      exact hf
  | cons c cs ih =>
      intro loc f hf f' he
      rw [boardWalk] at he
      split at he
      · exact ih _ _ hf f' he
      · split at he
        · cases he
          exact hf
        · split at he
          · exact ih _ _ hf f' he
          · split at he
            · exact absurd he (by simp)
            · rename_i pi hpc
              split at he
              · refine ih _ _ ?_ f' he
                intro sq pj hsq
                split at hsq
                · cases hsq
                  exact pieceOfFenChar_ne_none c _ hpc
                · exact hf sq pj hsq
              · exact absurd he (by simp)

theorem boardWalk_piece (pi : PieceIdx) (hpi : pi.piece ≠ Piece.none)
    (cs : List Char) (loc : Nat) (hloc : loc < 64) (g : Square → Option PieceIdx) :
    boardWalk (pieceFenChar pi :: cs) loc g =
      boardWalk cs (loc + 1) (fun q => if q = targetSq loc then some pi else g q) := by
  obtain ⟨hparse, hnd, hnsp, hnsl, _, _⟩ := pieceFenChar_facts pi hpi
  rw [boardWalk, if_neg hnd, if_neg hnsp, if_neg hnsl]
  simp only [hparse]
  rw [dif_pos hloc]
  have h1 : (loc + 1) % 256 = loc + 1 := Nat.mod_eq_of_lt (by omega)
  rw [h1]
  have h2 : targetSq loc = (⟨(7 - loc / 8) * 8 + loc % 8, by omega⟩ : Square) := by
    rw [targetSq, dif_pos hloc]
  rw [h2]

theorem boardWalk_digit (e : Nat) (h1 : 1 ≤ e) (h2 : e ≤ 8)
    (cs : List Char) (loc : Nat) (g : Square → Option PieceIdx)
    (hloc : loc + e < 256) :
    boardWalk (digitChar e :: cs) loc g = boardWalk cs (loc + e) g := by
  obtain ⟨hd18, _, _, _⟩ := digitChar_board h1 h2
  rw [boardWalk, if_pos hd18, digitChar_toNat (by omega)]
  have h3 : 48 + e - 48 = e := by omega
  rw [h3, Nat.mod_eq_of_lt hloc]

/-- The walker across one formatted rank: it advances the location by the
rank's width and performs exactly the rank's placements. -/
theorem boardWalk_row (rest : List Char) :
    ∀ (row : List (Option PieceIdx)) (empt : Nat) (g : Square → Option PieceIdx) (loc : Nat),
      empt + row.length ≤ 8 → loc + empt + row.length ≤ 64 →
      (∀ e ∈ row, ∀ pi, e = some pi → pi.piece ≠ Piece.none) →
      boardWalk (rowCharsL row empt ++ rest) loc g =
        boardWalk rest (loc + empt + row.length) (placeRow g (loc + empt) row) := by
  intro row
  induction row with
  | nil =>
      intro empt g loc h8 h64 _
      rw [rowCharsL, placeRow, List.length_nil, Nat.add_zero]
      by_cases he : 0 < empt
      · rw [if_pos he, List.singleton_append,
          boardWalk_digit empt (by omega) (by omega) rest loc g (by omega)]
      · rw [if_neg he, List.nil_append]
        have h0 : empt = 0 := by omega
        rw [h0, Nat.add_zero]
  | cons e es ih =>
      intro empt g loc h8 h64 hwf
      rw [List.length_cons] at h8 h64
      cases e with
      | none =>
          rw [rowCharsL, placeRow,
            ih (empt + 1) g loc (by omega) (by omega)
              (fun x hx => hwf x (List.mem_cons_of_mem _ hx))]
          have harith : loc + (empt + 1) + es.length = loc + empt + (es.length + 1) := by
            omega
          have harith2 : loc + (empt + 1) = loc + empt + 1 := by omega
          rw [harith, harith2, List.length_cons]
      | some pi =>
          have hwfpi := hwf (some pi) (List.mem_cons_self _ _) pi rfl
          rw [rowCharsL, placeRow]
          by_cases he : 0 < empt
          · rw [if_pos he]
            rw [List.append_assoc, List.singleton_append, List.cons_append]
            rw [boardWalk_digit empt (by omega) (by omega) _ loc g (by omega)]
            rw [boardWalk_piece pi hwfpi _ (loc + empt) (by omega) g]
            rw [ih 0 _ (loc + empt + 1) (by omega) (by omega)
              (fun x hx => hwf x (List.mem_cons_of_mem _ hx))]
            have harith : loc + empt + 1 + 0 + es.length = loc + empt + (es.length + 1) := by
              omega
            rw [harith, List.length_cons, Nat.add_zero]
          · rw [if_neg he]
            have h0 : empt = 0 := by omega
            subst h0
            simp only [Nat.add_zero]
            rw [List.nil_append, List.cons_append]
            rw [boardWalk_piece pi hwfpi _ loc (by omega) g]
            rw [ih 0 _ (loc + 1) (by omega) (by omega)
              (fun x hx => hwf x (List.mem_cons_of_mem _ hx))]
            simp only [Nat.add_zero, List.length_cons]
            have harith : loc + 1 + es.length = loc + (es.length + 1) := by omega
            rw [harith]

theorem invLoc_lt (q : Square) : invLoc q < 64 := by
  rw [invLoc]
  have := q.isLt
  omega

theorem targetSq_invLoc (q : Square) : targetSq (invLoc q) = q := by
  rw [targetSq, dif_pos (invLoc_lt q)]
  apply Fin.ext
  show (7 - invLoc q / 8) * 8 + invLoc q % 8 = q.val
  rw [invLoc]
  have := q.isLt
  omega

theorem invLoc_targetSq (loc : Nat) (h : loc < 64) : invLoc (targetSq loc) = loc := by
  rw [targetSq, dif_pos h, invLoc]
  show (7 - ((7 - loc / 8) * 8 + loc % 8) / 8) * 8 + ((7 - loc / 8) * 8 + loc % 8) % 8 = loc
  omega

theorem invLoc_inj {a b : Square} (h : invLoc a = invLoc b) : a = b := by
  have := targetSq_invLoc a
  rw [h, targetSq_invLoc b] at this
  exact this.symm

theorem placeRow_eval :
    ∀ (row : List (Option PieceIdx)) (g : Square → Option PieceIdx) (loc : Nat) (q : Square),
      loc + row.length ≤ 64 →
      (∀ q', loc ≤ invLoc q' → g q' = none) →
      placeRow g loc row q =
        (if loc ≤ invLoc q ∧ invLoc q < loc + row.length
         then row.getD (invLoc q - loc) none else g q) := by
  intro row
  induction row with
  | nil =>
      intro g loc q h64 hg
      rw [placeRow, List.length_nil, if_neg (by omega)]
  | cons e es ih =>
      intro g loc q h64 hg
      rw [List.length_cons] at h64 ⊢
      cases e with
      | none =>
          rw [placeRow, ih _ (loc + 1) q (by omega) (fun q' h => hg q' (by omega))]
          by_cases h1 : loc + 1 ≤ invLoc q ∧ invLoc q < loc + 1 + es.length
          · rw [if_pos h1, if_pos (by omega)]
            have harith : invLoc q - loc = (invLoc q - (loc + 1)) + 1 := by omega
            rw [harith, List.getD_cons_succ]
          · rw [if_neg h1]
            by_cases h2 : invLoc q = loc
            · rw [if_pos (by omega)]
              have harith : invLoc q - loc = 0 := by omega
              rw [harith, List.getD_cons_zero]
              exact hg q (by omega)
            · rw [if_neg (by omega)]
      | some pi =>
          rw [placeRow]
          have hg2 : ∀ q', loc + 1 ≤ invLoc q' →
              (if q' = targetSq loc then some pi else g q') = none := by
            intro q' h
            rw [if_neg (by
              intro he
              rw [he, invLoc_targetSq loc (by omega)] at h
              omega)]
            exact hg q' (by omega)
          rw [ih _ (loc + 1) q (by omega) hg2]
          by_cases h1 : loc + 1 ≤ invLoc q ∧ invLoc q < loc + 1 + es.length
          · rw [if_pos h1, if_pos (by omega)]
            have harith : invLoc q - loc = (invLoc q - (loc + 1)) + 1 := by omega
            rw [harith, List.getD_cons_succ]
          · rw [if_neg h1]
            by_cases h2 : invLoc q = loc
            · have hq : q = targetSq loc := by
                rw [← h2, targetSq_invLoc]
              rw [if_pos hq,
                if_pos (show loc ≤ invLoc q ∧ invLoc q < loc + (es.length + 1) by omega)]
              have harith : invLoc q - loc = 0 := by omega
              rw [harith, List.getD_cons_zero]
            · rw [if_neg (show ¬ q = targetSq loc by
                intro he
                rw [he, invLoc_targetSq loc (by omega)] at h2
                exact h2 rfl)]
              rw [if_neg (show ¬ (loc ≤ invLoc q ∧ invLoc q < loc + (es.length + 1)) by
                omega)]

theorem placeRows_eval :
    ∀ (rows : List (List (Option PieceIdx))) (g : Square → Option PieceIdx) (loc : Nat)
      (q : Square),
      (∀ r ∈ rows, r.length = 8) → loc + 8 * rows.length ≤ 64 →
      (∀ q', loc ≤ invLoc q' → g q' = none) →
      placeRows g loc rows q =
        (if loc ≤ invLoc q ∧ invLoc q < loc + 8 * rows.length
         then (rows.getD ((invLoc q - loc) / 8) []).getD ((invLoc q - loc) % 8) none
         else g q) := by
  intro rows
  induction rows with
  | nil =>
      intro g loc q _ h64 hg
      rw [placeRows, List.length_nil, if_neg (by omega)]
  | cons r rs ih =>
      intro g loc q hlen h64 hg
      have hr8 : r.length = 8 := hlen r (List.mem_cons_self _ _)
      rw [List.length_cons] at h64 ⊢
      rw [placeRows, hr8]
      have hg2 : ∀ q', loc + 8 ≤ invLoc q' → placeRow g loc r q' = none := by
        intro q' h
        rw [placeRow_eval r g loc q' (by omega) hg, if_neg (by omega)]
        exact hg q' (by omega)
      rw [ih _ (loc + 8) q (fun r' hr' => hlen r' (List.mem_cons_of_mem _ hr'))
        (by omega) hg2]
      by_cases h1 : loc + 8 ≤ invLoc q ∧ invLoc q < loc + 8 + 8 * rs.length
      · rw [if_pos h1, if_pos (by omega)]
        have hd : (invLoc q - loc) / 8 = (invLoc q - (loc + 8)) / 8 + 1 := by omega
        have hm : (invLoc q - loc) % 8 = (invLoc q - (loc + 8)) % 8 := by omega
        rw [hd, hm, List.getD_cons_succ]
      · rw [if_neg h1]
        by_cases h2 : loc ≤ invLoc q ∧ invLoc q < loc + 8
        · rw [if_pos (by omega)]
          rw [placeRow_eval r g loc q (by omega) hg, if_pos (by omega)]
          have hd : (invLoc q - loc) / 8 = 0 := by omega
          have hm : (invLoc q - loc) % 8 = invLoc q - loc := by omega
          rw [hd, hm, List.getD_cons_zero]
        · rw [if_neg (by omega)]
          rw [placeRow_eval r g loc q (by omega) hg, if_neg (by omega)]

/-- Entries of a formatted rank are real pieces. -/
theorem rowOf_wf (m : PieceMap) (r : Fin 8) :
    ∀ e ∈ rowOf m r, ∀ pi, e = some pi → pi.piece ≠ Piece.none := by
  intro e he pi hpi
  rw [rowOf] at he
  obtain ⟨fl, _, hfl⟩ := List.mem_map.1 he
  rw [← hfl] at hpi
  exact pieceAt_ne_none m _ pi hpi

theorem rowOf_length (m : PieceMap) (r : Fin 8) : (rowOf m r).length = 8 := by
  rw [rowOf, List.length_map]
  rfl

/-- The walker across a list of formatted ranks joined by `/`. -/
theorem boardWalk_rows :
    ∀ (rows : List (List (Option PieceIdx))) (loc : Nat) (g : Square → Option PieceIdx),
      (∀ r ∈ rows, r.length = 8 ∧ ∀ e ∈ r, ∀ pi, e = some pi → pi.piece ≠ Piece.none) →
      loc + 8 * rows.length ≤ 64 →
      boardWalk (rowsJoin rows) loc g = some (placeRows g loc rows) := by
  intro rows
  induction rows with
  | nil => intro loc g _ _; rw [rowsJoin, placeRows, boardWalk]
  | cons r rs ih =>
      intro loc g hr h64
      obtain ⟨hr8, hrwf⟩ := hr r (List.mem_cons_self _ _)
      rw [List.length_cons] at h64
      cases rs with
      | nil =>
          show boardWalk (rowCharsL r 0) loc g = some (placeRows g loc [r])
          rw [← List.append_nil (rowCharsL r 0),
            boardWalk_row [] r 0 g loc (by omega) (by omega) hrwf]
          rw [boardWalk, placeRows, placeRows]
          rw [Nat.add_zero]
      | cons r2 rs2 =>
          show boardWalk (rowCharsL r 0 ++ '/' :: rowsJoin (r2 :: rs2)) loc g = _
          rw [boardWalk_row _ r 0 g loc (by omega) (by omega) hrwf]
          rw [Nat.add_zero, boardWalk_slash]
          rw [ih (loc + r.length) _ (fun r' hr' => hr r' (List.mem_cons_of_mem _ hr'))
            (by rw [List.length_cons] at h64 ⊢; omega)]
          rfl

theorem rowsGetD (m : PieceMap) :
    ∀ k, k ≤ 7 →
      ((((List.finRange 8).reverse).map (fun r => rowOf m r)).getD k []) =
        rowOf m ⟨7 - k, by omega⟩ := by
  intro k hk
  interval_cases k <;> rfl

theorem rowOfGetD (m : PieceMap) (r : Fin 8) :
    ∀ j, (h : j < 8) →
      (rowOf m r).getD j none = pieceAt m (squareOfRankFile r ⟨j, h⟩) := by
  intro j h
  interval_cases j <;> rfl

/-- Reading back the placements of all eight formatted ranks recovers
`piece_at`. -/
theorem placeRows_field (m : PieceMap) (q : Square) :
    placeRows (fun _ => none) 0 (((List.finRange 8).reverse).map (fun r => rowOf m r)) q =
      pieceAt m q := by
  rw [placeRows_eval _ _ _ _
    (by
      intro r hr
      obtain ⟨fl, _, hfl⟩ := List.mem_map.1 hr
      rw [← hfl]
      exact rowOf_length m fl)
    (by
      show 0 + 8 * (((List.finRange 8).reverse).map (fun r => rowOf m r)).length ≤ 64
      rw [List.length_map, List.length_reverse]
      rfl)
    (fun q' _ => rfl)]
  rw [if_pos (by
    refine ⟨Nat.zero_le _, ?_⟩
    show invLoc q < 0 + 8 * (((List.finRange 8).reverse).map (fun r => rowOf m r)).length
    rw [List.length_map, List.length_reverse]
    have := invLoc_lt q
    simpa using this)]
  rw [Nat.sub_zero]
  have hk : invLoc q / 8 ≤ 7 := by
    have := invLoc_lt q
    omega
  rw [rowsGetD m _ hk]
  have hj : invLoc q % 8 < 8 := by omega
  rw [rowOfGetD m _ _ hj]
  congr 1
  apply Fin.ext
  show (7 - invLoc q / 8) * 8 + invLoc q % 8 = q.val
  rw [invLoc]
  have := q.isLt
  omega

/-- The board-group walker reads back exactly `piece_at`. -/
theorem boardWalk_field (m : PieceMap) :
    boardWalk (boardFieldChars m) 0 (fun _ => none) = some (fun q => pieceAt m q) := by
  rw [boardFieldChars]
  rw [boardWalk_rows _ 0 _
    (by
      intro r hr
      obtain ⟨fl, _, hfl⟩ := List.mem_map.1 hr
      rw [← hfl]
      exact ⟨rowOf_length m fl, rowOf_wf m fl⟩)
    (by
      show 0 + 8 * (((List.finRange 8).reverse).map (fun r => rowOf m r)).length ≤ 64
      rw [List.length_map, List.length_reverse]
      rfl)]
  exact congrArg some (funext fun q => placeRows_field m q)

/-! ### The formatted fields re-split and re-parse -/

theorem rowCharsL_facts :
    ∀ (row : List (Option PieceIdx)) (empt : Nat), empt + row.length ≤ 8 →
      (∀ e ∈ row, ∀ pi, e = some pi → pi.piece ≠ Piece.none) →
      ∀ c ∈ rowCharsL row empt,
        isBoardChar c = true ∧ ¬ c = '/' ∧ isWsChar c = false := by
  intro row
  induction row with
  | nil =>
      intro empt h8 _ c hc
      rw [List.length_nil] at h8
      rw [rowCharsL] at hc
      by_cases he : 0 < empt
      · rw [if_pos he] at hc
        rw [List.mem_singleton] at hc
        subst hc
        obtain ⟨_, h2, h3, h4⟩ := @digitChar_board empt (by omega) (by omega)
        exact ⟨h2, h4, h3⟩
      · rw [if_neg he] at hc
        simp at hc
  | cons e es ih =>
      intro empt h8 hwf c hc
      rw [List.length_cons] at h8
      cases e with
      | none =>
          rw [rowCharsL] at hc
          exact ih (empt + 1) (by omega) (fun x hx => hwf x (List.mem_cons_of_mem _ hx)) c hc
      | some pi =>
          have hwfpi := hwf (some pi) (List.mem_cons_self _ _) pi rfl
          obtain ⟨_, _, _, hnsl, hcls, hws⟩ := pieceFenChar_facts pi hwfpi
          rw [rowCharsL] at hc
          rw [List.mem_append] at hc
          rcases hc with hc | hc
          · by_cases he : 0 < empt
            · rw [if_pos he, List.mem_singleton] at hc
              subst hc
              obtain ⟨_, h2, h3, h4⟩ := @digitChar_board empt (by omega) (by omega)
              exact ⟨h2, h4, h3⟩
            · rw [if_neg he] at hc
              simp at hc
          · rw [List.mem_cons] at hc
            rcases hc with hc | hc
            · subst hc
              exact ⟨hcls, hnsl, hws⟩
            · exact ih 0 (by omega) (fun x hx => hwf x (List.mem_cons_of_mem _ hx)) c hc

theorem rowCharsL_ne_nil :
    ∀ (row : List (Option PieceIdx)) (empt : Nat), 0 < empt + row.length →
      rowCharsL row empt ≠ [] := by
  intro row
  induction row with
  | nil =>
      intro empt h0
      rw [rowCharsL, if_pos (by simp at h0; omega)]
      simp
  | cons e es ih =>
      intro empt _
      cases e with
      | none =>
          rw [rowCharsL]
          exact ih (empt + 1) (by omega)
      | some pi =>
          rw [rowCharsL]
          simp

theorem rowsJoin_class :
    ∀ rows, (∀ r ∈ rows, r.length = 8 ∧
        ∀ e ∈ r, ∀ pi, e = some pi → pi.piece ≠ Piece.none) →
      ∀ c ∈ rowsJoin rows, ((isBoardChar c || c = '/') = true ∧ isWsChar c = false) := by
  intro rows
  induction rows with
  | nil => intro _ c hc; rw [rowsJoin] at hc; simp at hc
  | cons r rs ih =>
      intro hr c hc
      obtain ⟨hr8, hrwf⟩ := hr r (List.mem_cons_self _ _)
      cases rs with
      | nil =>
          rw [rowsJoin] at hc
          obtain ⟨h1, _, h3⟩ := rowCharsL_facts r 0 (by omega) hrwf c hc
          exact ⟨by rw [h1]; rfl, h3⟩
      | cons r2 rs2 =>
          rw [show rowsJoin (r :: r2 :: rs2) = rowCharsL r 0 ++ '/' :: rowsJoin (r2 :: rs2)
              from rfl] at hc
          rw [List.mem_append] at hc
          rcases hc with hc | hc
          · obtain ⟨h1, _, h3⟩ := rowCharsL_facts r 0 (by omega) hrwf c hc
            exact ⟨by rw [h1]; rfl, h3⟩
          · rw [List.mem_cons] at hc
            rcases hc with hc | hc
            · subst hc
              exact ⟨by decide, by decide⟩
            · exact ih (fun x hx => hr x (List.mem_cons_of_mem _ hx)) c hc

theorem rowsJoin_ne_nil (r : List (Option PieceIdx)) (rs : List (List (Option PieceIdx)))
    (hr : r.length = 8) : rowsJoin (r :: rs) ≠ [] := by
  cases rs with
  | nil =>
      rw [rowsJoin]
      exact rowCharsL_ne_nil r 0 (by omega)
  | cons r2 rs2 =>
      rw [show rowsJoin (r :: r2 :: rs2) = rowCharsL r 0 ++ '/' :: rowsJoin (r2 :: rs2)
          from rfl]
      simp

theorem splitSlash_rowsJoin :
    ∀ rows, rows ≠ [] → (∀ r ∈ rows, r.length = 8 ∧
        ∀ e ∈ r, ∀ pi, e = some pi → pi.piece ≠ Piece.none) →
      splitSlash (rowsJoin rows) = rows.map (fun r => rowCharsL r 0) := by
  intro rows
  induction rows with
  | nil => intro h _; exact absurd rfl h
  | cons r rs ih =>
      intro _ hr
      obtain ⟨hr8, hrwf⟩ := hr r (List.mem_cons_self _ _)
      have hnos : ∀ c ∈ rowCharsL r 0, ¬ c = '/' := fun c hc =>
        (rowCharsL_facts r 0 (by omega) hrwf c hc).2.1
      cases rs with
      | nil =>
          rw [rowsJoin, List.map_cons, List.map_nil]
          exact splitSlash_no_sep _ hnos
      | cons r2 rs2 =>
          rw [show rowsJoin (r :: r2 :: rs2) = rowCharsL r 0 ++ '/' :: rowsJoin (r2 :: rs2)
              from rfl]
          rw [splitSlash_append _ _ hnos,
            ih (by simp) (fun x hx => hr x (List.mem_cons_of_mem _ hx))]
          rfl

theorem rowsOk_format (m : PieceMap) : rowsOk (boardFieldChars m) = true := by
  rw [rowsOk, boardFieldChars]
  rw [splitSlash_rowsJoin _ (by simp [List.finRange])
    (by
      intro r hr
      obtain ⟨fl, _, hfl⟩ := List.mem_map.1 hr
      rw [← hfl]
      exact ⟨rowOf_length m fl, rowOf_wf m fl⟩)]
  rw [Bool.and_eq_true]
  constructor
  · rw [List.length_map, List.length_map, List.length_reverse]
    rfl
  · rw [List.all_eq_true]
    intro x hx
    rw [List.mem_map] at hx
    obtain ⟨r, hr, hrx⟩ := hx
    rw [List.mem_map] at hr
    obtain ⟨fl, _, hfl⟩ := hr
    rw [← hrx, ← hfl]
    rw [Bool.and_eq_true]
    constructor
    · rw [Bool.not_eq_true']
      rw [← Bool.not_eq_true]
      intro hemp
      rw [List.isEmpty_iff] at hemp
      exact rowCharsL_ne_nil (rowOf m fl) 0 (by rw [rowOf_length]; omega) hemp
    · rw [List.all_eq_true]
      intro c hc
      exact (rowCharsL_facts (rowOf m fl) 0 (by rw [rowOf_length]) (rowOf_wf m fl) c hc).1

theorem natCharsAux_zero : ∀ fuel, natCharsAux 0 fuel = [] := by
  intro fuel
  cases fuel with
  | zero => rfl
  | succ fuel => rw [natCharsAux, if_pos rfl]

theorem natCharsAux_facts :
    ∀ (fuel n : Nat), 0 < n → n < 10 ^ fuel →
      natCharsAux n fuel ≠ [] ∧ (∀ c ∈ natCharsAux n fuel, isDigitChar c = true) ∧
      (natCharsAux n fuel).foldl (fun acc c => acc * 10 + (c.toNat - 48)) 0 = n := by
  intro fuel
  induction fuel with
  | zero =>
      intro n h0 h1
      rw [pow_zero] at h1
      omega
  | succ fuel ih =>
      intro n h0 h1
      rw [natCharsAux, if_neg (by omega)]
      by_cases hq : n / 10 = 0
      · rw [hq, natCharsAux_zero, List.nil_append]
        refine ⟨by simp, ?_, ?_⟩
        · intro c hc
          rw [List.mem_singleton] at hc
          subst hc
          exact digitChar_digit (by omega)
        · rw [List.foldl_cons, List.foldl_nil, digitChar_toNat (by omega)]
          omega
      · have hlt : n / 10 < 10 ^ fuel := Nat.div_lt_of_lt_mul (by rw [← pow_succ']; exact h1)
        obtain ⟨hne, hdig, hval⟩ := ih (n / 10) (by omega) hlt
        refine ⟨by simp, ?_, ?_⟩
        · intro c hc
          rw [List.mem_append] at hc
          rcases hc with hc | hc
          · exact hdig c hc
          · rw [List.mem_singleton] at hc
            subst hc
            exact digitChar_digit (by omega)
        · rw [List.foldl_append, hval, List.foldl_cons, List.foldl_nil,
            digitChar_toNat (by omega)]
          omega

theorem parseUsize_natChars {n : Nat} (h : n < 2 ^ 64) :
    parseUsize (natChars n) = some n := by
  rw [natChars]
  by_cases h0 : n = 0
  · subst h0
    rw [if_pos rfl]
    decide
  · rw [if_neg h0]
    have hbig : n < 10 ^ 25 := by
      calc n < 2 ^ 64 := h
        _ < 10 ^ 25 := by norm_num
    obtain ⟨hne, hdig, hval⟩ := natCharsAux_facts 25 n (by omega) hbig
    rw [parseUsize,
      if_neg (by
        intro hcontra
        rcases hcontra with hc | hc
        · rw [List.isEmpty_iff] at hc
          exact hne hc
        · exact hc (List.all_eq_true.2 hdig)),
      hval, if_pos h]

theorem castle_round4 (wk wq bk bq : Bool) :
    (if castleChars (fun c => match c with
        | Color.white => ⟨wk, wq⟩
        | Color.black => ⟨bk, bq⟩) = ['-']
     then some (fun (_ : Color) => CastleRights.nothing)
     else castleFold (castleChars (fun c => match c with
        | Color.white => ⟨wk, wq⟩
        | Color.black => ⟨bk, bq⟩)) (fun (_ : Color) => CastleRights.nothing)) =
    some (fun c => match c with
        | Color.white => ⟨wk, wq⟩
        | Color.black => ⟨bk, bq⟩) := by
  cases wk <;> cases wq <;> cases bk <;> cases bq <;>
    exact congrArg some (funext fun c => by cases c <;> rfl)

/-- The castle-rights group of the formatter re-parses to the same rights. -/
theorem castle_round (rights : Color → CastleRights) :
    (if castleChars rights = ['-'] then some (fun (_ : Color) => CastleRights.nothing)
     else castleFold (castleChars rights) (fun (_ : Color) => CastleRights.nothing)) =
    some rights := by
  have hr : rights = fun c => match c with
      | Color.white =>
          (⟨(rights Color.white).kingside, (rights Color.white).queenside⟩ : CastleRights)
      | Color.black => ⟨(rights Color.black).kingside, (rights Color.black).queenside⟩ := by
    funext c
    cases c <;> rfl
  rw [hr]
  exact castle_round4 _ _ _ _

/-- Square names re-parse to the same square. -/
theorem squareTryFrom_squareChars : ∀ sq : Square,
    squareTryFrom (squareChars sq) = some sq := by
  decide

theorem squareChars_ne_dash : ∀ sq : Square, ¬ squareChars sq = ['-'] := by
  decide

theorem squareChars_classes : ∀ sq : Square,
    isFileChar ((squareChars sq).getD 0 ' ') = true ∧
    isRankChar ((squareChars sq).getD 1 ' ') = true ∧
    (∀ c ∈ squareChars sq, isWsChar c = false) := by
  decide

theorem expectWs_sp (r : List Char) : expectWs (' ' :: r) = some r := by
  rw [expectWs, if_pos (by decide)]

theorem isCastleChar_ne_dash {c : Char} (h : isCastleChar c = true) : ¬ c = '-' := by
  intro he
  subst he
  exact absurd h (by decide)

theorem isFileChar_ne_dash {c : Char} (h : isFileChar c = true) : ¬ c = '-' := by
  intro he
  subst he
  exact absurd h (by decide)

theorem fenSplit_structured
    (B : List Char) (T : Char) (C E H F : List Char)
    (hB1 : B ≠ []) (hB2 : ∀ c ∈ B, (isBoardChar c || c = '/') = true ∧ isWsChar c = false)
    (hT : (T = 'b' || T = '|' || T = 'w') = true)
    (hC : C = ['-'] ∨ (C ≠ [] ∧ C.length ≤ 4 ∧ ∀ c ∈ C, isCastleChar c = true))
    (hE : E = ['-'] ∨ ∃ c1 c2, E = [c1, c2] ∧ isFileChar c1 = true ∧ isRankChar c2 = true)
    (hH1 : H ≠ []) (hH2 : ∀ c ∈ H, isDigitChar c = true)
    (hF1 : F ≠ []) (hF2 : ∀ c ∈ F, isDigitChar c = true) :
    fenSplit (B ++ ' ' :: T :: ' ' :: (C ++ ' ' :: (E ++ ' ' :: (H ++ ' ' :: F)))) =
      some (B, T, C, E, H, F) := by
  have hBe : B.isEmpty = false := by
    cases B
    · exact absurd rfl hB1
    · rfl
  have hHe : H.isEmpty = false := by
    cases H
    · exact absurd rfl hH1
    · rfl
  have hFe : F.isEmpty = false := by
    cases F
    · exact absurd rfl hF1
    · rfl
  have hs1 := spanP_append B ' ' (T :: ' ' :: (C ++ ' ' :: (E ++ ' ' :: (H ++ ' ' :: F))))
    (fun c hc => (hB2 c hc).1) (by decide)
  have hs3 := spanP_append H ' ' F hH2 (by decide)
  have hs4 := spanP_all F hF2
  rw [fenSplit, hs1]
  simp only []
  rw [hBe]
  simp only [Bool.false_eq_true, if_false]
  rw [expectWs_sp]
  simp only []
  rw [if_pos hT, expectWs_sp]
  simp only []
  rcases hC with hC | ⟨hCne, hClen, hCcls⟩
  · subst hC
    simp only [List.cons_append, List.nil_append, if_true]
    rw [expectWs_sp]
    simp only []
    rcases hE with hE | ⟨c1, c2, hE, hc1, hc2⟩
    · subst hE
      simp only [List.cons_append, List.nil_append, if_true]
      rw [expectWs_sp]
      simp only []
      rw [hs3]
      simp only []
      rw [hHe]
      simp only [Bool.false_eq_true, if_false]
      rw [expectWs_sp]
      simp only []
      rw [hs4]
      simp only []
      rw [if_neg (by simp [hFe])]
    · subst hE
      simp only [List.cons_append, List.nil_append]
      rw [if_neg (isFileChar_ne_dash hc1)]
      rw [if_pos (by rw [hc1, hc2]; rfl)]
      simp only []
      rw [expectWs_sp]
      simp only []
      rw [hs3]
      simp only []
      rw [hHe]
      simp only [Bool.false_eq_true, if_false]
      rw [expectWs_sp]
      simp only []
      rw [hs4]
      simp only []
      rw [if_neg (by simp [hFe])]
  · obtain ⟨c0, C', rfl⟩ := List.exists_cons_of_ne_nil hCne
    have hc0 : ¬ c0 = '-' := isCastleChar_ne_dash (hCcls c0 (List.mem_cons_self _ _))
    have hs2 := spanP_append (c0 :: C') ' ' (E ++ ' ' :: (H ++ ' ' :: F)) hCcls (by decide)
    rw [List.cons_append] at hs2
    simp only [List.cons_append]
    rw [if_neg hc0, hs2]
    simp only []
    rw [if_pos (And.intro (by rw [List.length_cons]; omega) hClen)]
    simp only []
    rw [expectWs_sp]
    simp only []
    rcases hE with hE | ⟨c1, c2, hE, hc1, hc2⟩
    · subst hE
      simp only [List.cons_append, List.nil_append, if_true]
      rw [expectWs_sp]
      simp only []
      rw [hs3]
      simp only []
      rw [hHe]
      simp only [Bool.false_eq_true, if_false]
      rw [expectWs_sp]
      simp only []
      rw [hs4]
      simp only []
      rw [if_neg (by simp [hFe])]
    · subst hE
      simp only [List.cons_append, List.nil_append]
      rw [if_neg (isFileChar_ne_dash hc1)]
      rw [if_pos (by rw [hc1, hc2]; rfl)]
      simp only []
      rw [expectWs_sp]
      simp only []
      rw [hs3]
      simp only []
      rw [hHe]
      simp only [Bool.false_eq_true, if_false]
      rw [expectWs_sp]
      simp only []
      rw [hs4]
      simp only []
      rw [if_neg (by simp [hFe])]

theorem boardFieldChars_ne_nil (m : PieceMap) : boardFieldChars m ≠ [] := by
  rw [boardFieldChars]
  cases hrows : ((List.finRange 8).reverse).map (fun r => rowOf m r) with
  | nil => simp [List.finRange] at hrows
  | cons r rs =>
      have hmem : r ∈ ((List.finRange 8).reverse).map (fun r => rowOf m r) := by
        rw [hrows]; exact List.mem_cons_self _ _
      obtain ⟨fl, _, hfl⟩ := List.mem_map.1 hmem
      exact rowsJoin_ne_nil r rs (by rw [← hfl]; exact rowOf_length m fl)

theorem boardFieldChars_class (m : PieceMap) :
    ∀ c ∈ boardFieldChars m, (isBoardChar c || c = '/') = true ∧ isWsChar c = false :=
  fun c hc => rowsJoin_class _ (fun r hr => by
    obtain ⟨fl, _, hfl⟩ := List.mem_map.1 hr
    rw [← hfl]
    exact ⟨rowOf_length m fl, rowOf_wf m fl⟩) c hc

theorem natChars_facts {n : Nat} (h : n < 2 ^ 64) :
    natChars n ≠ [] ∧ ∀ c ∈ natChars n, isDigitChar c = true := by
  rw [natChars]
  by_cases h0 : n = 0
  · rw [if_pos h0]
    refine ⟨by simp, ?_⟩
    intro c hc
    simp at hc
    subst hc
    decide
  · rw [if_neg h0]
    have hfacts := natCharsAux_facts 25 n (Nat.pos_of_ne_zero h0)
      (lt_trans h (by decide))
    exact ⟨hfacts.1, hfacts.2.1⟩

theorem castleChars_spec (rights : Color → CastleRights) :
    castleChars rights = ['-'] ∨
      (castleChars rights ≠ [] ∧ (castleChars rights).length ≤ 4 ∧
        ∀ c ∈ castleChars rights, isCastleChar c = true) := by
  have hr : rights = fun c => match c with
      | Color.white =>
          (⟨(rights Color.white).kingside, (rights Color.white).queenside⟩ : CastleRights)
      | Color.black => ⟨(rights Color.black).kingside, (rights Color.black).queenside⟩ := by
    funext c
    cases c <;> rfl
  rw [hr]
  cases (rights Color.white).kingside <;> cases (rights Color.white).queenside <;>
    cases (rights Color.black).kingside <;> cases (rights Color.black).queenside <;> decide

theorem epChars_spec (ep : Option Square) :
    epChars ep = ['-'] ∨
      ∃ c1 c2, epChars ep = [c1, c2] ∧ isFileChar c1 = true ∧ isRankChar c2 = true := by
  cases ep with
  | none => exact Or.inl rfl
  | some sq =>
      refine Or.inr ⟨_, _, rfl, ?_, ?_⟩
      · exact (squareChars_classes sq).1
      · exact (squareChars_classes sq).2.1

theorem ep_round (ep : Option Square) :
    (if epChars ep = ['-'] then some (none : Option Square)
     else (squareTryFrom (epChars ep)).map some) = some ep := by
  cases ep with
  | none => rw [if_pos (show epChars (none : Option Square) = ['-'] from rfl)]
  | some sq =>
      rw [if_neg (show ¬ epChars (some sq) = ['-'] from squareChars_ne_dash sq)]
      show (squareTryFrom (squareChars sq)).map some = some (some sq)
      rw [squareTryFrom_squareChars sq]
      rfl

theorem parseUsize_lt {cs : List Char} {n : Nat} (h : parseUsize cs = some n) :
    n < 2 ^ 64 := by
  rw [parseUsize] at h
  split at h
  · exact absurd h (by simp)
  · split at h
    · injection h with h'
      subst h'
      assumption
    · exact absurd h (by simp)

/-- Every state in the image of the parser has a board assembled from a
well-formed square assignment and 64-bit clock fields. -/
theorem fenParseL_inv {cs : List Char} {s : State} (h : fenParseL cs = some s) :
    (∃ g, (∀ sq pi, g sq = some pi → pi.piece ≠ Piece.none) ∧
      s.board = boardOfSquares g) ∧
    s.clock.halfmoveClock < 2 ^ 64 ∧ s.clock.fullmoveNumber < 2 ^ 64 := by
  rw [fenParseL] at h
  split at h
  · exact absurd h (by simp)
  · split at h
    · split at h
      · exact absurd h (by simp)
      · rename_i f hbw
        split at h
        · exact absurd h (by simp)
        · split at h
          · exact absurd h (by simp)
          · split at h
            · exact absurd h (by simp)
            · split at h
              · exact absurd h (by simp)
              · rename_i hm hhm
                split at h
                · exact absurd h (by simp)
                · rename_i fm hfm
                  injection h with h'
                  subst h'
                  exact ⟨⟨f, boardWalk_wf _ 0 _
                      (fun sq pi hpi => Option.noConfusion hpi) f hbw, rfl⟩,
                    parseUsize_lt hhm, parseUsize_lt hfm⟩
    · exact absurd h (by simp)

/-- Formatting a parser-image state and re-parsing reconstructs the state. -/
theorem fenParseL_formatL (s : State)
    (hg : ∃ g, (∀ sq pi, g sq = some pi → pi.piece ≠ Piece.none) ∧
      s.board = boardOfSquares g)
    (hhm : s.clock.halfmoveClock < 2 ^ 64) (hfm : s.clock.fullmoveNumber < 2 ^ 64) :
    fenParseL (fenFormatL s) = some s := by
  obtain ⟨bd, turn, rights, ep, clk⟩ := s
  obtain ⟨hm, fm⟩ := clk
  obtain ⟨g, hgwf, hb⟩ := hg
  have hb' : bd = boardOfSquares g := hb
  subst hb'
  have hhm' : hm < 2 ^ 64 := hhm
  have hfm' : fm < 2 ^ 64 := hfm
  have hpg : (fun q => pieceAt (boardOfSquares g) q) = g :=
    funext (fun q => pieceAt_boardOfSquares g hgwf q)
  cases turn with
  | white =>
      have hsplit : fenSplit (fenFormatL
          ⟨boardOfSquares g, Color.white, rights, ep, ⟨hm, fm⟩⟩) =
          some (boardFieldChars (boardOfSquares g), 'w', castleChars rights,
            epChars ep, natChars hm, natChars fm) := by
        have hshape : fenFormatL ⟨boardOfSquares g, Color.white, rights, ep, ⟨hm, fm⟩⟩ =
            boardFieldChars (boardOfSquares g) ++ ' ' :: 'w' :: ' ' ::
              (castleChars rights ++ ' ' :: (epChars ep ++ ' ' ::
                (natChars hm ++ ' ' :: natChars fm))) := by
          simp only [fenFormatL, List.cons_append, List.append_assoc]
        rw [hshape]
        exact fenSplit_structured _ _ _ _ _ _
          (boardFieldChars_ne_nil _) (boardFieldChars_class _) (by decide)
          (castleChars_spec rights) (epChars_spec ep)
          (natChars_facts hhm').1 (natChars_facts hhm').2
          (natChars_facts hfm').1 (natChars_facts hfm').2
      rw [fenParseL, hsplit]
      simp only []
      rw [rowsOk_format, if_pos rfl, boardWalk_field]
      simp only []
      rw [hpg]
      rw [castle_round rights]
      simp only []
      rw [ep_round ep]
      simp only []
      rw [parseUsize_natChars hhm']
      simp only []
      rw [parseUsize_natChars hfm']
  | black =>
      have hsplit : fenSplit (fenFormatL
          ⟨boardOfSquares g, Color.black, rights, ep, ⟨hm, fm⟩⟩) =
          some (boardFieldChars (boardOfSquares g), 'b', castleChars rights,
            epChars ep, natChars hm, natChars fm) := by
        have hshape : fenFormatL ⟨boardOfSquares g, Color.black, rights, ep, ⟨hm, fm⟩⟩ =
            boardFieldChars (boardOfSquares g) ++ ' ' :: 'b' :: ' ' ::
              (castleChars rights ++ ' ' :: (epChars ep ++ ' ' ::
                (natChars hm ++ ' ' :: natChars fm))) := by
          simp only [fenFormatL, List.cons_append, List.append_assoc]
        rw [hshape]
        exact fenSplit_structured _ _ _ _ _ _
          (boardFieldChars_ne_nil _) (boardFieldChars_class _) (by decide)
          (castleChars_spec rights) (epChars_spec ep)
          (natChars_facts hhm').1 (natChars_facts hhm').2
          (natChars_facts hfm').1 (natChars_facts hfm').2
      rw [fenParseL, hsplit]
      simp only []
      rw [rowsOk_format, if_pos rfl, boardWalk_field]
      simp only []
      rw [hpg]
      rw [castle_round rights]
      simp only []
      rw [ep_round ep]
      simp only []
      rw [parseUsize_natChars hhm']
      simp only []
      rw [parseUsize_natChars hfm']

/-- C3: FEN notation is a round-trip pair. For every state obtained by
parsing a FEN string, formatting it and parsing again yields the same
state (`parse ∘ format = id` on parser-image states), and for every
canonical FEN string (one produced by formatting a parsed state),
formatting the state parsed from it reproduces the string character for
character (`format ∘ parse = id` on canonical inputs). -/
theorem c3_fen_round_trip :
    (∀ t : String, ((fenParse t).map fenFormat).bind fenParse = fenParse t) ∧
    (∀ t u : String, (fenParse t).map fenFormat = some u →
      (fenParse u).map fenFormat = some u) := by
  have key : ∀ (s : State) (cs : List Char), fenParseL cs = some s →
      fenParse (fenFormat s) = some s := by
    intro s cs h
    obtain ⟨hg, hhm, hfm⟩ := fenParseL_inv h
    exact fenParseL_formatL s hg hhm hfm
  constructor
  · intro t
    cases h : fenParse t with
    | none => rfl
    | some s => exact key s t.data h
  · intro t u h
    cases ht : fenParse t with
    | none => rw [ht] at h; exact absurd h (by simp)
    | some s =>
        rw [ht] at h
        have h' : some (fenFormat s) = some u := h
        injection h' with h''
        subst h''
        rw [key s t.data ht]
        rfl

theorem c3_fen_round_trip_witness :
    (fenParse fenDefault).map fenFormat = some fenDefault ∧
    ((fenParse fenDefault).map fenFormat).bind fenParse = fenParse fenDefault :=
  ⟨c3_fen_round_trip.2 fenDefault fenDefault (by decide),
   c3_fen_round_trip.1 fenDefault⟩

theorem byPerformingMovesU_eq : byPerformingMoves = byPerformingMovesU := by
  funext s l
  induction l generalizing s with
  | nil => rfl
  | cons q qs ih =>
      rw [byPerformingMoves, byPerformingMovesU, computeLegalMovesU_eq]
      cases (computeLegalMovesU s).filter (fun r => MoveQuery.test q r.1) with
      | nil => rfl
      | cons r rs =>
          cases rs with
          | cons r2 rs2 => rfl
          | nil =>
              simp only []
              cases hb : byPerformingMove s r.1 with
              | ok s2 => exact ih s2
              | error e => rfl

theorem uciHandlePositionU_eq : uciHandlePosition = uciHandlePositionU := by
  funext cur args
  rw [uciHandlePosition, uciHandlePositionU, byPerformingMovesU_eq]

/-- C8: refuted on the `startpos` + failing-move path.  The handler assigns
`current_position = State::default()` before applying the listed moves, so
when applying a listed move fails it prints `info string invalid move` and
continues, but the held position has been replaced by the freshly loaded
base position instead of being left as it was before the command: from a
prior position with Black to move, `position startpos moves e2e5` leaves
the loop holding the default start position. -/
theorem c8_position_error_mutates :
    (uciHandlePosition c8Prev ["startpos", "moves", "e2e5"]).2 =
      ["info string invalid move"] ∧
    (uciHandlePosition c8Prev ["startpos", "moves", "e2e5"]).1 = stateDefault ∧
    stateDefault ≠ c8Prev := by
  rw [uciHandlePositionU_eq]
  refine ⟨?_, ?_, ?_⟩ <;> decide

end Weechess
